import Mathlib

/-!
# GoHLStreamer: a verification development

A shallow embedding of `pkg/cache/cache.go` (the disk-backed LRU cache) and of
`pkg/api/api.go` (request validation, the `/hls/` handler, `convertToHLS`,
`uploadHLSFiles`) together with the theorems that settle the properties the
design document states about them.

Conventions.
* A Go `[]byte` is a `List Nat`, a Go `error` is an `Option Error` (`none` is `nil`).
  Byte slices are values here: the cache stores the slice it is given and
  returns the slice it holds without copying, and a caller that writes to such
  a slice afterwards is outside the model.
* The operating system is a record of functions over a disk type `σ`, so every
  theorem that does not depend on what the disk does holds for every outcome of
  every system call.  `Disk` is a concrete reference file system used where a
  property does depend on it.
* `container/list` elements are addresses into `LRUCache.elems`; `cacheList`
  holds the linked addresses front first and `cacheMap` is the Go map from
  path to element address.
-/

namespace GoHLStreamer

/-! ## Strings and paths (`strings`, `path/filepath`) -/

abbrev Bytes := List Nat

abbrev Error := String

/-- Split of a character list at every `/` (the components of a path). -/
def splitSlash : List Char → List (List Char)
  | [] => [[]]
  | c :: cs =>
    if c = '/' then [] :: splitSlash cs
    else
      match splitSlash cs with
      | [] => [[c]]
      | h :: t => (c :: h) :: t

/-- One component processed by `filepath.Clean`; `stack` holds the components
kept so far, last one first. -/
def cleanStep (rooted : Bool) (stack : List (List Char)) (comp : List Char) :
    List (List Char) :=
  if comp = [] ∨ comp = ['.'] then stack
  else if comp = ['.', '.'] then
    match stack with
    | [] => if rooted then [] else [comp]
    | top :: rest => if top = ['.', '.'] then comp :: stack else rest
  else comp :: stack

/-- Components joined by `/`. -/
def joinSlash : List (List Char) → List Char
  | [] => []
  | [a] => a
  | a :: b :: rest => a ++ '/' :: joinSlash (b :: rest)

/-- Go `filepath.Clean` on Unix: empty and `.` components are dropped, `..`
removes the component before it, a rooted path never climbs above `/`, and the
empty result is `.`. -/
def Clean (path : String) : String :=
  let cs := path.toList
  let rooted := cs.head? = some '/'
  let stack := (splitSlash cs).foldl (cleanStep rooted) []
  let body := joinSlash stack.reverse
  if rooted then String.mk ('/' :: body)
  else if body = [] then "." else String.mk body

/-- Go `filepath.Join` of two elements: empty elements are ignored, the rest
is joined by `/` and cleaned; all elements empty gives the empty string. -/
def Join (a b : String) : String :=
  if a ≠ "" then Clean (a ++ "/" ++ b)
  else if b ≠ "" then Clean b
  else ""

/-! ## The operating system interface used by the cache -/

/-- The `os` / `ioutil` calls of `cache.go` over a disk state `σ`.  Each call
returns the disk after it and its Go result. -/
structure OS (σ : Type) where
  MkdirAll : σ → String → σ × Option Error
  ReadFile : σ → String → Except Error Bytes
  WriteFile : σ → String → Bytes → σ × Option Error
  Remove : σ → String → σ × Option Error
  RemoveAll : σ → String → σ × Option Error

/-! ## `pkg/cache/cache.go` -/

structure CacheFile where
  Path : String
  Data : Bytes
deriving DecidableEq, Repr

structure LRUCache where
  maxFiles : Int
  /-- every `list.Element` allocated so far; an element's address is its position -/
  elems : List CacheFile
  /-- `container/list`: the addresses of the linked elements, front first -/
  cacheList : List Nat
  /-- `map[string]*list.Element` -/
  cacheMap : List (String × Nat)
  cacheFolder : String
deriving DecidableEq, Repr

/-- `m[k]` with the comma-ok result. -/
def mapLookup (m : List (String × Nat)) (k : String) : Option Nat :=
  match m with
  | [] => none
  | (k', v) :: rest => if k' = k then some v else mapLookup rest k

/-- `m[k] = v`. -/
def mapInsert (m : List (String × Nat)) (k : String) (v : Nat) : List (String × Nat) :=
  (k, v) :: m.filter (fun kv => kv.1 ≠ k)

/-- `delete(m, k)`. -/
def mapDelete (m : List (String × Nat)) (k : String) : List (String × Nat) :=
  m.filter (fun kv => kv.1 ≠ k)

/-- The `*CacheFile` stored in the element at address `a`. -/
def LRUCache.deref (c : LRUCache) (a : Nat) : CacheFile :=
  c.elems.getD a ⟨"", []⟩

/-- `list.PushFront(v)`: a fresh element, linked at the front. -/
def LRUCache.PushFront (c : LRUCache) (v : CacheFile) : LRUCache × Nat :=
  ({ c with elems := c.elems ++ [v], cacheList := c.elems.length :: c.cacheList },
   c.elems.length)

/-- `list.MoveToFront(e)`: nothing happens when `e` is not linked in the list. -/
def MoveToFront (l : List Nat) (a : Nat) : List Nat :=
  if a ∈ l then a :: l.erase a else l

/-- `list.Back()`. -/
def Back (l : List Nat) : Option Nat := l.getLast?

/-- `New(maxFiles, cacheFolder)`. -/
def New {σ : Type} (os : OS σ) (disk : σ) (maxFiles : Int) (cacheFolder : String) :
    σ × Except Error LRUCache :=
  match os.MkdirAll disk cacheFolder with
  | (disk1, some err) => (disk1, .error err)
  | (disk1, none) =>
    (disk1, .ok { maxFiles := maxFiles, elems := [], cacheList := [], cacheMap := [],
                  cacheFolder := cacheFolder })

/-- `(c *LRUCache) removeLRUFile()`: the error of `os.Remove` is discarded. -/
def removeLRUFile {σ : Type} (os : OS σ) (c : LRUCache) (disk : σ) : LRUCache × σ :=
  match Back c.cacheList with
  | none => (c, disk)
  | some element =>
    let c1 := { c with cacheList := c.cacheList.erase element,
                       cacheMap := mapDelete c.cacheMap (c.deref element).Path }
    let filePath := Join c.cacheFolder (c.deref element).Path
    (c1, (os.Remove disk filePath).1)

/-- `(c *LRUCache) GetFile(path)`. -/
def GetFile {σ : Type} (os : OS σ) (c : LRUCache) (disk : σ) (path : String) :
    LRUCache × σ × Except Error Bytes :=
  match mapLookup c.cacheMap path with
  | some element =>
    ({ c with cacheList := MoveToFront c.cacheList element }, disk,
     .ok (c.deref element).Data)
  | none =>
    let filePath := Join c.cacheFolder path
    match os.ReadFile disk filePath with
    | .error err => (c, disk, .error err)
    | .ok data =>
      let (c1, element) := c.PushFront ⟨path, data⟩
      let c2 := { c1 with cacheMap := mapInsert c1.cacheMap path element }
      if (c2.cacheList.length : Int) > c2.maxFiles then
        let (c3, disk3) := removeLRUFile os c2 disk
        (c3, disk3, .ok data)
      else (c2, disk, .ok data)

/-- `(c *LRUCache) PutFile(path, data)`. -/
def PutFile {σ : Type} (os : OS σ) (c : LRUCache) (disk : σ) (path : String)
    (data : Bytes) : LRUCache × σ × Option Error :=
  let filePath := Join c.cacheFolder path
  match os.WriteFile disk filePath data with
  | (disk1, some err) => (c, disk1, some err)
  | (disk1, none) =>
    match mapLookup c.cacheMap path with
    | some element =>
      ({ c with elems := c.elems.set element { c.deref element with Data := data },
                cacheList := MoveToFront c.cacheList element }, disk1, none)
    | none =>
      let (c1, element) := c.PushFront ⟨path, data⟩
      let c2 := { c1 with cacheMap := mapInsert c1.cacheMap path element }
      if (c2.cacheList.length : Int) > c2.maxFiles then
        let (c3, disk3) := removeLRUFile os c2 disk1
        (c3, disk3, none)
      else (c2, disk1, none)

/-- `(c *LRUCache) ClearCache()`. -/
def ClearCache {σ : Type} (os : OS σ) (c : LRUCache) (disk : σ) :
    LRUCache × σ × Option Error :=
  let c1 := { c with cacheList := [], cacheMap := [] }
  let r := os.RemoveAll disk c.cacheFolder
  (c1, r.1, r.2)

/-- One call on the cache. -/
inductive Op where
  | get (path : String)
  | put (path : String) (data : Bytes)
  | clear
deriving DecidableEq, Repr

/-- What a call returned: the bytes of a `GetFile`, or the `error`. -/
inductive Result where
  | bytes (data : Bytes)
  | fail (err : Error)
  | done
deriving DecidableEq, Repr

def Result.ofError : Option Error → Result
  | none => .done
  | some err => .fail err

/-- A successful call is one that returned a `nil` error. -/
def Result.ok : Result → Bool
  | .fail _ => false
  | _ => true

/-- One call applied to the cache and the disk. -/
def step {σ : Type} (os : OS σ) (s : LRUCache × σ) : Op → (LRUCache × σ) × Result
  | .get path =>
    match GetFile os s.1 s.2 path with
    | (c, disk, .ok data) => ((c, disk), .bytes data)
    | (c, disk, .error err) => ((c, disk), .fail err)
  | .put path data =>
    match PutFile os s.1 s.2 path data with
    | (c, disk, err) => ((c, disk), Result.ofError err)
  | .clear =>
    match ClearCache os s.1 s.2 with
    | (c, disk, err) => ((c, disk), Result.ofError err)

/-- The state after a finite sequence of calls. -/
def run {σ : Type} (os : OS σ) (s : LRUCache × σ) : List Op → LRUCache × σ
  | [] => s
  | op :: ops => run os (step os s op).1 ops

/-- The index entries, most recently used first. -/
def LRUCache.entries (c : LRUCache) : List CacheFile :=
  c.cacheList.map c.deref

/-- The keys of `cacheMap`. -/
def LRUCache.keys (c : LRUCache) : List String :=
  c.cacheMap.map Prod.fst

/-! ## A reference file system -/

inductive Node where
  | file (data : Bytes)
  | dir
deriving DecidableEq, Repr

/-- The disk: the entries that exist, by cleaned path.  The root `/` and the
working directory `.` always exist as directories. -/
abbrev Disk := List (String × Node)

def Disk.lookup (d : Disk) (p : String) : Option Node :=
  match d with
  | [] => none
  | (k, v) :: rest => if k = p then some v else Disk.lookup rest p

def Disk.erase (d : Disk) (p : String) : Disk :=
  d.filter (fun e => e.1 ≠ p)

def Disk.set (d : Disk) (p : String) (n : Node) : Disk :=
  (p, n) :: d.erase p

/-- Go `filepath.Dir`: the path up to its last `/`, cleaned. -/
def Dir (p : String) : String :=
  Clean (String.mk (p.toList.reverse.dropWhile (fun c => c ≠ '/')).reverse)

/-- Go `filepath.Base` of a cleaned path: its last component. -/
def Base (p : String) : String :=
  String.mk (p.toList.reverse.takeWhile (fun c => c ≠ '/')).reverse

def Disk.isDir (d : Disk) (p : String) : Bool :=
  p = "/" || p = "." || d.lookup p = some .dir

/-- Whether `k` lies strictly below the directory `p`. -/
def below (p k : String) : Bool :=
  if p = "/" then k ≠ "/" && k.toList.head? = some '/'
  else if p = "." then k ≠ "." && k ≠ "/" && k.toList.head? ≠ some '/'
  else (p.toList ++ ['/']).isPrefixOf k.toList

def Disk.readFile (d : Disk) (p : String) : Except Error Bytes :=
  match d.lookup p with
  | some (.file data) => .ok data
  | some .dir => .error "is a directory"
  | none => if p = "/" || p = "." then .error "is a directory"
            else .error "no such file or directory"

def Disk.writeFile (d : Disk) (p : String) (data : Bytes) : Disk × Option Error :=
  if d.isDir p then (d, some "is a directory")
  else if d.isDir (Dir p) then (d.set p (.file data), none)
  else (d, some "no such file or directory")

def Disk.remove (d : Disk) (p : String) : Disk × Option Error :=
  match d.lookup p with
  | none => (d, some "no such file or directory")
  | some (.file _) => (d.erase p, none)
  | some .dir =>
    if d.any (fun e => below p e.1) then (d, some "directory not empty")
    else (d.erase p, none)

def Disk.removeAll (d : Disk) (p : String) : Disk × Option Error :=
  (d.filter (fun e => e.1 ≠ p && !below p e.1), none)

/-- The proper ancestors of a cleaned path and the path itself, outermost first. -/
def ancestors (p : String) : List String :=
  let cs := p.toList
  let rooted := cs.head? = some '/'
  let comps := (splitSlash cs).filter (fun c => c ≠ [])
  (List.range comps.length).map (fun i =>
    String.mk ((if rooted then ['/'] else []) ++ joinSlash (comps.take (i + 1))))

/-- The steps of `os.MkdirAll` over the listed paths, outermost first: an
existing directory is kept, a missing one is created, a regular file in the way
is an error. -/
def mkdirChain (d : Disk) : List String → Disk × Option Error
  | [] => (d, none)
  | p :: rest =>
    match d.lookup p with
    | some (.file _) => (d, some "not a directory")
    | some .dir => mkdirChain d rest
    | none => if p = "/" || p = "." then mkdirChain d rest
              else mkdirChain (d.set p .dir) rest

/-- `os.MkdirAll`: the proper ancestors of the cleaned path are made first,
then the directory itself. -/
def Disk.mkdirAll (d : Disk) (p : String) : Disk × Option Error :=
  if p = "" then (d, some "no such file or directory")
  else
    match mkdirChain d (ancestors (Clean p)).dropLast with
    | (d1, some err) => (d1, some err)
    | (d1, none) => mkdirChain d1 [Clean p]

/-- The reference operating system. -/
def refOS : OS Disk where
  MkdirAll := Disk.mkdirAll
  ReadFile := Disk.readFile
  WriteFile := Disk.writeFile
  Remove := Disk.remove
  RemoveAll := Disk.removeAll

/-! ## Invariant and abstraction of the index -/

/-- The structural invariant of the index: the map and the list hold the same
elements, every key is the path stored in its element. -/
structure Inv (c : LRUCache) : Prop where
  keys_nodup : (c.cacheMap.map Prod.fst).Nodup
  list_nodup : c.cacheList.Nodup
  mem_iff : ∀ a, a ∈ c.cacheList ↔ a ∈ c.cacheMap.map Prod.snd
  wf : ∀ kv ∈ c.cacheMap, kv.2 < c.elems.length ∧ (c.deref kv.2).Path = kv.1

/-- The capacity bound. -/
def Cap (c : LRUCache) : Prop := (c.cacheList.length : Int) ≤ max c.maxFiles 0

/-- The cache after `PushFront` of a fresh entry and its registration in the map. -/
def pushed (c : LRUCache) (p : String) (d : Bytes) : LRUCache :=
  { c with elems := c.elems ++ [⟨p, d⟩], cacheList := c.elems.length :: c.cacheList,
           cacheMap := mapInsert c.cacheMap p c.elems.length }

/-- The cache after a hit: the element is moved to the front. -/
def moved (c : LRUCache) (a : Nat) : LRUCache :=
  { c with cacheList := MoveToFront c.cacheList a }

/-- The cache after a `PutFile` hit: the data is replaced, the element moved. -/
def updated (c : LRUCache) (a : Nat) (d : Bytes) : LRUCache :=
  { c with elems := c.elems.set a { c.deref a with Data := d },
           cacheList := MoveToFront c.cacheList a }

/-- An access of `p` that leaves data `d` in its entry: the entry goes to the
front of the index. -/
def touch (l : List CacheFile) (p : String) (d : Bytes) : List CacheFile :=
  ⟨p, d⟩ :: l.filter (fun e => e.Path ≠ p)

/-- The index after the capacity check that follows an insertion. -/
def evictIfOver (maxFiles : Int) (l : List CacheFile) : List CacheFile :=
  if (l.length : Int) > maxFiles then l.dropLast else l

/-- The entry the capacity check removes, if any. -/
def evictedOf (maxFiles : Int) (l : List CacheFile) : Option CacheFile :=
  if (l.length : Int) > maxFiles then l.getLast? else none

/-- The disk after the `os.Remove` of the evicted entry's backing file. -/
def rmEvicted {σ : Type} (os : OS σ) (folder : String) (disk : σ) : Option CacheFile → σ
  | none => disk
  | some e => (os.Remove disk (Join folder e.Path)).1

/-- The shared tail of `GetFile` and `PutFile` on a miss: push, register, and
evict when over capacity. -/
def insertTail {σ : Type} (os : OS σ) (c : LRUCache) (disk : σ) (p : String) (d : Bytes) :
    LRUCache × σ :=
  if ((pushed c p d).cacheList.length : Int) > (pushed c p d).maxFiles then
    removeLRUFile os (pushed c p d) disk
  else (pushed c p d, disk)

/-- What a successful access of `p` that leaves data `d` does to a cache `c`
and a disk `disk1`, giving cache `c1` and disk `disk2`. -/
structure Accessed {σ : Type} (os : OS σ) (c : LRUCache) (disk1 : σ) (p : String)
    (d : Bytes) (c1 : LRUCache) (disk2 : σ) : Prop where
  inv : Inv c1
  cap : Cap c1
  maxFiles_eq : c1.maxFiles = c.maxFiles
  folder_eq : c1.cacheFolder = c.cacheFolder
  entries_eq : c1.entries = evictIfOver c.maxFiles (touch c.entries p d)
  disk_eq : disk2 = rmEvicted os c.cacheFolder disk1 (evictedOf c.maxFiles (touch c.entries p d))

/-! ## Histories of calls -/

/-- The path a call accesses. -/
def accessOf : Op → Option String
  | .get p => some p
  | .put p _ => some p
  | .clear => none

/-- The calls of a sequence with what each returned. -/
def history {σ : Type} (os : OS σ) (s : LRUCache × σ) : List Op → List (Op × Result)
  | [] => []
  | op :: ops => (op, (step os s op).2) :: history os (step os s op).1 ops

/-- Position of the most recent successful access of `p`, the history being
given newest call first. -/
def lastAccessRev : List (Op × Result) → String → Option Nat
  | [], _ => none
  | (op, r) :: older, p =>
    if r.ok = true ∧ accessOf op = some p then some older.length
    else lastAccessRev older p

/-- Position in the history of the most recent successful `GetFile` or
`PutFile` of `p`. -/
def lastAccess (h : List (Op × Result)) (p : String) : Option Nat :=
  lastAccessRev h.reverse p

/-- The index is ordered by recency: each entry was last accessed after every
entry behind it. -/
def Recency (h : List (Op × Result)) (l : List CacheFile) : Prop :=
  l.Pairwise (fun e1 e2 =>
    ∃ i j, lastAccess h e1.Path = some i ∧ lastAccess h e2.Path = some j ∧ j < i)
  ∧ ∀ e ∈ l, ∃ i, lastAccess h e.Path = some i

/-- The `PutFile` call for a path and its bytes. -/
def putOp (q : String × Bytes) : Op := .put q.1 q.2

/-- The index entry for a path and its bytes. -/
def entryOf (q : String × Bytes) : CacheFile := ⟨q.1, q.2⟩

/-! ## Concrete caches on the reference disk -/

/-- The reference disk holding only the cache folder `cf`. -/
def cfDisk : Disk := [("cf", .dir)]

/-- A fresh cache over `cf` with the given capacity. -/
def freshCache (maxFiles : Int) : LRUCache := ⟨maxFiles, [], [], [], "cf"⟩

/-- Two insertions and a read that makes `a` the most recent entry. -/
def demoOps : List Op := [.put "a" [1], .put "b" [2], .get "a"]

/-! ## Index and disk: what the file system is assumed to do -/

/-- The bytes of the most recent successful `PutFile` of `p`, the history being
given newest call first. -/
def lastPutRev : List (Op × Result) → String → Option Bytes
  | [], _ => none
  | (.put q d, r) :: older, p =>
    if r.ok = true ∧ q = p then some d else lastPutRev older p
  | (.get _, _) :: older, p => lastPutRev older p
  | (.clear, _) :: older, p => lastPutRev older p

/-- The bytes of the most recent successful `PutFile(p, _)` of a history. -/
def lastPut (h : List (Op × Result)) (p : String) : Option Bytes :=
  lastPutRev h.reverse p

/-- The paths the calls of a sequence are made on. -/
def pathsOf (ops : List Op) : List String := ops.filterMap accessOf

/-- No two distinct keys join to the same disk file. -/
def NoAlias (folder : String) (ps : List String) : Prop :=
  ∀ q1 ∈ ps, ∀ q2 ∈ ps, Join folder q1 = Join folder q2 → q1 = q2

/-- The key of a `PutFile` call that returned an error. -/
def failedPutOf : Op × Result → Option String
  | (.put p _, .fail _) => some p
  | _ => none

/-- No `PutFile` of the key `p` has returned an error in the history. -/
def NoFailedPut (h : List (Op × Result)) (p : String) : Prop :=
  p ∉ h.filterMap failedPutOf

/-- A file system on which the content of a file changes only by a call on that
file's own path: a successful write stores the bytes and changes no other file,
a failed write changes no other file (its own target may be left truncated or
half written), a removal leaves every other file alone, leaves its own target
unchanged or unreadable, and leaves it unreadable when it returns `nil`, and
`RemoveAll` makes files unreadable or leaves them. -/
structure Lawful {σ : Type} (os : OS σ) : Prop where
  write_ok : ∀ d fp b d1, os.WriteFile d fp b = (d1, none) →
    os.ReadFile d1 fp = .ok b ∧ ∀ q, q ≠ fp → os.ReadFile d1 q = os.ReadFile d q
  write_fail : ∀ d fp b d1 e, os.WriteFile d fp b = (d1, some e) →
    ∀ q, q ≠ fp → os.ReadFile d1 q = os.ReadFile d q
  remove_other : ∀ d fp q, q ≠ fp → os.ReadFile (os.Remove d fp).1 q = os.ReadFile d q
  remove_self : ∀ d fp, os.ReadFile (os.Remove d fp).1 fp = os.ReadFile d fp
    ∨ ∃ e, os.ReadFile (os.Remove d fp).1 fp = .error e
  remove_ok : ∀ d fp, (os.Remove d fp).2 = none →
    ∃ e, os.ReadFile (os.Remove d fp).1 fp = .error e
  removeAll : ∀ d fp q, os.ReadFile (os.RemoveAll d fp).1 q = os.ReadFile d q
    ∨ ∃ e, os.ReadFile (os.RemoveAll d fp).1 q = .error e

/-- Index and disk agree on the keys that are `good`: every entry's backing
file holds the entry's data, every entry holds the bytes last put for its path,
and the backing file of a path that is not resident holds the bytes last put
for it or cannot be read. -/
structure Coherent {σ : Type} (os : OS σ) (folder : String) (good : String → Prop)
    (val : String → Option Bytes) (l : List CacheFile) (disk : σ) : Prop where
  agree : ∀ e ∈ l, good e.Path → os.ReadFile disk (Join folder e.Path) = .ok e.Data
  fresh : ∀ e ∈ l, good e.Path → ∀ d, val e.Path = some d → e.Data = d
  stale : ∀ q d, good q → val q = some d → q ∉ l.map (fun e => e.Path) →
    os.ReadFile disk (Join folder q) = .ok d
    ∨ ∃ err, os.ReadFile disk (Join folder q) = .error err

instance (folder : String) (ps : List String) : Decidable (NoAlias folder ps) := by
  unfold NoAlias
  infer_instance

instance (h : List (Op × Result)) (p : String) : Decidable (NoFailedPut h p) := by
  unfold NoFailedPut
  infer_instance

/-- Two keys that join to the same disk file `cf/a`. -/
def aliasOps : List Op := [.put "a" [1], .put "./a" [2]]

/-- The key `a` is put, evicted, its disk file rewritten through the key `./a`,
and then loaded again from disk. -/
def aliasReloadOps : List Op := [.put "a" [1], .put "b" [2], .put "./a" [3], .get "a"]

/-! ## `pkg/spaces/spaces.go`, `pkg/appwrite/appwrite.go` and the environment of `pkg/api/api.go` -/

/-- What `minio.Client.StatObject` returns: the object's size, or an error with
its response code. -/
inductive StatResult where
  | info (size : Int)
  | err (code : String) (msg : Error)
deriving DecidableEq, Repr

/-- The minio client calls of `spaces.go` over a bucket state `τ`.  `FPutObject`
receives the bytes of the local source file. -/
structure Minio (τ : Type) where
  StatObject : τ → String → StatResult
  GetObject : τ → String → Except Error Bytes
  FPutObject : τ → String → Bytes → τ × Option Error

/-- An HTTP response as `appwrite.go` reads it: the status code, the bytes of
the body that arrived, and the error that ended the body early, if any. -/
structure HTTPResponse where
  StatusCode : Nat
  Body : Bytes
  BodyErr : Option Error
deriving DecidableEq, Repr

/-- What one run of the transcoding engine writes: the segment files in order,
the manifest if it got that far, and its exit error. -/
structure EngineResult where
  segments : List Bytes
  manifest : Option Bytes
  err : Option Error
deriving DecidableEq, Repr

/-- The external collaborators of the service. -/
structure Env (τ : Type) where
  minio : Minio τ
  httpDo : String → Except Error HTTPResponse
  ffmpeg : Bytes → EngineResult

/-- The package variables set by `prepareConfig`. -/
structure Config where
  tempDir : String
  inputDir : String
  outputDir : String
  ffmpegPath : String
  useAppwrite : Bool
  appwriteHost : String
  appwriteBucket : String
deriving DecidableEq, Repr

/-- A call that leaves the process, or a local file-system call, in the order
made.  `convert` marks the call of `convertToHLS`. -/
inductive Event where
  | statObject (path : String)
  | getObject (path : String)
  | fGetObject (path dest : String)
  | httpGet (url : String)
  | putObject (objectPath source : String)
  | ffmpeg (input segmentPattern manifest : String)
  | mkdirAll (path : String)
  | create (path : String)
  | remove (path : String)
  | convert (objectName : String)
deriving DecidableEq, Repr

/-- The durable store, the local disk, and the calls made so far. -/
structure World (τ : Type) where
  store : τ
  disk : Disk
  log : List Event

def World.emit {τ : Type} (w : World τ) (e : Event) : World τ :=
  { w with log := w.log ++ [e] }

/-- `os.MkdirAll(path, 0755)`. -/
def osMkdirAll {τ : Type} (w : World τ) (path : String) : World τ × Option Error :=
  let r := (w.disk.mkdirAll path)
  ({ w with disk := r.1, log := w.log ++ [.mkdirAll path] }, r.2)

/-- `os.Remove(path)` with its error dropped, as every caller in `api.go` does. -/
def osRemove {τ : Type} (w : World τ) (path : String) : World τ :=
  { w with disk := (w.disk.remove path).1, log := w.log ++ [.remove path] }

/-- `(s *Spaces) CheckObject(path)`. -/
def CheckObject {τ : Type} (env : Env τ) (w : World τ) (path : String) :
    World τ × Bool × Option Error :=
  let w1 := w.emit (.statObject path)
  match env.minio.StatObject w.store path with
  | .err code msg =>
    if code = "NoSuchKey" then (w1, false, none)
    else (w1, false, some msg)
  | .info size => (w1, decide (size > 0), none)

/-- `(s *Spaces) GetObject(path)`. -/
def GetObject {τ : Type} (env : Env τ) (w : World τ) (path : String) :
    World τ × Except Error Bytes :=
  (w.emit (.getObject path), env.minio.GetObject w.store path)

/-- `(s *Spaces) FGetObject(path, destination)`: the object is downloaded and
stored in the destination file. -/
def FGetObject {τ : Type} (env : Env τ) (w : World τ) (path destination : String) :
    World τ × Option Error :=
  let w1 := w.emit (.fGetObject path destination)
  match env.minio.GetObject w.store path with
  | .error err => (w1, some err)
  | .ok data =>
    let r := w1.disk.writeFile destination data
    ({ w1 with disk := r.1 }, r.2)

/-- `(s *Spaces) PutObject(path, source)`: the local file `source` is read and
uploaded. -/
def PutObject {τ : Type} (env : Env τ) (w : World τ) (path source : String) :
    World τ × Option Error :=
  let w1 := w.emit (.putObject path source)
  match w.disk.readFile source with
  | .error err => (w1, some err)
  | .ok data =>
    let r := env.minio.FPutObject w.store path data
    ({ w1 with store := r.1 }, r.2)

/-- `(a *Appwrite) GetFile(fileId, filePath)`. -/
def appwriteGetFile {τ : Type} (env : Env τ) (cfg : Config) (w : World τ)
    (fileId filePath : String) : World τ × Option Error :=
  let url := cfg.appwriteHost ++ "/v1/storage/buckets/" ++ cfg.appwriteBucket ++ "/files/"
    ++ fileId ++ "/download"
  let w1 := w.emit (.httpGet url)
  match env.httpDo url with
  | .error err => (w1, some err)
  | .ok response =>
    if response.StatusCode ≠ 200 then
      (w1, some ("failed to download file. Status code: " ++ toString response.StatusCode))
    else
      let w2 := w1.emit (.create filePath)
      match w2.disk.writeFile filePath [] with
      | (_, some err) => (w2, some err)
      | (_, none) =>
        ({ w2 with disk := (w2.disk.writeFile filePath response.Body).1 }, response.BodyErr)

/-! ## `pkg/api/api.go` -/

/-- The part of a character list before its first `/` and the part after it;
`none` when there is no `/`. -/
def splitFirst : List Char → Option (List Char × List Char)
  | [] => none
  | c :: cs =>
    if c = '/' then some ([], cs)
    else
      match splitFirst cs with
      | none => none
      | some (a, b) => some (c :: a, b)

/-- Go `strings.SplitN(s, "/", 2)`. -/
def SplitN2 (s : String) : List String :=
  match splitFirst s.toList with
  | none => [s]
  | some (a, b) => [String.mk a, String.mk b]

/-- `getObjectAndFileName(objectPath)`. -/
def getObjectAndFileName (objectPath : String) : Except Error (String × String) :=
  match SplitN2 objectPath with
  | [a, b] => .ok (a, b)
  | _ => .error ("Invalid object path: " ++ objectPath)

/-- The scan of `filepath.Ext`: from the last character backwards, up to a `/`;
`acc` is the text already passed. -/
def extScan : List Char → List Char → List Char
  | [], _ => []
  | c :: rest, acc =>
    if c = '/' then []
    else if c = '.' then '.' :: acc
    else extScan rest (c :: acc)

/-- Go `filepath.Ext`: the suffix from the last dot of the last path element,
empty when that element has no dot. -/
def Ext (path : String) : String :=
  String.mk (extScan path.toList.reverse [])

/-- `isValidSegmentFilename(filename)`. -/
def isValidSegmentFilename (filename : String) : Bool :=
  let validExtensions := [".ts"]
  let ext := Ext filename
  validExtensions.any (fun validExt => ext = validExt)

/-- `cloudFilePath(objectId, filename)`. -/
def cloudFilePath (cfg : Config) (objectId filename : String) : String :=
  cfg.outputDir ++ "/" ++ objectId ++ "/" ++ filename

/-- `tmpFilePath(objectId, filename)`. -/
def tmpFilePath (cfg : Config) (objectId filename : String) : String :=
  cfg.tempDir ++ "/" ++ objectId ++ "/" ++ filename

/-- The key by which `filepath.Walk` orders paths: byte order with the
separator below every other character, so that a directory comes before what it
holds and siblings come in the order of their names. -/
def walkKey (p : String) : List Nat :=
  p.toList.map (fun c => if c = '/' then 0 else c.toNat + 1)

def lexLe : List Nat → List Nat → Bool
  | [], _ => true
  | _ :: _, [] => false
  | a :: as, b :: bs => decide (a < b) || (decide (a = b) && lexLe as bs)

def walkLe (p q : String) : Prop := lexLe (walkKey p) (walkKey q) = true

instance : DecidableRel walkLe := fun p q => by
  unfold walkLe
  infer_instance

/-- The paths strictly below `root` that exist on the disk, in the order
`filepath.Walk` visits them. -/
def Disk.descendants (d : Disk) (root : String) : List String :=
  (((d.map Prod.fst).filter (below root)).dedup).insertionSort walkLe

/-- Go `filepath.Rel(base, targ)` for a path `targ` at or below `base`. -/
def Rel (base targ : String) : String :=
  if targ = base then "."
  else if base = "/" then String.mk (targ.toList.drop 1)
  else if base = "." then targ
  else String.mk (targ.toList.drop (base.length + 1))

/-- The function `uploadHLSFiles` passes to `filepath.Walk`; `info` is `none`
when `Walk` could not stat the path.  The deferred `os.Remove(path)` runs on
every return. -/
def uploadCallback {τ : Type} (env : Env τ) (cfg : Config) (objectName hlsDir : String)
    (path : String) (info : Option Node) (w : World τ) : World τ × Option Error :=
  match info with
  | none => (osRemove w path, some "lstat: no such file or directory")
  | some .dir => (osRemove w path, none)
  | some (.file _) =>
    let relativePath := Rel hlsDir path
    let objectPath := cloudFilePath cfg objectName relativePath
    match PutObject env w objectPath path with
    | (w1, some err) => (osRemove w1 path, some err)
    | (w1, none) => (osRemove w1 path, none)

/-- The visits of `filepath.Walk` after the root: each path is stat-ed when its
turn comes and the walk stops at the first error the function returns. -/
def walkVisit {τ : Type} (fn : String → Option Node → World τ → World τ × Option Error) :
    List String → World τ → World τ × Option Error
  | [], w => (w, none)
  | p :: rest, w =>
    match fn p (w.disk.lookup p) w with
    | (w1, some err) => (w1, some err)
    | (w1, none) => walkVisit fn rest w1

/-- Go `filepath.Walk(root, fn)` for a function that changes nothing on disk
but the path it is called on: the root first, then every path below it. -/
def Walk {τ : Type} (root : String)
    (fn : String → Option Node → World τ → World τ × Option Error) (w : World τ) :
    World τ × Option Error :=
  let info := if root = "/" ∨ root = "." then some Node.dir else w.disk.lookup root
  match info with
  | none => fn root none w
  | some (.file data) => fn root (some (.file data)) w
  | some .dir =>
    let names := w.disk.descendants root
    match fn root (some .dir) w with
    | (w1, some err) => (w1, some err)
    | (w1, none) => walkVisit fn names w1

/-- `uploadHLSFiles(objectName, hlsDir)`. -/
def uploadHLSFiles {τ : Type} (env : Env τ) (cfg : Config) (w : World τ)
    (objectName hlsDir : String) : World τ × Option Error :=
  Walk hlsDir (uploadCallback env cfg objectName hlsDir) w

/-- The decimal digits of `n`, padded with zeros to three places (`%03d`). -/
def pad3 (n : Nat) : List Char :=
  let ds := Nat.toDigits 10 n
  List.replicate (3 - ds.length) '0' ++ ds

/-- The file name the engine gives segment `n` for a pattern: the first `%03d`
of the pattern is replaced by the padded number. -/
def expandPattern : List Char → Nat → List Char
  | [], _ => []
  | c :: cs, n =>
    if ('%' :: '0' :: '3' :: 'd' :: []).isPrefixOf (c :: cs) then pad3 n ++ cs.drop 3
    else c :: expandPattern cs n

/-- The engine writes one file; a failed write stops it. -/
def writeAll (d : Disk) : List (String × Bytes) → Disk × Option Error
  | [] => (d, none)
  | (p, data) :: rest =>
    match d.writeFile p data with
    | (d1, some err) => (d1, some err)
    | (d1, none) => writeAll d1 rest

/-- `exec.Command(ffmpegPath, "-i", mp4FilePath, ..., "-hls_segment_filename",
segmentPath, ..., manifestPath).Run()`: the engine reads the source, writes the
segments and the manifest it produced, and returns its exit error. -/
def runFFmpeg {τ : Type} (env : Env τ) (w : World τ)
    (mp4FilePath segmentPath manifestPath : String) : World τ × Option Error :=
  let w1 := w.emit (.ffmpeg mp4FilePath segmentPath manifestPath)
  match w.disk.readFile mp4FilePath with
  | .error err => (w1, some err)
  | .ok source =>
    let r := env.ffmpeg source
    let segs := r.segments.enum.map
      (fun x => (String.mk (expandPattern segmentPath.toList x.1), x.2))
    let files := match r.manifest with
      | none => segs
      | some m => segs ++ [(manifestPath, m)]
    match writeAll w1.disk files with
    | (d1, some err) => ({ w1 with disk := d1 }, some err)
    | (d1, none) => ({ w1 with disk := d1 }, r.err)

/-- `convertToHLS(objectName)`.  The deferred `os.Remove(mp4FilePath)` is
registered after a successful download and runs on every later return. -/
def convertToHLS {τ : Type} (env : Env τ) (cfg : Config) (w : World τ)
    (objectName : String) : World τ × Option Error :=
  let hlsDir := Join cfg.tempDir objectName
  match osMkdirAll w hlsDir with
  | (w1, some err) => (w1, some err)
  | (w1, none) =>
    let manifestPath := Join hlsDir "playlist.m3u8"
    let segmentPath := Join hlsDir "segment%03d.ts"
    let mp4FilePath := Join cfg.tempDir (objectName ++ ".mp4")
    let mp4DOPath := cfg.inputDir ++ "/" ++ objectName ++ ".mp4"
    let fetched :=
      if cfg.useAppwrite then appwriteGetFile env cfg w1 objectName mp4FilePath
      else FGetObject env w1 mp4DOPath mp4FilePath
    match fetched with
    | (w2, some err) => (w2, some err)
    | (w2, none) =>
      match runFFmpeg env w2 mp4FilePath segmentPath manifestPath with
      | (w3, some err) => (osRemove w3 mp4FilePath, some err)
      | (w3, none) =>
        match uploadHLSFiles env cfg w3 objectName hlsDir with
        | (w4, err) => (osRemove w4 mp4FilePath, err)

/-- The body of a response: the JSON error written by `writeErrorJson`, or the
object served by `http.ServeContent`. -/
inductive Body where
  | json (text : String)
  | content (data : Bytes)
deriving DecidableEq, Repr

structure Response where
  status : Nat
  contentType : Option String
  body : Body
deriving DecidableEq, Repr

/-- `writeErrorJson(w, message, statusCode)`. -/
def writeErrorJson (message : String) (statusCode : Nat) : Response :=
  ⟨statusCode, none, .json ("\x7b\"error\": \"" ++ message ++ "\"\x7d")⟩

/-- The handler `Run` registers for `/hls/`; `urlPath` is `r.URL.Path` after
the `/hls/` it starts with. -/
def handler {τ : Type} (env : Env τ) (cfg : Config) (w : World τ) (urlPath : String) :
    World τ × Response :=
  match getObjectAndFileName urlPath with
  | .error _ => (w, writeErrorJson "Invalid request" 400)
  | .ok (objectName, filename) =>
    let isPlaylistRequest := decide (filename = "playlist.m3u8")
    if !isPlaylistRequest && !isValidSegmentFilename filename then
      (w, writeErrorJson "Invalid request" 400)
    else
      let objectPath := cloudFilePath cfg objectName filename
      match CheckObject env w objectPath with
      | (w1, _, some _) => (w1, writeErrorJson "Failed to check HLS files" 500)
      | (w1, hlsFilesExist, none) =>
        let converted :=
          if !hlsFilesExist then convertToHLS env cfg (w1.emit (.convert objectName)) objectName
          else (w1, none)
        match converted with
        | (w2, some _) => (w2, writeErrorJson "Failed to load HLS" 500)
        | (w2, none) =>
          match GetObject env w2 objectPath with
          | (w3, .error _) => (w3, writeErrorJson "Failed to retrieve object" 500)
          | (w3, .ok object) =>
            if isPlaylistRequest then
              (w3, ⟨200, some "application/vnd.apple.mpegurl", .content object⟩)
            else (w3, ⟨200, some "video/mp2t", .content object⟩)

/-! ## A reference durable store and engine -/

/-- A bucket as the list of its objects. -/
abbrev Store := List (String × Bytes)

def Store.get (s : Store) (path : String) : Option Bytes :=
  match s with
  | [] => none
  | (k, v) :: rest => if k = path then some v else Store.get rest path

/-- A store that answers every call: a missing key is `NoSuchKey`. -/
def refMinio : Minio Store where
  StatObject := fun s path =>
    match s.get path with
    | none => .err "NoSuchKey" "The specified key does not exist."
    | some data => .info data.length
  GetObject := fun s path =>
    match s.get path with
    | none => .error "The specified key does not exist."
    | some data => .ok data
  FPutObject := fun s path data => ((path, data) :: s.filter (fun e => e.1 ≠ path), none)

/-- An engine that cuts its input in two segments and writes a manifest. -/
def refEnv : Env Store where
  minio := refMinio
  httpDo := fun _ => .error "no appwrite server"
  ffmpeg := fun source => ⟨[source.take 1, source.drop 1], some [35], none⟩

def refConfig : Config := ⟨"tmp", "in", "out", "ffmpeg", false, "", ""⟩

/-- The log of `w1` continues the log of `w`. -/
def World.Extends {τ : Type} (w w1 : World τ) : Prop := ∃ new, w1.log = w.log ++ new

/-- The local file a `PutObject` call uploads. -/
def uploadOf : Event → Option String
  | .putObject _ source => some source
  | _ => none

/-- The local files uploaded by the calls of a log, in order. -/
def uploadsOf (log : List Event) : List String := log.filterMap uploadOf

/-- The name the engine gives segment `n`: the pattern `segment%03d.ts`. -/
def segmentName (n : Nat) : String :=
  String.mk (expandPattern ['s', 'e', 'g', 'm', 'e', 'n', 't', '%', '0', '3', 'd', '.', 't', 's'] n)

/-- A store after a generation for `k`: source, manifest and two segments. -/
def generatedWorld : World Store :=
  ⟨[("out/k/segment001.ts", [2, 3]), ("out/k/segment000.ts", [1]),
    ("out/k/playlist.m3u8", [35]), ("in/k.mp4", [1, 2, 3])],
   [("tmp/k", .dir), ("tmp", .dir)], []⟩

/-- A store that holds a segment of `k` but no manifest. -/
def segmentOnlyWorld : World Store :=
  ⟨[("out/k/segment000.ts", [1]), ("in/k.mp4", [1, 2, 3])], [("tmp", .dir)], []⟩

/-- A fresh service: the source of `k` in the store, an empty temp directory. -/
def freshWorld : World Store := ⟨[("in/k.mp4", [1, 2, 3])], [("tmp", .dir)], []⟩

/-- A workspace holding a manifest and one segment, ready for upload. -/
def workspaceWorld : World Store :=
  ⟨[], [("tmp/k/segment000.ts", .file [1]), ("tmp/k/playlist.m3u8", .file [35]),
        ("tmp/k", .dir), ("tmp", .dir)], []⟩

/-- An environment whose store refuses every `.ts` upload. -/
def refusingEnv : Env Store where
  minio :=
    { StatObject := refMinio.StatObject
      GetObject := refMinio.GetObject
      FPutObject := fun s path data =>
        if Ext path = ".ts" then (s, some "upload refused")
        else refMinio.FPutObject s path data }
  httpDo := fun _ => .error "no appwrite server"
  ffmpeg := fun source => ⟨[source.take 1, source.drop 1], some [35], none⟩

/-- A path component `filepath.Clean` keeps: not empty, not `.`, without `/`. -/
def Plain (c : List Char) : Prop := c ≠ [] ∧ c ≠ ['.'] ∧ '/' ∉ c

/-- The stacks `filepath.Clean` builds: kept names on top of the leading `..`
components, which a rooted path never has. -/
def Shape (rooted : Bool) (st : List (List Char)) : Prop :=
  ∃ ns ds, st = ns ++ ds ∧ (∀ c ∈ ns, Plain c ∧ c ≠ ['.', '.']) ∧ (∀ c ∈ ds, c = ['.', '.'])
    ∧ (rooted = true → ds = [])

/-- The string `filepath.Clean` returns for a stack of kept components. -/
def render (rooted : Bool) (st : List (List Char)) : String :=
  if rooted then String.mk ('/' :: joinSlash st.reverse)
  else if joinSlash st.reverse = [] then "." else String.mk (joinSlash st.reverse)

/-- The download step of `convertToHLS`: from Appwrite when it is configured,
from the durable store otherwise. -/
def fetchSource {τ : Type} (env : Env τ) (cfg : Config) (w : World τ) (objectName : String) :
    World τ × Option Error :=
  if cfg.useAppwrite then
    appwriteGetFile env cfg w objectName (Join cfg.tempDir (objectName ++ ".mp4"))
  else
    FGetObject env w (cfg.inputDir ++ "/" ++ objectName ++ ".mp4")
      (Join cfg.tempDir (objectName ++ ".mp4"))

/-- An environment whose engine writes one segment and then exits with an error. -/
def crashingEnv : Env Store where
  minio := refMinio
  httpDo := fun _ => .error "no appwrite server"
  ffmpeg := fun source => ⟨[source.take 1], none, some "exit status 1"⟩

/-! ## Concurrent requests

`http.ListenAndServe` runs the handler of every request in a goroutine of its
own, and neither the handler nor `convertToHLS` takes a lock.  A request is a
thread of the handler's code; a state of the server is the world together with
the requests in flight; a step of the server lets one request run up to its next
call on the store, the disk or the engine. -/

/-- Where a request stands in the handler.  The points from `mkdir` to `cleanup`
lie inside `convertToHLS(objectName)`: before `os.MkdirAll`, before the download,
before the engine, before the upload, and before the deferred
`os.Remove(mp4FilePath)` with the error `convertToHLS` is about to return. -/
inductive PC where
  | start (urlPath : String)
  | mkdir (objectName filename : String)
  | fetch (objectName filename : String)
  | engine (objectName filename : String)
  | upload (objectName filename : String)
  | cleanup (objectName filename : String) (err : Option Error)
  | serve (objectName filename : String)
  | done (r : Response)
deriving DecidableEq, Repr

/-- One step of a request: the code of `handler` and `convertToHLS` from one
point to the next. -/
def stepThread {τ : Type} (env : Env τ) (cfg : Config) (w : World τ) : PC → World τ × PC
  | .start urlPath =>
    match getObjectAndFileName urlPath with
    | .error _ => (w, .done (writeErrorJson "Invalid request" 400))
    | .ok (objectName, filename) =>
      if !decide (filename = "playlist.m3u8") && !isValidSegmentFilename filename then
        (w, .done (writeErrorJson "Invalid request" 400))
      else
        match CheckObject env w (cloudFilePath cfg objectName filename) with
        | (w1, _, some _) => (w1, .done (writeErrorJson "Failed to check HLS files" 500))
        | (w1, hlsFilesExist, none) =>
          if !hlsFilesExist then (w1.emit (.convert objectName), .mkdir objectName filename)
          else (w1, .serve objectName filename)
  | .mkdir objectName filename =>
    match osMkdirAll w (Join cfg.tempDir objectName) with
    | (w1, some _) => (w1, .done (writeErrorJson "Failed to load HLS" 500))
    | (w1, none) => (w1, .fetch objectName filename)
  | .fetch objectName filename =>
    match fetchSource env cfg w objectName with
    | (w1, some _) => (w1, .done (writeErrorJson "Failed to load HLS" 500))
    | (w1, none) => (w1, .engine objectName filename)
  | .engine objectName filename =>
    match runFFmpeg env w (Join cfg.tempDir (objectName ++ ".mp4"))
        (Join (Join cfg.tempDir objectName) "segment%03d.ts")
        (Join (Join cfg.tempDir objectName) "playlist.m3u8") with
    | (w1, some err) => (w1, .cleanup objectName filename (some err))
    | (w1, none) => (w1, .upload objectName filename)
  | .upload objectName filename =>
    match uploadHLSFiles env cfg w objectName (Join cfg.tempDir objectName) with
    | (w1, err) => (w1, .cleanup objectName filename err)
  | .cleanup objectName filename err =>
    match err with
    | some _ =>
      (osRemove w (Join cfg.tempDir (objectName ++ ".mp4")),
        .done (writeErrorJson "Failed to load HLS" 500))
    | none => (osRemove w (Join cfg.tempDir (objectName ++ ".mp4")), .serve objectName filename)
  | .serve objectName filename =>
    match GetObject env w (cloudFilePath cfg objectName filename) with
    | (w1, .error _) => (w1, .done (writeErrorJson "Failed to retrieve object" 500))
    | (w1, .ok object) =>
      if filename = "playlist.m3u8" then
        (w1, .done ⟨200, some "application/vnd.apple.mpegurl", .content object⟩)
      else (w1, .done ⟨200, some "video/mp2t", .content object⟩)
  | .done r => (w, .done r)

/-- A request run alone for `n` steps. -/
def runThread {τ : Type} (env : Env τ) (cfg : Config) : Nat → World τ × PC → World τ × PC
  | 0, s => s
  | n + 1, s => runThread env cfg n (stepThread env cfg s.1 s.2)

/-- The server: the world and the requests in flight. -/
structure Server (τ : Type) where
  world : World τ
  threads : List PC

/-- The scheduler lets request `i` take its next step. -/
def Server.step {τ : Type} (env : Env τ) (cfg : Config) (s : Server τ) (i : Nat) : Server τ :=
  match s.threads[i]? with
  | none => s
  | some pc =>
    ⟨(stepThread env cfg s.world pc).1, s.threads.set i (stepThread env cfg s.world pc).2⟩

/-- A schedule names the request that takes each step. -/
def Server.run {τ : Type} (env : Env τ) (cfg : Config) (s : Server τ) (schedule : List Nat) :
    Server τ :=
  schedule.foldl (Server.step env cfg) s

/-- Whether a request is inside `convertToHLS(k)`. -/
def converting (k : String) : PC → Bool
  | .mkdir o _ => o = k
  | .fetch o _ => o = k
  | .engine o _ => o = k
  | .upload o _ => o = k
  | .cleanup o _ _ => o = k
  | _ => false

/-- The number of executions of `convertToHLS(k)` in progress. -/
def Server.inProgress {τ : Type} (s : Server τ) (k : String) : Nat :=
  s.threads.countP (converting k)

/-- A store that holds an object two components below the directory of `k`. -/
def nestedWorld : World Store :=
  ⟨[("out/k/a/b.ts", [7]), ("in/k.mp4", [1, 2, 3])], [("tmp", .dir)], []⟩

/-- The key `a` is put, a `PutFile` of `zz/y` fails for want of the directory
`cf/zz`, `b` is put and `a` is read. -/
def failedPutOps : List Op := [.put "a" [1], .put "zz/y" [2], .put "b" [3], .get "a"]

/-! # Theorems -/

/-! ## The index invariant -/

theorem mapLookup_eq_none {m : List (String × Nat)} {k : String} :
    mapLookup m k = none ↔ k ∉ m.map Prod.fst := by
  induction m with
  | nil => simp [mapLookup]
  | cons kv rest ih =>
    obtain ⟨k', v⟩ := kv
    by_cases h : k' = k
    · simp [mapLookup, h]
    · simp only [mapLookup, h, if_false, ih, List.map_cons, List.mem_cons]
      constructor
      · intro h1 h2
        rcases h2 with h2 | h2
        · exact h h2.symm
        · exact h1 h2
      · intro h1 h2
        exact h1 (Or.inr h2)

theorem mapLookup_mem {m : List (String × Nat)} {k : String} {a : Nat}
    (h : mapLookup m k = some a) : (k, a) ∈ m := by
  induction m with
  | nil => simp [mapLookup] at h
  | cons kv rest ih =>
    obtain ⟨k', v⟩ := kv
    by_cases hk : k' = k
    · simp [mapLookup, hk] at h
      simp [hk, h]
    · simp only [mapLookup, hk, if_false] at h
      exact List.mem_cons_of_mem _ (ih h)

theorem mapLookup_of_mem {m : List (String × Nat)} {k : String} {a : Nat}
    (hn : (m.map Prod.fst).Nodup) (h : (k, a) ∈ m) : mapLookup m k = some a := by
  induction m with
  | nil => simp at h
  | cons kv rest ih =>
    obtain ⟨k', v⟩ := kv
    simp only [List.map_cons, List.nodup_cons] at hn
    rcases List.mem_cons.1 h with h1 | h1
    · cases h1
      simp [mapLookup]
    · have hne : k' ≠ k := by
        intro hk
        apply hn.1
        rw [hk]
        exact List.mem_map_of_mem Prod.fst h1
      simp only [mapLookup, hne, if_false]
      exact ih hn.2 h1

theorem map_key_unique {m : List (String × Nat)} {k : String} {a b : Nat}
    (hn : (m.map Prod.fst).Nodup) (ha : (k, a) ∈ m) (hb : (k, b) ∈ m) : a = b := by
  have h1 := mapLookup_of_mem hn ha
  have h2 := mapLookup_of_mem hn hb
  rw [h1] at h2
  exact Option.some.inj h2

theorem mapInsert_of_not_mem {m : List (String × Nat)} {k : String} (v : Nat)
    (h : k ∉ m.map Prod.fst) : mapInsert m k v = (k, v) :: m := by
  unfold mapInsert
  congr 1
  rw [List.filter_eq_self]
  intro kv hkv
  have : kv.1 ≠ k := by
    intro he
    apply h
    rw [← he]
    exact List.mem_map_of_mem Prod.fst hkv
  simpa using this

theorem erase_getLast_eq_dropLast {l : List Nat} {a : Nat} (hn : l.Nodup)
    (h : l.getLast? = some a) : l.erase a = l.dropLast := by
  have hne : l ≠ [] := by
    intro he
    simp [he] at h
  have hl : l.getLast hne = a := by
    rw [List.getLast?_eq_getLast _ hne] at h
    exact Option.some.inj h
  have hsplit : l = l.dropLast ++ [a] := by
    rw [← hl]
    exact (List.dropLast_append_getLast hne).symm
  have hnot : a ∉ l.dropLast := by
    rw [hsplit] at hn
    have := List.nodup_append.1 hn
    intro hmem
    exact this.2.2 hmem (List.mem_singleton_self a)
  conv_lhs => rw [hsplit]
  rw [List.erase_append_right _ hnot]
  simp

theorem map_dropLast_eq {α β : Type} (f : α → β) (l : List α) :
    l.dropLast.map f = (l.map f).dropLast := by
  induction l with
  | nil => rfl
  | cons x xs ih =>
    cases xs with
    | nil => rfl
    | cons y ys => simp at ih ⊢

theorem Inv.mem_list {c : LRUCache} (h : Inv c) {a : Nat} (ha : a ∈ c.cacheList) :
    ((c.deref a).Path, a) ∈ c.cacheMap ∧ a < c.elems.length := by
  have h1 := (h.mem_iff a).1 ha
  obtain ⟨kv, hkv, rfl⟩ := List.mem_map.1 h1
  have h2 := h.wf kv hkv
  refine ⟨?_, h2.1⟩
  rw [h2.2]
  exact hkv

theorem Inv.mem_map {c : LRUCache} (h : Inv c) {k : String} {a : Nat}
    (hk : (k, a) ∈ c.cacheMap) : a ∈ c.cacheList ∧ (c.deref a).Path = k ∧ a < c.elems.length := by
  refine ⟨(h.mem_iff a).2 (List.mem_map.2 ⟨(k, a), hk, rfl⟩), (h.wf _ hk).2, (h.wf _ hk).1⟩

theorem Inv.addrs_nodup {c : LRUCache} (h : Inv c) : (c.cacheMap.map Prod.snd).Nodup := by
  have h1 : c.cacheMap.map Prod.fst
      = (c.cacheMap.map Prod.snd).map (fun a => (c.deref a).Path) := by
    rw [List.map_map]
    apply List.map_congr_left
    intro kv hkv
    exact ((h.wf kv hkv).2).symm
  have h2 := h.keys_nodup
  rw [h1] at h2
  exact List.Nodup.of_map _ h2

theorem Inv.perm {c : LRUCache} (h : Inv c) : c.cacheList.Perm (c.cacheMap.map Prod.snd) :=
  (List.perm_ext_iff_of_nodup h.list_nodup h.addrs_nodup).2 h.mem_iff

theorem Inv.length_eq {c : LRUCache} (h : Inv c) : c.cacheList.length = c.cacheMap.length := by
  have := h.perm.length_eq
  simpa using this

theorem Inv.paths_perm {c : LRUCache} (h : Inv c) :
    (c.entries.map (fun e => e.Path)).Perm c.keys := by
  unfold LRUCache.entries LRUCache.keys
  rw [List.map_map]
  have h1 := h.perm.map ((fun e : CacheFile => e.Path) ∘ c.deref)
  refine h1.trans ?_
  rw [List.map_map]
  apply List.Perm.of_eq
  apply List.map_congr_left
  intro kv hkv
  exact (h.wf kv hkv).2

theorem Inv.paths_nodup {c : LRUCache} (h : Inv c) :
    (c.entries.map (fun e => e.Path)).Nodup :=
  h.paths_perm.nodup_iff.2 h.keys_nodup

theorem Inv.mem_keys_iff {c : LRUCache} (h : Inv c) (p : String) :
    p ∈ c.keys ↔ p ∈ c.entries.map (fun e => e.Path) :=
  (h.paths_perm.mem_iff).symm

theorem deref_pushed_lt (c : LRUCache) (p : String) (d : Bytes) {a : Nat}
    (ha : a < c.elems.length) : (pushed c p d).deref a = c.deref a := by
  simp [pushed, LRUCache.deref, List.getElem?_append_left ha]

theorem deref_pushed_new (c : LRUCache) (p : String) (d : Bytes) :
    (pushed c p d).deref c.elems.length = ⟨p, d⟩ := by
  simp [pushed, LRUCache.deref]

theorem Inv.pushed {c : LRUCache} (h : Inv c) {p : String} (d : Bytes)
    (hp : mapLookup c.cacheMap p = none) :
    Inv (pushed c p d) ∧ (pushed c p d).entries = ⟨p, d⟩ :: c.entries := by
  have hnot : p ∉ c.cacheMap.map Prod.fst := mapLookup_eq_none.1 hp
  have hmap : (GoHLStreamer.pushed c p d).cacheMap = (p, c.elems.length) :: c.cacheMap := by
    simp [GoHLStreamer.pushed, mapInsert_of_not_mem _ hnot]
  have hlist : (GoHLStreamer.pushed c p d).cacheList = c.elems.length :: c.cacheList := rfl
  have hlt : ∀ a ∈ c.cacheList, a < c.elems.length := fun a ha => (h.mem_list ha).2
  constructor
  · constructor
    · rw [hmap]
      simp only [List.map_cons, List.nodup_cons]
      exact ⟨hnot, h.keys_nodup⟩
    · rw [hlist]
      simp only [List.nodup_cons]
      refine ⟨?_, h.list_nodup⟩
      intro hmem
      exact Nat.lt_irrefl _ (hlt _ hmem)
    · intro a
      rw [hlist, hmap]
      simp only [List.mem_cons, List.map_cons]
      rw [h.mem_iff a]
    · intro kv hkv
      rw [hmap] at hkv
      rcases List.mem_cons.1 hkv with h1 | h1
      · subst h1
        constructor
        · simp [GoHLStreamer.pushed]
        · simp [deref_pushed_new]
      · have h2 := h.wf kv h1
        constructor
        · simp only [GoHLStreamer.pushed, List.length_append, List.length_singleton]
          omega
        · rw [deref_pushed_lt c p d h2.1]
          exact h2.2
  · unfold LRUCache.entries
    rw [hlist, List.map_cons, deref_pushed_new]
    congr 1
    apply List.map_congr_left
    intro a ha
    exact deref_pushed_lt c p d (hlt a ha)

theorem removeLRUFile_frame {σ : Type} (os : OS σ) (c : LRUCache) (disk : σ) :
    (removeLRUFile os c disk).1.maxFiles = c.maxFiles
    ∧ (removeLRUFile os c disk).1.cacheFolder = c.cacheFolder
    ∧ (removeLRUFile os c disk).1.elems = c.elems := by
  unfold removeLRUFile
  cases Back c.cacheList <;> simp

theorem Inv.same_path {c : LRUCache} (h : Inv c) {a b : Nat} (ha : a ∈ c.cacheList)
    (hb : b ∈ c.cacheList) (hp : (c.deref b).Path = (c.deref a).Path) : b = a := by
  have h1 := (h.mem_list ha).1
  have h2 := (h.mem_list hb).1
  rw [hp] at h2
  exact map_key_unique h.keys_nodup h2 h1

theorem Inv.removeLRU {σ : Type} (os : OS σ) {c : LRUCache} (h : Inv c) (disk : σ) :
    Inv (removeLRUFile os c disk).1
    ∧ (removeLRUFile os c disk).1.entries = c.entries.dropLast := by
  unfold removeLRUFile
  cases hb : Back c.cacheList with
  | none =>
    have : c.cacheList = [] := by
      unfold Back at hb
      exact List.getLast?_eq_none_iff.1 hb
    simp [h, LRUCache.entries, this]
  | some a =>
    have hb2 : c.cacheList.getLast? = some a := hb
    have ha : a ∈ c.cacheList := List.mem_of_getLast?_eq_some hb2
    simp only
    constructor
    · constructor
      · exact h.keys_nodup.sublist (List.Sublist.map _ (List.filter_sublist _))
      · exact h.list_nodup.erase a
      · intro b
        simp only [h.list_nodup.mem_erase_iff, mapDelete, List.mem_map, List.mem_filter]
        constructor
        · rintro ⟨hne, hb1⟩
          refine ⟨((c.deref b).Path, b), ⟨(h.mem_list hb1).1, ?_⟩, rfl⟩
          simp only [ne_eq, decide_eq_true_eq]
          intro hp
          exact hne (h.same_path ha hb1 hp)
        · rintro ⟨kv, ⟨hkv, hne⟩, rfl⟩
          have hm := h.mem_map (k := kv.1) (a := kv.2) hkv
          refine ⟨?_, hm.1⟩
          intro he
          simp only [ne_eq, decide_eq_true_eq] at hne
          apply hne
          rw [← hm.2.1, he]
      · intro kv hkv
        simp only [mapDelete, List.mem_filter] at hkv
        exact h.wf kv hkv.1
    · simp only [LRUCache.entries, LRUCache.deref]
      rw [erase_getLast_eq_dropLast h.list_nodup hb2, map_dropLast_eq]
      rfl

theorem removeLRUFile_disk {σ : Type} (os : OS σ) (c : LRUCache) (disk : σ) :
    (removeLRUFile os c disk).2 =
      match c.entries.getLast? with
      | none => disk
      | some e => (os.Remove disk (Join c.cacheFolder e.Path)).1 := by
  unfold removeLRUFile LRUCache.entries Back
  rw [List.getLast?_map]
  cases c.cacheList.getLast? <;> simp

theorem moveToFront_mem {l : List Nat} {a : Nat} (ha : a ∈ l) (hn : l.Nodup) :
    MoveToFront l a = a :: l.filter (fun b => b ≠ a) := by
  unfold MoveToFront
  rw [if_pos ha, hn.erase_eq_filter]
  congr 1
  apply List.filter_congr
  intro b _
  by_cases hba : b = a <;> simp [hba]

theorem Inv.filter_entries {c : LRUCache} (h : Inv c) {a : Nat} (ha : a ∈ c.cacheList)
    (f : Nat → CacheFile) (hf : ∀ b ∈ c.cacheList, b ≠ a → f b = c.deref b) :
    (c.cacheList.filter (fun b => b ≠ a)).map f
      = c.entries.filter (fun e => e.Path ≠ (c.deref a).Path) := by
  unfold LRUCache.entries
  rw [List.filter_map]
  have h1 : c.cacheList.filter ((fun e : CacheFile => decide (e.Path ≠ (c.deref a).Path)) ∘ c.deref)
      = c.cacheList.filter (fun b => b ≠ a) := by
    apply List.filter_congr
    intro b hb
    simp only [Function.comp, ne_eq, decide_eq_decide, not_iff_not]
    constructor
    · intro hp
      exact h.same_path ha hb hp
    · intro he
      rw [he]
  rw [h1]
  apply List.map_congr_left
  intro b hb
  have := List.mem_filter.1 hb
  apply hf b this.1
  simpa using this.2

theorem Inv.moved {c : LRUCache} (h : Inv c) {p : String} {a : Nat}
    (hp : mapLookup c.cacheMap p = some a) :
    Inv (moved c a) ∧ (moved c a).entries = touch c.entries p (c.deref a).Data
    ∧ (c.deref a).Path = p ∧ c.deref a ∈ c.entries := by
  have hm := h.mem_map (mapLookup_mem hp)
  have hmv := moveToFront_mem hm.1 h.list_nodup
  have hperm : (MoveToFront c.cacheList a).Perm c.cacheList := by
    unfold MoveToFront
    rw [if_pos hm.1]
    exact (List.perm_cons_erase hm.1).symm
  refine ⟨?_, ?_, hm.2.1, List.mem_map_of_mem _ hm.1⟩
  · constructor
    · exact h.keys_nodup
    · exact hperm.nodup_iff.2 h.list_nodup
    · intro b
      show b ∈ MoveToFront c.cacheList a ↔ _
      rw [hperm.mem_iff]
      exact h.mem_iff b
    · exact h.wf
  · show (MoveToFront c.cacheList a).map c.deref = _
    rw [hmv, List.map_cons, h.filter_entries hm.1 c.deref (fun _ _ _ => rfl)]
    unfold touch
    rw [hm.2.1]
    congr 1
    rw [← hm.2.1]

theorem deref_updated_ne (c : LRUCache) (a : Nat) (d : Bytes) {b : Nat} (hb : b ≠ a) :
    (updated c a d).deref b = c.deref b := by
  simp [updated, LRUCache.deref, List.getElem?_set_ne (Ne.symm hb)]

theorem deref_updated_eq (c : LRUCache) (a : Nat) (d : Bytes) (ha : a < c.elems.length) :
    (updated c a d).deref a = { c.deref a with Data := d } := by
  simp [updated, LRUCache.deref, ha]

theorem Inv.updated {c : LRUCache} (h : Inv c) {p : String} {a : Nat} (d : Bytes)
    (hp : mapLookup c.cacheMap p = some a) :
    Inv (updated c a d) ∧ (updated c a d).entries = touch c.entries p d := by
  have hm := h.mem_map (mapLookup_mem hp)
  have hmv := moveToFront_mem hm.1 h.list_nodup
  have hperm : (MoveToFront c.cacheList a).Perm c.cacheList := by
    unfold MoveToFront
    rw [if_pos hm.1]
    exact (List.perm_cons_erase hm.1).symm
  constructor
  · constructor
    · exact h.keys_nodup
    · exact hperm.nodup_iff.2 h.list_nodup
    · intro b
      show b ∈ MoveToFront c.cacheList a ↔ _
      rw [hperm.mem_iff]
      exact h.mem_iff b
    · intro kv hkv
      have hw := h.wf kv hkv
      constructor
      · simpa [GoHLStreamer.updated] using hw.1
      · by_cases hka : kv.2 = a
        · rw [hka, deref_updated_eq c a d hm.2.2]
          show (c.deref a).Path = kv.1
          rw [← hka]
          exact hw.2
        · rw [deref_updated_ne c a d hka]
          exact hw.2
  · show (MoveToFront c.cacheList a).map (GoHLStreamer.updated c a d).deref = _
    rw [hmv, List.map_cons,
      h.filter_entries hm.1 (GoHLStreamer.updated c a d).deref
        (fun b _ hb => deref_updated_ne c a d hb),
      deref_updated_eq c a d hm.2.2]
    unfold touch
    rw [hm.2.1]
    congr 1
    rw [← hm.2.1]

theorem touch_miss {l : List CacheFile} {p : String} (d : Bytes)
    (hp : p ∉ l.map (fun e => e.Path)) : touch l p d = ⟨p, d⟩ :: l := by
  unfold touch
  congr 1
  rw [List.filter_eq_self]
  intro e he
  have : e.Path ≠ p := by
    intro h
    apply hp
    rw [← h]
    exact List.mem_map_of_mem (fun e => e.Path) he
  simpa using this

theorem filter_length_hit {l : List CacheFile} {p : String}
    (hn : (l.map (fun e => e.Path)).Nodup) (hp : p ∈ l.map (fun e => e.Path)) :
    (l.filter (fun e => e.Path ≠ p)).length + 1 = l.length := by
  induction l with
  | nil => simp at hp
  | cons x xs ih =>
    simp only [List.map_cons, List.nodup_cons] at hn
    by_cases hx : x.Path = p
    · have hnot : p ∉ xs.map (fun e => e.Path) := by
        rw [← hx]
        exact hn.1
      have := touch_miss [] hnot
      unfold touch at this
      have h2 : xs.filter (fun e => e.Path ≠ p) = xs := (List.cons.inj this).2
      have e1 : (x :: xs).filter (fun e => decide (e.Path ≠ p))
          = xs.filter (fun e => decide (e.Path ≠ p)) := by
        rw [List.filter_cons]
        simp [hx]
      rw [e1, h2, List.length_cons]
    · have hp2 : p ∈ xs.map (fun e => e.Path) := by
        simp only [List.map_cons, List.mem_cons] at hp
        rcases hp with hp | hp
        · exact absurd hp.symm hx
        · exact hp
      have := ih hn.2 hp2
      have e1 : (x :: xs).filter (fun e => decide (e.Path ≠ p))
          = x :: xs.filter (fun e => decide (e.Path ≠ p)) := by
        rw [List.filter_cons]
        simp [hx]
      rw [e1, List.length_cons, List.length_cons, this]

theorem touch_length_hit {l : List CacheFile} {p : String} (d : Bytes)
    (hn : (l.map (fun e => e.Path)).Nodup) (hp : p ∈ l.map (fun e => e.Path)) :
    (touch l p d).length = l.length := by
  unfold touch
  rw [List.length_cons]
  exact filter_length_hit hn hp

theorem touch_length_le (l : List CacheFile) (p : String) (d : Bytes) :
    (touch l p d).length ≤ l.length + 1 := by
  unfold touch
  rw [List.length_cons]
  exact Nat.succ_le_succ (List.length_filter_le _ _)

theorem evictIfOver_length {maxFiles : Int} {l : List CacheFile} {n : Nat}
    (hl : l.length ≤ n + 1) (hn : (n : Int) ≤ max maxFiles 0) :
    ((evictIfOver maxFiles l).length : Int) ≤ max maxFiles 0 := by
  unfold evictIfOver
  split
  · rw [List.length_dropLast]
    omega
  · omega

theorem insertTail_spec {σ : Type} (os : OS σ) {c : LRUCache} (h : Inv c) (hc : Cap c)
    (disk : σ) {p : String} (d : Bytes) (hp : mapLookup c.cacheMap p = none) :
    Inv (insertTail os c disk p d).1 ∧ Cap (insertTail os c disk p d).1
    ∧ (insertTail os c disk p d).1.maxFiles = c.maxFiles
    ∧ (insertTail os c disk p d).1.cacheFolder = c.cacheFolder
    ∧ (insertTail os c disk p d).1.entries = evictIfOver c.maxFiles (touch c.entries p d)
    ∧ (insertTail os c disk p d).2
        = rmEvicted os c.cacheFolder disk (evictedOf c.maxFiles (touch c.entries p d)) := by
  have hpush := h.pushed d hp
  have hnot : p ∉ c.entries.map (fun e => e.Path) := by
    rw [← h.mem_keys_iff]
    exact mapLookup_eq_none.1 hp
  have htouch := touch_miss d hnot
  have hlen : (pushed c p d).cacheList.length = (touch c.entries p d).length := by
    rw [htouch, ← hpush.2]
    simp [LRUCache.entries]
  have hmax : (pushed c p d).maxFiles = c.maxFiles := rfl
  have hfold : (pushed c p d).cacheFolder = c.cacheFolder := rfl
  have hcapgoal : ∀ c' : LRUCache, c'.maxFiles = c.maxFiles →
      c'.entries = evictIfOver c.maxFiles (touch c.entries p d) → Cap c' := by
    intro c' h1 h2
    unfold Cap
    have h3 : c'.cacheList.length = c'.entries.length := by simp [LRUCache.entries]
    rw [h3, h2, h1]
    apply evictIfOver_length (n := c.entries.length) (touch_length_le _ _ _)
    have : c.entries.length = c.cacheList.length := by simp [LRUCache.entries]
    rw [this]
    exact hc
  unfold insertTail
  rw [hlen, hmax]
  by_cases hover : ((touch c.entries p d).length : Int) > c.maxFiles
  · rw [if_pos hover]
    have hrm := hpush.1.removeLRU os disk
    have hfr := removeLRUFile_frame os (pushed c p d) disk
    have hent : (removeLRUFile os (pushed c p d) disk).1.entries
        = evictIfOver c.maxFiles (touch c.entries p d) := by
      rw [hrm.2, hpush.2, ← htouch]
      unfold evictIfOver
      rw [if_pos hover]
    refine ⟨hrm.1, hcapgoal _ hfr.1 hent, hfr.1, hfr.2.1, hent, ?_⟩
    rw [removeLRUFile_disk, hpush.2, ← htouch]
    unfold evictedOf
    rw [if_pos hover, hfold]
    cases (touch c.entries p d).getLast? <;> rfl
  · rw [if_neg hover]
    have hent : (pushed c p d).entries = evictIfOver c.maxFiles (touch c.entries p d) := by
      rw [hpush.2, ← htouch]
      unfold evictIfOver
      rw [if_neg hover]
    refine ⟨hpush.1, hcapgoal _ rfl hent, rfl, rfl, hent, ?_⟩
    unfold evictedOf
    rw [if_neg hover]
    rfl

theorem PutFile_fail {σ : Type} (os : OS σ) (c : LRUCache) (disk : σ) (p : String)
    (d : Bytes) {disk1 : σ} {err : Error}
    (hw : os.WriteFile disk (Join c.cacheFolder p) d = (disk1, some err)) :
    PutFile os c disk p d = (c, disk1, some err) := by
  unfold PutFile
  simp only [hw]

theorem PutFile_hit_eq {σ : Type} (os : OS σ) (c : LRUCache) (disk : σ) (p : String)
    (d : Bytes) {disk1 : σ} {a : Nat}
    (hw : os.WriteFile disk (Join c.cacheFolder p) d = (disk1, none))
    (hl : mapLookup c.cacheMap p = some a) :
    PutFile os c disk p d = (updated c a d, disk1, none) := by
  unfold PutFile
  simp only [hw, hl]
  rfl

theorem PutFile_miss_eq {σ : Type} (os : OS σ) (c : LRUCache) (disk : σ) (p : String)
    (d : Bytes) {disk1 : σ}
    (hw : os.WriteFile disk (Join c.cacheFolder p) d = (disk1, none))
    (hl : mapLookup c.cacheMap p = none) :
    PutFile os c disk p d = ((insertTail os c disk1 p d).1, (insertTail os c disk1 p d).2, none) := by
  unfold PutFile insertTail
  simp only [hw, hl, LRUCache.PushFront]
  by_cases hover : ((pushed c p d).cacheList.length : Int) > (pushed c p d).maxFiles
  · have h2 : ((c.elems.length :: c.cacheList).length : Int) > c.maxFiles := hover
    rw [if_pos hover, if_pos h2]
    rfl
  · have h2 : ¬ ((c.elems.length :: c.cacheList).length : Int) > c.maxFiles := hover
    rw [if_neg hover, if_neg h2]
    rfl

theorem GetFile_hit_eq {σ : Type} (os : OS σ) (c : LRUCache) (disk : σ) (p : String)
    {a : Nat} (hl : mapLookup c.cacheMap p = some a) :
    GetFile os c disk p = (moved c a, disk, .ok (c.deref a).Data) := by
  unfold GetFile
  simp only [hl]
  rfl

theorem GetFile_miss_error {σ : Type} (os : OS σ) (c : LRUCache) (disk : σ) (p : String)
    {err : Error} (hl : mapLookup c.cacheMap p = none)
    (hr : os.ReadFile disk (Join c.cacheFolder p) = .error err) :
    GetFile os c disk p = (c, disk, .error err) := by
  unfold GetFile
  simp only [hl, hr]

theorem GetFile_miss_eq {σ : Type} (os : OS σ) (c : LRUCache) (disk : σ) (p : String)
    {d : Bytes} (hl : mapLookup c.cacheMap p = none)
    (hr : os.ReadFile disk (Join c.cacheFolder p) = .ok d) :
    GetFile os c disk p = ((insertTail os c disk p d).1, (insertTail os c disk p d).2, .ok d) := by
  unfold GetFile insertTail
  simp only [hl, hr, LRUCache.PushFront]
  by_cases hover : ((pushed c p d).cacheList.length : Int) > (pushed c p d).maxFiles
  · have h2 : ((c.elems.length :: c.cacheList).length : Int) > c.maxFiles := hover
    rw [if_pos hover, if_pos h2]
    rfl
  · have h2 : ¬ ((c.elems.length :: c.cacheList).length : Int) > c.maxFiles := hover
    rw [if_neg hover, if_neg h2]
    rfl

theorem hit_no_evict {c : LRUCache} (h : Inv c) (hc : Cap c) {p : String} (d : Bytes)
    (hp : p ∈ c.keys) :
    evictIfOver c.maxFiles (touch c.entries p d) = touch c.entries p d
    ∧ evictedOf c.maxFiles (touch c.entries p d) = none := by
  have hp2 := (h.mem_keys_iff p).1 hp
  have hlen := touch_length_hit d h.paths_nodup hp2
  have hpos : 0 < c.entries.length := by
    cases hce : c.entries with
    | nil => rw [hce] at hp2; simp at hp2
    | cons x xs => simp
  have hcl : c.entries.length = c.cacheList.length := by simp [LRUCache.entries]
  have hnot : ¬ ((touch c.entries p d).length : Int) > c.maxFiles := by
    unfold Cap at hc
    rw [hlen, hcl]
    rw [hcl] at hpos
    omega
  unfold evictIfOver evictedOf
  rw [if_neg hnot, if_neg hnot]
  exact ⟨rfl, rfl⟩

theorem Accessed.of_hit {σ : Type} (os : OS σ) {c c1 : LRUCache} (h : Inv c) (hc : Cap c)
    (disk : σ) {p : String} {d : Bytes} (hp : p ∈ c.keys) (h1 : Inv c1)
    (hl : c1.cacheList.length = c.cacheList.length) (hm : c1.maxFiles = c.maxFiles)
    (hf : c1.cacheFolder = c.cacheFolder) (he : c1.entries = touch c.entries p d) :
    Accessed os c disk p d c1 disk := by
  have hne := hit_no_evict h hc d hp
  refine ⟨h1, ?_, hm, hf, ?_, ?_⟩
  · unfold Cap
    rw [hl, hm]
    exact hc
  · rw [hne.1]
    exact he
  · rw [hne.2]
    rfl

theorem PutFile_ok {σ : Type} (os : OS σ) {c : LRUCache} (h : Inv c) (hc : Cap c)
    (disk : σ) (p : String) (d : Bytes) {disk1 : σ}
    (hw : os.WriteFile disk (Join c.cacheFolder p) d = (disk1, none)) :
    (PutFile os c disk p d).2.2 = none
    ∧ Accessed os c disk1 p d (PutFile os c disk p d).1 (PutFile os c disk p d).2.1 := by
  cases hl : mapLookup c.cacheMap p with
  | some a =>
    rw [PutFile_hit_eq os c disk p d hw hl]
    refine ⟨rfl, ?_⟩
    have hu := h.updated d hl
    have hm := h.mem_map (mapLookup_mem hl)
    have hpk : p ∈ c.keys := List.mem_map.2 ⟨(p, a), mapLookup_mem hl, rfl⟩
    apply Accessed.of_hit os h hc disk1 hpk hu.1 _ rfl rfl hu.2
    show (MoveToFront c.cacheList a).length = _
    unfold MoveToFront
    rw [if_pos hm.1]
    exact (List.perm_cons_erase hm.1).length_eq.symm
  | none =>
    rw [PutFile_miss_eq os c disk p d hw hl]
    refine ⟨rfl, ?_⟩
    have := insertTail_spec os h hc disk1 d hl
    exact ⟨this.1, this.2.1, this.2.2.1, this.2.2.2.1, this.2.2.2.2.1, this.2.2.2.2.2⟩

theorem GetFile_ok {σ : Type} (os : OS σ) {c : LRUCache} (h : Inv c) (hc : Cap c)
    (disk : σ) (p : String) {c1 : LRUCache} {disk1 : σ} {d : Bytes}
    (hg : GetFile os c disk p = (c1, disk1, .ok d)) :
    Accessed os c disk p d c1 disk1
    ∧ ((p ∈ c.keys ∧ ⟨p, d⟩ ∈ c.entries)
       ∨ (p ∉ c.keys ∧ os.ReadFile disk (Join c.cacheFolder p) = .ok d)) := by
  cases hl : mapLookup c.cacheMap p with
  | some a =>
    rw [GetFile_hit_eq os c disk p hl] at hg
    simp only [Prod.mk.injEq, Except.ok.injEq] at hg
    obtain ⟨rfl, rfl, rfl⟩ := hg
    have hmv := h.moved hl
    have hm := h.mem_map (mapLookup_mem hl)
    have hpk : p ∈ c.keys := List.mem_map.2 ⟨(p, a), mapLookup_mem hl, rfl⟩
    constructor
    · apply Accessed.of_hit os h hc disk hpk hmv.1 _ rfl rfl hmv.2.1
      show (MoveToFront c.cacheList a).length = _
      unfold MoveToFront
      rw [if_pos hm.1]
      exact (List.perm_cons_erase hm.1).length_eq.symm
    · left
      refine ⟨hpk, ?_⟩
      have : (⟨p, (c.deref a).Data⟩ : CacheFile) = c.deref a := by
        rw [← hmv.2.2.1]
      rw [this]
      exact hmv.2.2.2
  | none =>
    cases hr : os.ReadFile disk (Join c.cacheFolder p) with
    | error err =>
      rw [GetFile_miss_error os c disk p hl hr] at hg
      simp at hg
    | ok d1 =>
      rw [GetFile_miss_eq os c disk p hl hr] at hg
      simp only [Prod.mk.injEq, Except.ok.injEq] at hg
      obtain ⟨rfl, rfl, rfl⟩ := hg
      have := insertTail_spec os h hc disk d1 hl
      refine ⟨⟨this.1, this.2.1, this.2.2.1, this.2.2.2.1, this.2.2.2.2.1, this.2.2.2.2.2⟩, ?_⟩
      right
      exact ⟨mapLookup_eq_none.1 hl, rfl⟩

theorem GetFile_error {σ : Type} (os : OS σ) (c : LRUCache) (disk : σ) (p : String)
    {c1 : LRUCache} {disk1 : σ} {err : Error}
    (hg : GetFile os c disk p = (c1, disk1, .error err)) :
    c1 = c ∧ disk1 = disk ∧ p ∉ c.keys
    ∧ os.ReadFile disk (Join c.cacheFolder p) = .error err := by
  cases hl : mapLookup c.cacheMap p with
  | some a =>
    rw [GetFile_hit_eq os c disk p hl] at hg
    simp at hg
  | none =>
    cases hr : os.ReadFile disk (Join c.cacheFolder p) with
    | error e1 =>
      rw [GetFile_miss_error os c disk p hl hr] at hg
      simp only [Prod.mk.injEq, Except.error.injEq] at hg
      obtain ⟨rfl, rfl, rfl⟩ := hg
      exact ⟨rfl, rfl, mapLookup_eq_none.1 hl, rfl⟩
    | ok d1 =>
      rw [GetFile_miss_eq os c disk p hl hr] at hg
      simp at hg

theorem ClearCache_spec {σ : Type} (os : OS σ) (c : LRUCache) (disk : σ) :
    Inv (ClearCache os c disk).1 ∧ Cap (ClearCache os c disk).1
    ∧ (ClearCache os c disk).1.maxFiles = c.maxFiles
    ∧ (ClearCache os c disk).1.cacheFolder = c.cacheFolder
    ∧ (ClearCache os c disk).1.entries = []
    ∧ (ClearCache os c disk).1.keys = []
    ∧ (ClearCache os c disk).2.1 = (os.RemoveAll disk c.cacheFolder).1
    ∧ (ClearCache os c disk).2.2 = (os.RemoveAll disk c.cacheFolder).2 := by
  refine ⟨⟨?_, ?_, ?_, ?_⟩, ?_, rfl, rfl, rfl, rfl, rfl, rfl⟩
  · simp [ClearCache]
  · simp [ClearCache]
  · simp [ClearCache]
  · simp [ClearCache]
  · simp [ClearCache, Cap]

theorem New_ok {σ : Type} (os : OS σ) {disk disk0 : σ} {maxFiles : Int}
    {cacheFolder : String} {c0 : LRUCache}
    (hnew : New os disk maxFiles cacheFolder = (disk0, .ok c0)) :
    c0 = ⟨maxFiles, [], [], [], cacheFolder⟩ ∧ os.MkdirAll disk cacheFolder = (disk0, none) := by
  unfold New at hnew
  cases hm : os.MkdirAll disk cacheFolder with
  | mk d1 e =>
    rw [hm] at hnew
    cases e with
    | some err => simp at hnew
    | none =>
      simp only [Prod.mk.injEq, Except.ok.injEq] at hnew
      obtain ⟨rfl, rfl⟩ := hnew
      exact ⟨rfl, rfl⟩

theorem Inv.empty (maxFiles : Int) (elems : List CacheFile) (cacheFolder : String) :
    Inv ⟨maxFiles, elems, [], [], cacheFolder⟩ ∧ Cap ⟨maxFiles, elems, [], [], cacheFolder⟩ := by
  refine ⟨⟨?_, ?_, ?_, ?_⟩, ?_⟩
  · simp
  · simp
  · simp
  · simp
  · simp [Cap]

theorem step_inv {σ : Type} (os : OS σ) (s : LRUCache × σ) (op : Op)
    (h : Inv s.1) (hc : Cap s.1) :
    Inv (step os s op).1.1 ∧ Cap (step os s op).1.1
    ∧ (step os s op).1.1.maxFiles = s.1.maxFiles
    ∧ (step os s op).1.1.cacheFolder = s.1.cacheFolder := by
  cases op with
  | get p =>
    unfold step
    simp only
    rcases hg : GetFile os s.1 s.2 p with ⟨c1, disk1, r⟩
    cases r with
    | ok d =>
      have := (GetFile_ok os h hc s.2 p hg).1
      exact ⟨this.inv, this.cap, this.maxFiles_eq, this.folder_eq⟩
    | error e =>
      have := GetFile_error os s.1 s.2 p hg
      simp only
      rw [this.1]
      exact ⟨h, hc, rfl, rfl⟩
  | put p d =>
    unfold step
    simp only
    rcases hw : os.WriteFile s.2 (Join s.1.cacheFolder p) d with ⟨disk1, e⟩
    cases e with
    | none =>
      have := (PutFile_ok os h hc s.2 p d hw).2
      exact ⟨this.inv, this.cap, this.maxFiles_eq, this.folder_eq⟩
    | some err =>
      rw [PutFile_fail os s.1 s.2 p d hw]
      exact ⟨h, hc, rfl, rfl⟩
  | clear =>
    have := ClearCache_spec os s.1 s.2
    exact ⟨this.1, this.2.1, this.2.2.1, this.2.2.2.1⟩

theorem run_inv {σ : Type} (os : OS σ) (ops : List Op) (s : LRUCache × σ)
    (h : Inv s.1) (hc : Cap s.1) :
    Inv (run os s ops).1 ∧ Cap (run os s ops).1
    ∧ (run os s ops).1.maxFiles = s.1.maxFiles
    ∧ (run os s ops).1.cacheFolder = s.1.cacheFolder := by
  induction ops generalizing s with
  | nil => exact ⟨h, hc, rfl, rfl⟩
  | cons op ops ih =>
    have h1 := step_inv os s op h hc
    have h2 := ih (step os s op).1 h1.1 h1.2.1
    refine ⟨h2.1, h2.2.1, ?_, ?_⟩
    · exact h2.2.2.1.trans h1.2.2.1
    · exact h2.2.2.2.trans h1.2.2.2

theorem run_append {σ : Type} (os : OS σ) (ops1 ops2 : List Op) (s : LRUCache × σ) :
    run os s (ops1 ++ ops2) = run os (run os s ops1) ops2 := by
  induction ops1 generalizing s with
  | nil => rfl
  | cons op ops ih => exact ih _

/-- **C1** (capacity bound).  For a cache created by `New` with `maxFiles ≥ 0`,
after every finite sequence of `GetFile`, `PutFile` and `ClearCache` calls,
whatever each system call returned, the list holds at most `maxFiles` elements,
the map has as many entries as the list, and the keys of the map are pairwise
distinct (so that number is the number of keys). -/
theorem capacity_bound {σ : Type} (os : OS σ) (disk disk0 : σ) (maxFiles : Int)
    (cacheFolder : String) (c0 : LRUCache) (hmax : 0 ≤ maxFiles)
    (hnew : New os disk maxFiles cacheFolder = (disk0, .ok c0)) (ops : List Op) :
    ((run os (c0, disk0) ops).1.cacheList.length : Int) ≤ maxFiles
    ∧ (run os (c0, disk0) ops).1.cacheList.length = (run os (c0, disk0) ops).1.cacheMap.length
    ∧ (run os (c0, disk0) ops).1.keys.Nodup := by
  have h0 := (New_ok os hnew).1
  have hi := Inv.empty maxFiles [] cacheFolder
  rw [← h0] at hi
  have hr := run_inv os ops (c0, disk0) hi.1 hi.2
  refine ⟨?_, hr.1.length_eq, hr.1.keys_nodup⟩
  have hcap := hr.2.1
  unfold Cap at hcap
  rw [hr.2.2.1] at hcap
  have : (c0, disk0).1.maxFiles = maxFiles := by rw [h0]
  rw [this] at hcap
  omega

/-- Witness of `capacity_bound`: a cache of capacity 2 on the reference disk. -/
theorem capacity_bound_witness :
    (0 : Int) ≤ 2
    ∧ New refOS [] 2 "cf" = ([("cf", Node.dir)], .ok ⟨2, [], [], [], "cf"⟩)
    ∧ ((run refOS (⟨2, [], [], [], "cf"⟩, [("cf", Node.dir)])
          [.put "a" [1], .put "b" [2], .get "a", .put "c" [3], .get "zz"]).1.cacheList.length
        : Int) ≤ 2 :=
  ⟨by decide, by rfl,
   (capacity_bound refOS [] [("cf", Node.dir)] 2 "cf" ⟨2, [], [], [], "cf"⟩ (by decide)
      (by rfl) [.put "a" [1], .put "b" [2], .get "a", .put "c" [3], .get "zz"]).1⟩

theorem history_append {σ : Type} (os : OS σ) (ops1 ops2 : List Op) (s : LRUCache × σ) :
    history os s (ops1 ++ ops2) = history os s ops1 ++ history os (run os s ops1) ops2 := by
  induction ops1 generalizing s with
  | nil => rfl
  | cons op ops ih =>
    show _ :: history os _ (ops ++ ops2) = _
    rw [ih]
    rfl

theorem history_length {σ : Type} (os : OS σ) (ops : List Op) (s : LRUCache × σ) :
    (history os s ops).length = ops.length := by
  induction ops generalizing s with
  | nil => rfl
  | cons op ops ih => simp [history, ih]

theorem lastAccess_snoc (h : List (Op × Result)) (op : Op) (r : Result) (p : String) :
    lastAccess (h ++ [(op, r)]) p =
      if r.ok = true ∧ accessOf op = some p then some h.length else lastAccess h p := by
  unfold lastAccess
  rw [List.reverse_append]
  simp [lastAccessRev]

theorem lastAccessRev_lt {h : List (Op × Result)} {p : String} {i : Nat}
    (hi : lastAccessRev h p = some i) : i < h.length := by
  induction h with
  | nil => simp [lastAccessRev] at hi
  | cons x xs ih =>
    obtain ⟨op, r⟩ := x
    unfold lastAccessRev at hi
    split at hi
    · simp only [Option.some.injEq] at hi
      simp [← hi]
    · have := ih hi
      simp only [List.length_cons]
      omega

theorem lastAccess_lt {h : List (Op × Result)} {p : String} {i : Nat}
    (hi : lastAccess h p = some i) : i < h.length := by
  have := lastAccessRev_lt hi
  simpa using this

theorem Recency.sublist {h : List (Op × Result)} {l1 l2 : List CacheFile}
    (hs : l1.Sublist l2) (hr : Recency h l2) : Recency h l1 :=
  ⟨hr.1.sublist hs, fun e he => hr.2 e (hs.subset he)⟩

theorem Recency.evict {h : List (Op × Result)} {l : List CacheFile} (maxFiles : Int)
    (hr : Recency h l) : Recency h (evictIfOver maxFiles l) := by
  unfold evictIfOver
  split
  · exact hr.sublist (List.dropLast_sublist l)
  · exact hr

theorem Recency.same {h h1 : List (Op × Result)} {l : List CacheFile}
    (hsame : ∀ q, lastAccess h1 q = lastAccess h q) (hr : Recency h l) : Recency h1 l := by
  unfold Recency
  simp only [hsame]
  exact hr

theorem Recency.touch {h : List (Op × Result)} {l : List CacheFile} (op : Op) (r : Result)
    (p : String) (d : Bytes) (hok : r.ok = true) (hacc : accessOf op = some p)
    (hr : Recency h l) : Recency (h ++ [(op, r)]) (touch l p d) := by
  have hp : lastAccess (h ++ [(op, r)]) p = some h.length := by
    rw [lastAccess_snoc, if_pos ⟨hok, hacc⟩]
  have hq : ∀ q, q ≠ p → lastAccess (h ++ [(op, r)]) q = lastAccess h q := by
    intro q hqp
    rw [lastAccess_snoc, if_neg]
    rintro ⟨_, h2⟩
    rw [hacc] at h2
    exact hqp (Option.some.inj h2).symm
  have hfil : Recency h (l.filter (fun e => e.Path ≠ p)) := hr.sublist (List.filter_sublist _)
  have hne : ∀ e ∈ l.filter (fun e => e.Path ≠ p), e.Path ≠ p := by
    intro e he
    have := (List.mem_filter.1 he).2
    simpa using this
  unfold GoHLStreamer.touch
  constructor
  · rw [List.pairwise_cons]
    constructor
    · intro e he
      obtain ⟨j, hj⟩ := hfil.2 e he
      refine ⟨h.length, j, hp, ?_, lastAccess_lt hj⟩
      rw [hq _ (hne e he)]
      exact hj
    · refine List.Pairwise.imp_of_mem ?_ hfil.1
      intro e1 e2 h1 h2 h12
      rw [hq _ (hne e1 h1), hq _ (hne e2 h2)]
      exact h12
  · intro e he
    rcases List.mem_cons.1 he with he | he
    · subst he
      exact ⟨_, hp⟩
    · rw [hq _ (hne e he)]
      exact hfil.2 e he

theorem PutFile_err {σ : Type} (os : OS σ) (c : LRUCache) (disk : σ) (p : String)
    (d : Bytes) :
    (PutFile os c disk p d).2.2 = (os.WriteFile disk (Join c.cacheFolder p) d).2 := by
  rcases hw : os.WriteFile disk (Join c.cacheFolder p) d with ⟨disk1, e⟩
  cases e with
  | some err => rw [PutFile_fail os c disk p d hw]
  | none =>
    cases hl : mapLookup c.cacheMap p with
    | some a => rw [PutFile_hit_eq os c disk p d hw hl]
    | none => rw [PutFile_miss_eq os c disk p d hw hl]

theorem step_get_ok {σ : Type} (os : OS σ) (s : LRUCache × σ) (q : String)
    {c1 : LRUCache} {disk1 : σ} {d : Bytes}
    (hg : GetFile os s.1 s.2 q = (c1, disk1, .ok d)) :
    step os s (.get q) = ((c1, disk1), .bytes d) := by
  unfold step
  simp only [hg]

theorem step_get_error {σ : Type} (os : OS σ) (s : LRUCache × σ) (q : String)
    {c1 : LRUCache} {disk1 : σ} {e : Error}
    (hg : GetFile os s.1 s.2 q = (c1, disk1, .error e)) :
    step os s (.get q) = ((c1, disk1), .fail e) := by
  unfold step
  simp only [hg]

theorem step_put_eq {σ : Type} (os : OS σ) (s : LRUCache × σ) (q : String) (d : Bytes) :
    step os s (.put q d) = (((PutFile os s.1 s.2 q d).1, (PutFile os s.1 s.2 q d).2.1),
      Result.ofError (PutFile os s.1 s.2 q d).2.2) := rfl

theorem step_access {σ : Type} (os : OS σ) (s : LRUCache × σ) (op : Op) (p : String)
    (h : Inv s.1) (hc : Cap s.1) (hacc : accessOf op = some p)
    (hok : (step os s op).2.ok = true) :
    ∃ d disk1, Accessed os s.1 disk1 p d (step os s op).1.1 (step os s op).1.2
      ∧ ((∃ d0, op = .put p d0 ∧ d = d0
            ∧ os.WriteFile s.2 (Join s.1.cacheFolder p) d0 = (disk1, none))
         ∨ (op = .get p ∧ disk1 = s.2 ∧ (step os s op).2 = .bytes d
            ∧ ((p ∈ s.1.keys ∧ ⟨p, d⟩ ∈ s.1.entries)
               ∨ (p ∉ s.1.keys ∧ os.ReadFile s.2 (Join s.1.cacheFolder p) = .ok d)))) := by
  cases op with
  | get q =>
    simp only [accessOf, Option.some.injEq] at hacc
    subst hacc
    rcases hg : GetFile os s.1 s.2 q with ⟨c1, disk1, r⟩
    cases r with
    | ok d =>
      have hs := step_get_ok os s q hg
      have := GetFile_ok os h hc s.2 q hg
      rw [hs]
      exact ⟨d, s.2, this.1, Or.inr ⟨rfl, rfl, rfl, this.2⟩⟩
    | error e =>
      rw [step_get_error os s q hg] at hok
      simp [Result.ok] at hok
  | put q d =>
    simp only [accessOf, Option.some.injEq] at hacc
    subst hacc
    rcases hw : os.WriteFile s.2 (Join s.1.cacheFolder q) d with ⟨disk1, e⟩
    cases e with
    | none =>
      have := (PutFile_ok os h hc s.2 q d hw).2
      rw [step_put_eq]
      exact ⟨d, disk1, this, Or.inl ⟨d, rfl, rfl, hw⟩⟩
    | some err =>
      rw [step_put_eq, PutFile_err, hw] at hok
      simp [Result.ok, Result.ofError] at hok
  | clear => simp [accessOf] at hacc

theorem step_failed {σ : Type} (os : OS σ) (s : LRUCache × σ) (op : Op) (p : String)
    (hacc : accessOf op = some p) (hok : (step os s op).2.ok = false) :
    (step os s op).1.1 = s.1
    ∧ ((∃ err, op = .get p ∧ (step os s op).1.2 = s.2 ∧ p ∉ s.1.keys
          ∧ os.ReadFile s.2 (Join s.1.cacheFolder p) = .error err)
       ∨ (∃ d err, op = .put p d
          ∧ os.WriteFile s.2 (Join s.1.cacheFolder p) d = ((step os s op).1.2, some err))) := by
  cases op with
  | get q =>
    simp only [accessOf, Option.some.injEq] at hacc
    subst hacc
    rcases hg : GetFile os s.1 s.2 q with ⟨c1, disk1, r⟩
    cases r with
    | ok d =>
      rw [step_get_ok os s q hg] at hok
      simp [Result.ok] at hok
    | error e =>
      have := GetFile_error os s.1 s.2 q hg
      rw [step_get_error os s q hg]
      exact ⟨this.1, Or.inl ⟨e, rfl, this.2.1, this.2.2.1, this.2.2.2⟩⟩
  | put q d =>
    simp only [accessOf, Option.some.injEq] at hacc
    subst hacc
    rcases hw : os.WriteFile s.2 (Join s.1.cacheFolder q) d with ⟨disk1, e⟩
    cases e with
    | none =>
      rw [step_put_eq, PutFile_err, hw] at hok
      simp [Result.ok, Result.ofError] at hok
    | some err =>
      rw [step_put_eq, PutFile_fail os s.1 s.2 q d hw]
      exact ⟨rfl, Or.inr ⟨d, err, rfl, hw⟩⟩
  | clear => simp [accessOf] at hacc

theorem recency_step {σ : Type} (os : OS σ) (s : LRUCache × σ) (op : Op)
    (h : List (Op × Result)) (hi : Inv s.1) (hc : Cap s.1) (hr : Recency h s.1.entries) :
    Recency (h ++ [(op, (step os s op).2)]) (step os s op).1.1.entries := by
  cases hacc : accessOf op with
  | none =>
    cases op with
    | get q => simp [accessOf] at hacc
    | put q d => simp [accessOf] at hacc
    | clear =>
      have : (step os s .clear).1.1.entries = [] := (ClearCache_spec os s.1 s.2).2.2.2.2.1
      rw [this]
      exact ⟨List.Pairwise.nil, fun e he => absurd he (List.not_mem_nil e)⟩
  | some p =>
    cases hok : (step os s op).2.ok with
    | true =>
      obtain ⟨d, disk1, hA, _⟩ := step_access os s op p hi hc hacc hok
      rw [hA.entries_eq]
      exact (hr.touch op _ p d hok hacc).evict _
    | false =>
      rw [(step_failed os s op p hacc hok).1]
      apply hr.same
      intro q
      rw [lastAccess_snoc, if_neg]
      rintro ⟨h1, _⟩
      rw [hok] at h1
      cases h1

theorem run_snoc {σ : Type} (os : OS σ) (ops : List Op) (op : Op) (s : LRUCache × σ) :
    run os s (ops ++ [op]) = (step os (run os s ops) op).1 := by
  rw [run_append]
  rfl

theorem history_snoc {σ : Type} (os : OS σ) (ops : List Op) (op : Op) (s : LRUCache × σ) :
    history os s (ops ++ [op]) = history os s ops ++ [(op, (step os (run os s ops) op).2)] := by
  rw [history_append]
  rfl

theorem recency_run {σ : Type} (os : OS σ) (s : LRUCache × σ) (ops : List Op)
    (hi : Inv s.1) (hc : Cap s.1) (he : s.1.entries = []) :
    Recency (history os s ops) (run os s ops).1.entries := by
  induction ops using List.reverseRecOn with
  | nil =>
    show Recency [] s.1.entries
    rw [he]
    exact ⟨List.Pairwise.nil, fun e h => absurd h (List.not_mem_nil e)⟩
  | append_singleton ops op ih =>
    rw [run_snoc, history_snoc]
    have hr := run_inv os ops s hi hc
    exact recency_step os (run os s ops) op _ hr.1 hr.2.1 ih

theorem evictIfOver_cons_take (C : Nat) (x : CacheFile) (full : List CacheFile) :
    evictIfOver (C : Int) (x :: full.take C) = (x :: full).take C := by
  unfold evictIfOver
  by_cases hlt : full.length < C
  · have h1 : full.take C = full := List.take_of_length_le (Nat.le_of_lt hlt)
    rw [h1]
    have h2 : ¬ (((x :: full).length : Int) > (C : Int)) := by
      simp only [List.length_cons]
      omega
    rw [if_neg h2]
    exact (List.take_of_length_le (by simp only [List.length_cons]; omega)).symm
  · have hlen : (full.take C).length = C := by
      rw [List.length_take]
      omega
    have h2 : (((x :: full.take C).length : Int) > (C : Int)) := by
      simp only [List.length_cons, hlen]
      omega
    rw [if_pos h2]
    cases C with
    | zero => simp
    | succ k =>
      have hne : full.take (k + 1) ≠ [] := by
        intro h0
        rw [h0] at hlen
        simp at hlen
      rw [List.dropLast_cons_of_ne_nil hne, List.dropLast_eq_take, hlen, List.take_take]
      simp

theorem puts_entries {σ : Type} (os : OS σ) (C : Nat) (puts : List (String × Bytes))
    (s : LRUCache × σ) (full : List CacheFile) (hi : Inv s.1) (hc : Cap s.1)
    (hmax : s.1.maxFiles = (C : Int)) (he : s.1.entries = full.take C)
    (hnd : (puts.map Prod.fst).Nodup)
    (hdisj : ∀ q ∈ puts, q.1 ∉ full.map (fun e => e.Path))
    (hok : ∀ x ∈ history os s (puts.map putOp), x.2.ok = true) :
    (run os s (puts.map putOp)).1.entries = ((puts.map entryOf).reverse ++ full).take C := by
  induction puts generalizing s full with
  | nil => simpa [run] using he
  | cons q rest ih =>
    have hok1 : (step os s (putOp q)).2.ok = true :=
      hok _ (List.mem_cons_self _ _)
    obtain ⟨d, disk1, hA, hB⟩ := step_access os s (putOp q) q.1 hi hc rfl hok1
    have hd : d = q.2 := by
      rcases hB with ⟨d0, h1, h2, _⟩ | ⟨h1, _⟩
      · rw [h2]
        simp only [putOp, Op.put.injEq] at h1
        exact h1.2.symm
      · simp [putOp] at h1
    subst hd
    have hnot : q.1 ∉ (full.take C).map (fun e => e.Path) := by
      intro hmem
      apply hdisj q (List.mem_cons_self _ _)
      obtain ⟨e, he1, he2⟩ := List.mem_map.1 hmem
      exact List.mem_map.2 ⟨e, List.mem_of_mem_take he1, he2⟩
    have hent : (step os s (putOp q)).1.1.entries = (entryOf q :: full).take C := by
      rw [hA.entries_eq, he, touch_miss _ hnot, hmax]
      exact evictIfOver_cons_take C _ full
    simp only [List.map_cons, List.nodup_cons] at hnd
    have := ih (step os s (putOp q)).1 (entryOf q :: full) hA.inv hA.cap
      (hA.maxFiles_eq.trans hmax) hent hnd.2
      (by
        intro r hr hmem
        simp only [List.map_cons, List.mem_cons] at hmem
        rcases hmem with hmem | hmem
        · apply hnd.1
          have : r.1 = q.1 := hmem
          rw [← this]
          exact List.mem_map_of_mem Prod.fst hr
        · exact hdisj r (List.mem_cons_of_mem _ hr) hmem)
      (by
        intro x hx
        apply hok
        exact List.mem_cons_of_mem _ hx)
    show (run os (step os s (putOp q)).1 (rest.map putOp)).1.entries = _
    rw [this]
    simp

theorem New_inv {σ : Type} (os : OS σ) {disk disk0 : σ} {maxFiles : Int}
    {cacheFolder : String} {c0 : LRUCache}
    (hnew : New os disk maxFiles cacheFolder = (disk0, .ok c0)) :
    Inv c0 ∧ Cap c0 ∧ c0.maxFiles = maxFiles ∧ c0.cacheFolder = cacheFolder
    ∧ c0.entries = [] := by
  have h0 := (New_ok os hnew).1
  rw [h0]
  exact ⟨(Inv.empty maxFiles [] cacheFolder).1, (Inv.empty maxFiles [] cacheFolder).2,
    rfl, rfl, rfl⟩

theorem reach_inv {σ : Type} (os : OS σ) {disk disk0 : σ} {maxFiles : Int}
    {cacheFolder : String} {c0 : LRUCache}
    (hnew : New os disk maxFiles cacheFolder = (disk0, .ok c0)) (ops : List Op) :
    Inv (run os (c0, disk0) ops).1 ∧ Cap (run os (c0, disk0) ops).1
    ∧ (run os (c0, disk0) ops).1.maxFiles = maxFiles
    ∧ (run os (c0, disk0) ops).1.cacheFolder = cacheFolder := by
  have h0 := New_inv os hnew
  have hr := run_inv os ops (c0, disk0) h0.1 h0.2.1
  exact ⟨hr.1, hr.2.1, hr.2.2.1.trans h0.2.2.1, hr.2.2.2.trans h0.2.2.2.1⟩

/-- **C2, amended** (eviction picks the least recently used entry).  For a
cache of capacity `C ≥ 1` made by `New`: in every state reached by a sequence of
calls and holding `C` entries, a `PutFile` of a path not in the index that
returns `nil` puts the new entry at the front, removes from the index exactly
the last entry `lru` and keeps the others in order, applies `os.Remove` to the
backing file of `lru` and to nothing else, and `lru` is the entry whose most
recent successful `GetFile`/`PutFile` is older than that of every other entry.
On a file system that changes a file only through calls on that file's path,
the eviction leaves every file but the backing file of `lru` as the write left
it: a kept entry whose backing file is neither that of `lru` nor that of the
new entry keeps its file unchanged, the new entry's file holds the new bytes
unless it is the backing file of `lru` under another key, and the backing file
of `lru` can no longer be read when `os.Remove` returned `nil`.  In particular
`C + 1` successful `PutFile` calls of pairwise distinct paths on the fresh cache
leave the first path out of the index and the other `C` in it. -/
theorem eviction_least_recently_used {σ : Type} (os : OS σ) (disk disk0 : σ) (C : Nat)
    (cacheFolder : String) (c0 : LRUCache) (hC : 1 ≤ C)
    (hnew : New os disk (C : Int) cacheFolder = (disk0, .ok c0)) :
    (∀ (ops : List Op) (p : String) (d : Bytes) (c c1 : LRUCache) (disk1 disk2 : σ),
        run os (c0, disk0) ops = (c, disk1) →
        PutFile os c disk1 p d = (c1, disk2, none) →
        c.cacheList.length = C → p ∉ c.keys →
        ∃ lru rest,
          c.entries = rest ++ [lru]
          ∧ c1.entries = ⟨p, d⟩ :: rest
          ∧ c1.keys.Perm (p :: rest.map (fun e => e.Path))
          ∧ lru.Path ∉ c1.keys
          ∧ disk2 = (os.Remove (os.WriteFile disk1 (Join cacheFolder p) d).1
                      (Join cacheFolder lru.Path)).1
          ∧ (∃ t, lastAccess (history os (c0, disk0) ops) lru.Path = some t
              ∧ ∀ e ∈ rest, ∃ u,
                  lastAccess (history os (c0, disk0) ops) e.Path = some u ∧ t < u)
          ∧ (Lawful os →
              (∀ q, q ≠ Join cacheFolder lru.Path →
                os.ReadFile disk2 q
                  = os.ReadFile (os.WriteFile disk1 (Join cacheFolder p) d).1 q)
              ∧ (∀ e ∈ rest, Join cacheFolder e.Path ≠ Join cacheFolder lru.Path →
                  Join cacheFolder e.Path ≠ Join cacheFolder p →
                  os.ReadFile disk2 (Join cacheFolder e.Path)
                    = os.ReadFile disk1 (Join cacheFolder e.Path))
              ∧ (Join cacheFolder p ≠ Join cacheFolder lru.Path →
                  os.ReadFile disk2 (Join cacheFolder p) = .ok d)
              ∧ ((os.Remove (os.WriteFile disk1 (Join cacheFolder p) d).1
                    (Join cacheFolder lru.Path)).2 = none →
                  ∃ err, os.ReadFile disk2 (Join cacheFolder lru.Path) = .error err)))
    ∧ (∀ (first : String × Bytes) (rest : List (String × Bytes)),
        ((first :: rest).map Prod.fst).Nodup → rest.length = C →
        (∀ x ∈ history os (c0, disk0) ((first :: rest).map putOp), x.2.ok = true) →
        first.1 ∉ (run os (c0, disk0) ((first :: rest).map putOp)).1.keys
        ∧ ∀ q ∈ rest, q.1 ∈ (run os (c0, disk0) ((first :: rest).map putOp)).1.keys) := by
  constructor
  · intro ops p d c c1 disk1 disk2 hrun hput hfull hp
    have hreach := reach_inv os hnew ops
    have hrec := recency_run os (c0, disk0) ops (New_inv os hnew).1 (New_inv os hnew).2.1
      (New_inv os hnew).2.2.2.2
    rw [hrun] at hreach hrec
    obtain ⟨hi, hc, hmax, hfold⟩ := hreach
    simp only at hi hc hmax hfold hrec
    have hwe : (os.WriteFile disk1 (Join c.cacheFolder p) d).2 = none := by
      rw [← PutFile_err, hput]
    have hw : os.WriteFile disk1 (Join c.cacheFolder p) d
        = ((os.WriteFile disk1 (Join c.cacheFolder p) d).1, none) := by
      rw [← hwe]
    have hA := (PutFile_ok os hi hc disk1 p d hw).2
    rw [hput] at hA
    simp only at hA
    have hnot : p ∉ c.entries.map (fun e => e.Path) := by
      rw [← hi.mem_keys_iff]
      exact hp
    have hlen : c.entries.length = C := by
      rw [← hfull]
      simp [LRUCache.entries]
    have hne : c.entries ≠ [] := by
      intro h0
      rw [h0] at hlen
      simp at hlen
      omega
    have hover : (((⟨p, d⟩ :: c.entries : List CacheFile).length : Int) > c.maxFiles) := by
      rw [hmax]
      simp only [List.length_cons, hlen]
      omega
    have hsplit : c.entries = c.entries.dropLast ++ [c.entries.getLast hne] :=
      (List.dropLast_append_getLast hne).symm
    have hent : c1.entries = ⟨p, d⟩ :: c.entries.dropLast := by
      rw [hA.entries_eq, touch_miss d hnot]
      unfold evictIfOver
      rw [if_pos hover, List.dropLast_cons_of_ne_nil hne]
    have hnd := hi.paths_nodup
    rw [hsplit, List.map_append, List.nodup_append] at hnd
    have hdisk : disk2 = (os.Remove (os.WriteFile disk1 (Join cacheFolder p) d).1
        (Join cacheFolder (c.entries.getLast hne).Path)).1 := by
      rw [hA.disk_eq, touch_miss d hnot]
      unfold evictedOf
      rw [if_pos hover, hfold]
      have hl : (⟨p, d⟩ :: c.entries : List CacheFile).getLast?
          = some (c.entries.getLast hne) := by
        rw [List.getLast?_eq_getLast _ (List.cons_ne_nil _ _), List.getLast_cons hne]
      rw [hl]
      rfl
    refine ⟨c.entries.getLast hne, c.entries.dropLast, hsplit, hent, ?_, ?_, hdisk, ?_, ?_⟩
    · have := hA.inv.paths_perm
      rw [hent] at this
      exact this.symm
    · rw [hA.inv.mem_keys_iff, hent]
      simp only [List.map_cons, List.mem_cons, not_or]
      constructor
      · intro heq
        apply hnot
        rw [← heq]
        exact List.mem_map_of_mem _ (List.getLast_mem hne)
      · intro hmem
        exact hnd.2.2 hmem (by simp)
    · rw [hsplit] at hrec
      obtain ⟨t, ht⟩ := hrec.2 (c.entries.getLast hne) (by simp)
      refine ⟨t, ht, ?_⟩
      intro e he
      have hpw := hrec.1
      rw [List.pairwise_append] at hpw
      obtain ⟨i, j, h1, h2, h3⟩ := hpw.2.2 e he _ (List.mem_singleton_self _)
      rw [ht] at h2
      refine ⟨i, h1, ?_⟩
      have := Option.some.inj h2
      omega
    · intro hlaw
      rw [hfold] at hw
      have hwk := hlaw.write_ok _ _ _ _ hw
      have hother : ∀ q, q ≠ Join cacheFolder (c.entries.getLast hne).Path →
          os.ReadFile disk2 q
            = os.ReadFile (os.WriteFile disk1 (Join cacheFolder p) d).1 q := by
        intro q hq
        rw [hdisk]
        exact hlaw.remove_other _ _ q hq
      refine ⟨hother, ?_, ?_, ?_⟩
      · intro e _ h1 h2
        rw [hother _ h1]
        exact hwk.2 _ h2
      · intro h1
        rw [hother _ h1]
        exact hwk.1
      · intro hrm
        rw [hdisk]
        exact hlaw.remove_ok _ _ hrm
  · intro first rest hnd hlen hok
    have h0 := New_inv os hnew
    have hE := puts_entries os C (first :: rest) (c0, disk0) [] h0.1 h0.2.1 h0.2.2.1
      (by rw [h0.2.2.2.2]; simp) hnd (by intro q _; simp) hok
    have hreach := reach_inv os hnew ((first :: rest).map putOp)
    have hE2 : (run os (c0, disk0) ((first :: rest).map putOp)).1.entries
        = (rest.map entryOf).reverse := by
      rw [hE]
      simp only [List.map_cons, List.reverse_cons, List.append_nil]
      rw [List.take_append_of_le_length (by simp [hlen])]
      exact List.take_of_length_le (by simp [hlen])
    simp only [List.map_cons, List.nodup_cons] at hnd
    constructor
    · rw [hreach.1.mem_keys_iff, hE2]
      intro hmem
      apply hnd.1
      simp only [List.map_reverse, List.mem_reverse, List.map_map] at hmem
      exact hmem
    · intro q hq
      rw [hreach.1.mem_keys_iff, hE2]
      simp only [List.map_reverse, List.mem_reverse, List.map_map]
      exact List.mem_map.2 ⟨q, hq, rfl⟩

/-- Witness of `eviction_least_recently_used`: capacity 2 on the reference
disk; after `a`, `b` are put and `a` is read, putting `c` evicts `b`, whose file
is gone while the files of `a` and `c` hold their bytes; and three distinct puts
on the fresh cache leave the first path out. -/
theorem eviction_least_recently_used_witness :
    1 ≤ 2
    ∧ New refOS [] ((2 : Nat) : Int) "cf" = (cfDisk, .ok (freshCache 2))
    ∧ (∃ lru rest,
        (run refOS (freshCache 2, cfDisk) demoOps).1.entries = rest ++ [lru]
        ∧ (PutFile refOS (run refOS (freshCache 2, cfDisk) demoOps).1
            (run refOS (freshCache 2, cfDisk) demoOps).2 "c" [3]).1.entries
            = ⟨"c", [3]⟩ :: rest
        ∧ (PutFile refOS (run refOS (freshCache 2, cfDisk) demoOps).1
            (run refOS (freshCache 2, cfDisk) demoOps).2 "c" [3]).1.keys.Perm
            ("c" :: rest.map (fun e => e.Path))
        ∧ lru.Path ∉ (PutFile refOS (run refOS (freshCache 2, cfDisk) demoOps).1
            (run refOS (freshCache 2, cfDisk) demoOps).2 "c" [3]).1.keys
        ∧ (PutFile refOS (run refOS (freshCache 2, cfDisk) demoOps).1
            (run refOS (freshCache 2, cfDisk) demoOps).2 "c" [3]).2.1
            = (refOS.Remove (refOS.WriteFile (run refOS (freshCache 2, cfDisk) demoOps).2
                (Join "cf" "c") [3]).1 (Join "cf" lru.Path)).1
        ∧ (∃ t, lastAccess (history refOS (freshCache 2, cfDisk) demoOps) lru.Path = some t
            ∧ ∀ e ∈ rest, ∃ u,
                lastAccess (history refOS (freshCache 2, cfDisk) demoOps) e.Path = some u
                ∧ t < u)
        ∧ (Lawful refOS →
            (∀ q, q ≠ Join "cf" lru.Path →
              refOS.ReadFile (PutFile refOS (run refOS (freshCache 2, cfDisk) demoOps).1
                  (run refOS (freshCache 2, cfDisk) demoOps).2 "c" [3]).2.1 q
                = refOS.ReadFile (refOS.WriteFile (run refOS (freshCache 2, cfDisk) demoOps).2
                    (Join "cf" "c") [3]).1 q)
            ∧ (∀ e ∈ rest, Join "cf" e.Path ≠ Join "cf" lru.Path →
                Join "cf" e.Path ≠ Join "cf" "c" →
                refOS.ReadFile (PutFile refOS (run refOS (freshCache 2, cfDisk) demoOps).1
                    (run refOS (freshCache 2, cfDisk) demoOps).2 "c" [3]).2.1
                    (Join "cf" e.Path)
                  = refOS.ReadFile (run refOS (freshCache 2, cfDisk) demoOps).2
                      (Join "cf" e.Path))
            ∧ (Join "cf" "c" ≠ Join "cf" lru.Path →
                refOS.ReadFile (PutFile refOS (run refOS (freshCache 2, cfDisk) demoOps).1
                    (run refOS (freshCache 2, cfDisk) demoOps).2 "c" [3]).2.1
                    (Join "cf" "c") = .ok [3])
            ∧ ((refOS.Remove (refOS.WriteFile (run refOS (freshCache 2, cfDisk) demoOps).2
                  (Join "cf" "c") [3]).1 (Join "cf" lru.Path)).2 = none →
                ∃ err, refOS.ReadFile
                  (PutFile refOS (run refOS (freshCache 2, cfDisk) demoOps).1
                    (run refOS (freshCache 2, cfDisk) demoOps).2 "c" [3]).2.1
                  (Join "cf" lru.Path) = .error err)))
    ∧ "a" ∉ (run refOS (freshCache 2, cfDisk)
              ([("a", [1]), ("b", [2]), ("c", [3])].map putOp)).1.keys
    ∧ "b" ∈ (run refOS (freshCache 2, cfDisk)
              ([("a", [1]), ("b", [2]), ("c", [3])].map putOp)).1.keys
    ∧ (PutFile refOS (run refOS (freshCache 2, cfDisk) demoOps).1
        (run refOS (freshCache 2, cfDisk) demoOps).2 "c" [3]).1.entries
        = [⟨"c", [3]⟩, ⟨"a", [1]⟩]
    ∧ refOS.ReadFile (PutFile refOS (run refOS (freshCache 2, cfDisk) demoOps).1
        (run refOS (freshCache 2, cfDisk) demoOps).2 "c" [3]).2.1 "cf/c" = .ok [3]
    ∧ refOS.ReadFile (PutFile refOS (run refOS (freshCache 2, cfDisk) demoOps).1
        (run refOS (freshCache 2, cfDisk) demoOps).2 "c" [3]).2.1 "cf/a" = .ok [1]
    ∧ refOS.ReadFile (PutFile refOS (run refOS (freshCache 2, cfDisk) demoOps).1
        (run refOS (freshCache 2, cfDisk) demoOps).2 "c" [3]).2.1 "cf/b"
        = .error "no such file or directory" :=
  ⟨by decide, by rfl,
   (eviction_least_recently_used refOS [] cfDisk 2 "cf" (freshCache 2) (by decide) (by rfl)).1
     demoOps "c" [3] _ _ _ _ rfl (by rfl) (by decide) (by decide),
   ((eviction_least_recently_used refOS [] cfDisk 2 "cf" (freshCache 2) (by decide)
      (by rfl)).2 ("a", [1]) [("b", [2]), ("c", [3])] (by decide) (by rfl) (by decide)).1,
   ((eviction_least_recently_used refOS [] cfDisk 2 "cf" (freshCache 2) (by decide)
      (by rfl)).2 ("a", [1]) [("b", [2]), ("c", [3])] (by decide) (by rfl) (by decide)).2
     ("b", [2]) (by decide),
   by decide, by rfl, by rfl, by rfl⟩

/-- **C2, counterexample.**  Capacity 1 on the reference disk, after
`PutFile("a", [1])`: the index holds one entry and `./a` is not a key.
`PutFile("./a", [2])` returns `nil`, evicts `a` and keeps the new entry `./a`;
but `a` and `./a` join to the same file `cf/a`, so the `os.Remove` of the
evicted entry's backing file deletes the file just written for the entry that
is kept, and the backing file of `./a` cannot be read. -/
theorem eviction_deletes_alias_file :
    New refOS [] 1 "cf" = (cfDisk, .ok (freshCache 1))
    ∧ (run refOS (freshCache 1, cfDisk) [.put "a" [1]]).1.cacheList.length = 1
    ∧ "./a" ∉ (run refOS (freshCache 1, cfDisk) [.put "a" [1]]).1.keys
    ∧ (PutFile refOS (run refOS (freshCache 1, cfDisk) [.put "a" [1]]).1
        (run refOS (freshCache 1, cfDisk) [.put "a" [1]]).2 "./a" [2]).2.2 = none
    ∧ (PutFile refOS (run refOS (freshCache 1, cfDisk) [.put "a" [1]]).1
        (run refOS (freshCache 1, cfDisk) [.put "a" [1]]).2 "./a" [2]).1.entries
        = [⟨"./a", [2]⟩]
    ∧ Join "cf" "./a" = Join "cf" "a"
    ∧ refOS.ReadFile (PutFile refOS (run refOS (freshCache 1, cfDisk) [.put "a" [1]]).1
        (run refOS (freshCache 1, cfDisk) [.put "a" [1]]).2 "./a" [2]).2.1 (Join "cf" "./a")
        = .error "no such file or directory" :=
  ⟨by rfl, by decide, by decide, by decide, by decide, by decide, by rfl⟩

theorem touch_paths_nodup {l : List CacheFile} (p : String) (d : Bytes)
    (hn : (l.map (fun e => e.Path)).Nodup) : ((touch l p d).map (fun e => e.Path)).Nodup := by
  unfold touch
  simp only [List.map_cons, List.nodup_cons]
  constructor
  · intro hmem
    obtain ⟨e, he, hep⟩ := List.mem_map.1 hmem
    have := (List.mem_filter.1 he).2
    simp at this
    exact this hep
  · exact hn.sublist (List.Sublist.map _ (List.filter_sublist _))

theorem mem_touch {l : List CacheFile} {p : String} {d : Bytes} {e : CacheFile}
    (he : e ∈ touch l p d) : e = ⟨p, d⟩ ∨ (e ∈ l ∧ e.Path ≠ p) := by
  unfold touch at he
  rcases List.mem_cons.1 he with h | h
  · exact Or.inl h
  · have := List.mem_filter.1 h
    exact Or.inr ⟨this.1, by simpa using this.2⟩

theorem not_mem_touch_paths {l : List CacheFile} {p q : String} {d : Bytes}
    (hq : q ∉ (touch l p d).map (fun e => e.Path)) :
    q ≠ p ∧ q ∉ l.map (fun e => e.Path) := by
  unfold touch at hq
  simp only [List.map_cons, List.mem_cons, not_or] at hq
  refine ⟨hq.1, ?_⟩
  intro hmem
  obtain ⟨e, he, hep⟩ := List.mem_map.1 hmem
  apply hq.2
  refine List.mem_map.2 ⟨e, List.mem_filter.2 ⟨he, ?_⟩, hep⟩
  simp only [ne_eq, decide_eq_true_eq]
  rw [hep]
  exact hq.1

theorem Coherent.after_touch {σ : Type} {os : OS σ} {folder : String} {good : String → Prop}
    {val val1 : String → Option Bytes} {l : List CacheFile} {disk disk1 : σ}
    (hco : Coherent os folder good val l disk) (P : List String) (p : String) (d0 : Bytes)
    (hlP : ∀ e ∈ l, e.Path ∈ P) (hvP : ∀ q d, val1 q = some d → q ∈ P)
    (hhead : good p → os.ReadFile disk1 (Join folder p) = .ok d0)
    (hframe : ∀ q ∈ P, q ≠ p → os.ReadFile disk1 (Join folder q) = os.ReadFile disk (Join folder q))
    (hval : ∀ q, q ≠ p → val1 q = val q)
    (hvalp : good p → ∀ d, val1 p = some d → d = d0) :
    Coherent os folder good val1 (GoHLStreamer.touch l p d0) disk1 := by
  constructor
  · intro e he hg
    rcases mem_touch he with h | ⟨h1, h2⟩
    · subst h
      exact hhead hg
    · rw [hframe _ (hlP e h1) h2]
      exact hco.agree e h1 hg
  · intro e he hg d hd
    rcases mem_touch he with h | ⟨h1, h2⟩
    · subst h
      exact (hvalp hg d hd).symm
    · rw [hval _ h2] at hd
      exact hco.fresh e h1 hg d hd
  · intro q d hg hd hq
    have hq2 := not_mem_touch_paths hq
    rw [hframe q (hvP q d hd) hq2.1]
    rw [hval q hq2.1] at hd
    exact hco.stale q d hg hd hq2.2

theorem Coherent.after_evict {σ : Type} {os : OS σ} (hlaw : Lawful os) {folder : String}
    {good : String → Prop} {val : String → Option Bytes} {m : List CacheFile} {disk : σ}
    (hco : Coherent os folder good val m disk) (P : List String) (hna : NoAlias folder P)
    (hmP : ∀ e ∈ m, e.Path ∈ P) (hvP : ∀ q d, val q = some d → q ∈ P)
    (hnd : (m.map (fun e => e.Path)).Nodup) (maxFiles : Int) :
    Coherent os folder good val (evictIfOver maxFiles m)
      (rmEvicted os folder disk (evictedOf maxFiles m)) := by
  unfold evictIfOver evictedOf
  by_cases hover : ((m.length : Int) > maxFiles)
  · rw [if_pos hover, if_pos hover]
    by_cases hne : m = []
    · subst hne
      exact hco
    · have hsplit : m = m.dropLast ++ [m.getLast hne] :=
        (List.dropLast_append_getLast hne).symm
      have hlast : m.getLast? = some (m.getLast hne) := List.getLast?_eq_getLast _ hne
      rw [hlast]
      have hlm : m.getLast hne ∈ m := List.getLast_mem hne
      have hinit : ∀ e ∈ m.dropLast, e ∈ m := fun e he => List.mem_of_mem_dropLast he
      have hnd2 := hnd
      rw [hsplit, List.map_append, List.nodup_append] at hnd2
      have hdiff : ∀ e ∈ m.dropLast, e.Path ≠ (m.getLast hne).Path := by
        intro e he heq
        exact hnd2.2.2 (List.mem_map_of_mem _ he) (by simp [heq])
      have hother : ∀ q ∈ P, q ≠ (m.getLast hne).Path →
          os.ReadFile (os.Remove disk (Join folder (m.getLast hne).Path)).1 (Join folder q)
            = os.ReadFile disk (Join folder q) := by
        intro q hq hqne
        apply hlaw.remove_other
        intro hj
        exact hqne (hna q hq _ (hmP _ hlm) hj)
      show Coherent os folder good val m.dropLast
        (os.Remove disk (Join folder (m.getLast hne).Path)).1
      constructor
      · intro e he hg
        rw [hother _ (hmP e (hinit e he)) (hdiff e he)]
        exact hco.agree e (hinit e he) hg
      · intro e he hg d hd
        exact hco.fresh e (hinit e he) hg d hd
      · intro q d hg hd hq
        by_cases hql : q = (m.getLast hne).Path
        · subst hql
          rcases hlaw.remove_self disk (Join folder (m.getLast hne).Path) with h | h
          · left
            rw [h, hco.agree _ hlm hg, hco.fresh _ hlm hg d hd]
          · exact Or.inr h
        · rw [hother q (hvP q d hd) hql]
          apply hco.stale q d hg hd
          intro hmem
          rw [hsplit, List.map_append, List.mem_append] at hmem
          rcases hmem with h | h
          · exact hq h
          · simp at h
            exact hql h
  · rw [if_neg hover, if_neg hover]
    exact hco

theorem lastPut_snoc_put (h : List (Op × Result)) (q : String) (d : Bytes) (r : Result)
    (p : String) :
    lastPut (h ++ [(Op.put q d, r)]) p =
      if r.ok = true ∧ q = p then some d else lastPut h p := by
  unfold lastPut
  rw [List.reverse_append]
  simp [lastPutRev]

theorem lastPut_snoc_get (h : List (Op × Result)) (q : String) (r : Result) (p : String) :
    lastPut (h ++ [(Op.get q, r)]) p = lastPut h p := by
  unfold lastPut
  rw [List.reverse_append]
  simp [lastPutRev]

theorem lastPut_snoc_clear (h : List (Op × Result)) (r : Result) (p : String) :
    lastPut (h ++ [(Op.clear, r)]) p = lastPut h p := by
  unfold lastPut
  rw [List.reverse_append]
  simp [lastPutRev]

theorem lastPut_snoc_failed (h : List (Op × Result)) (op : Op) (r : Result) (p : String)
    (hr : r.ok = false) : lastPut (h ++ [(op, r)]) p = lastPut h p := by
  cases op with
  | get q => exact lastPut_snoc_get h q r p
  | put q d =>
    rw [lastPut_snoc_put, if_neg]
    rintro ⟨h1, _⟩
    rw [hr] at h1
    cases h1
  | clear => exact lastPut_snoc_clear h r p

theorem lastPutRev_mem {h : List (Op × Result)} {p : String} {d : Bytes}
    (hp : lastPutRev h p = some d) : p ∈ (h.map Prod.fst).filterMap accessOf := by
  induction h with
  | nil => simp [lastPutRev] at hp
  | cons x xs ih =>
    obtain ⟨op, r⟩ := x
    cases op with
    | get q =>
      simp only [lastPutRev] at hp
      simp only [List.map_cons, List.filterMap_cons, accessOf, List.mem_cons]
      exact Or.inr (ih hp)
    | put q d1 =>
      simp only [lastPutRev] at hp
      simp only [List.map_cons, List.filterMap_cons, accessOf, List.mem_cons]
      split at hp
      · rename_i hc
        exact Or.inl hc.2.symm
      · exact Or.inr (ih hp)
    | clear =>
      simp only [lastPutRev] at hp
      simp only [List.map_cons, List.filterMap_cons, accessOf]
      exact ih hp

theorem history_map_fst {σ : Type} (os : OS σ) (ops : List Op) (s : LRUCache × σ) :
    (history os s ops).map Prod.fst = ops := by
  induction ops generalizing s with
  | nil => rfl
  | cons op ops ih => simp [history, ih]

theorem lastPut_mem_pathsOf {σ : Type} (os : OS σ) (ops : List Op) (s : LRUCache × σ)
    {p : String} {d : Bytes} (hp : lastPut (history os s ops) p = some d) :
    p ∈ pathsOf ops := by
  have := lastPutRev_mem hp
  rw [List.mem_filterMap] at this
  obtain ⟨op, hop, hacc⟩ := this
  rw [List.map_reverse, List.mem_reverse, history_map_fst] at hop
  exact List.mem_filterMap.2 ⟨op, hop, hacc⟩

theorem Coherent.congr {σ : Type} {os : OS σ} {folder : String} {good good1 : String → Prop}
    {val val1 : String → Option Bytes} {l : List CacheFile} {disk disk1 : σ}
    (hco : Coherent os folder good val l disk) (P : List String)
    (hlP : ∀ e ∈ l, e.Path ∈ P) (hvP : ∀ q d, val1 q = some d → q ∈ P)
    (hg : ∀ q, good1 q → good q)
    (hd : ∀ q ∈ P, good1 q → os.ReadFile disk1 (Join folder q) = os.ReadFile disk (Join folder q))
    (hv : ∀ q, val1 q = val q) :
    Coherent os folder good1 val1 l disk1 := by
  constructor
  · intro e he hg1
    rw [hd _ (hlP e he) hg1]
    exact hco.agree e he (hg _ hg1)
  · intro e he hg1 d hd1
    rw [hv] at hd1
    exact hco.fresh e he (hg _ hg1) d hd1
  · intro q d hg1 hd1 hq
    rw [hd q (hvP q d hd1) hg1]
    rw [hv] at hd1
    exact hco.stale q d (hg _ hg1) hd1 hq

theorem Coherent.clear {σ : Type} {os : OS σ} (hlaw : Lawful os) {folder : String}
    {good : String → Prop} {val : String → Option Bytes} {l : List CacheFile} {disk : σ}
    (hco : Coherent os folder good val l disk) (target : String) :
    Coherent os folder good val [] (os.RemoveAll disk target).1 := by
  constructor
  · intro e he
    cases he
  · intro e he
    cases he
  · intro q d hg hd _
    have hbefore : os.ReadFile disk (Join folder q) = .ok d
        ∨ ∃ err, os.ReadFile disk (Join folder q) = .error err := by
      by_cases hq : q ∈ l.map (fun e => e.Path)
      · obtain ⟨e, he, hep⟩ := List.mem_map.1 hq
        left
        have h1 := hco.agree e he (by rw [hep]; exact hg)
        have h2 := hco.fresh e he (by rw [hep]; exact hg) d (by rw [hep]; exact hd)
        rw [← hep, h1, h2]
      · exact hco.stale q d hg hd hq
    rcases hlaw.removeAll disk target (Join folder q) with h | h
    · rw [h]
      exact hbefore
    · exact Or.inr h

theorem evictIfOver_subset (maxFiles : Int) (l : List CacheFile) :
    ∀ e ∈ evictIfOver maxFiles l, e ∈ l := by
  intro e he
  unfold evictIfOver at he
  split at he
  · exact List.mem_of_mem_dropLast he
  · exact he

theorem NoFailedPut.of_snoc {h : List (Op × Result)} {x : Op × Result} {q : String}
    (hg : NoFailedPut (h ++ [x]) q) : NoFailedPut h q := by
  unfold NoFailedPut at hg ⊢
  rw [List.filterMap_append] at hg
  exact fun hmem => hg (List.mem_append_left _ hmem)

theorem NoFailedPut.snoc_ne {h : List (Op × Result)} {p q : String} {d : Bytes} {r : Result}
    (hr : r.ok = false) (hg : NoFailedPut (h ++ [(Op.put p d, r)]) q) : q ≠ p := by
  intro hqp
  subst hqp
  unfold NoFailedPut at hg
  apply hg
  rw [List.filterMap_append]
  apply List.mem_append_right
  cases r with
  | fail e => simp [failedPutOf]
  | bytes b => simp [Result.ok] at hr
  | done => simp [Result.ok] at hr

theorem coherent_step {σ : Type} (os : OS σ) (hlaw : Lawful os) (s : LRUCache × σ)
    (op : Op) (h : List (Op × Result)) (P : List String)
    (hi : Inv s.1) (hc : Cap s.1) (hna : NoAlias s.1.cacheFolder P)
    (hlP : ∀ e ∈ s.1.entries, e.Path ∈ P)
    (hvP : ∀ q d, lastPut (h ++ [(op, (step os s op).2)]) q = some d → q ∈ P)
    (hop : ∀ p, accessOf op = some p → p ∈ P)
    (hco : Coherent os s.1.cacheFolder (NoFailedPut h) (lastPut h) s.1.entries s.2) :
    Coherent os s.1.cacheFolder (NoFailedPut (h ++ [(op, (step os s op).2)]))
      (lastPut (h ++ [(op, (step os s op).2)]))
      (step os s op).1.1.entries (step os s op).1.2
    ∧ ∀ e ∈ (step os s op).1.1.entries, e.Path ∈ P := by
  cases hacc : accessOf op with
  | none =>
    cases op with
    | get q => simp [accessOf] at hacc
    | put q d => simp [accessOf] at hacc
    | clear =>
      have hsp := ClearCache_spec os s.1 s.2
      have he : (step os s .clear).1.1.entries = [] := hsp.2.2.2.2.1
      have hd : (step os s .clear).1.2 = (os.RemoveAll s.2 s.1.cacheFolder).1 := hsp.2.2.2.2.2.2.1
      rw [he, hd]
      refine ⟨?_, fun e he => absurd he (List.not_mem_nil e)⟩
      have := hco.clear hlaw s.1.cacheFolder
      exact this.congr P (fun e he => absurd he (List.not_mem_nil e)) hvP
        (fun q hq => hq.of_snoc) (fun _ _ _ => rfl) (fun q => lastPut_snoc_clear h _ q)
  | some p =>
    have hpP := hop p hacc
    cases hok : (step os s op).2.ok with
    | false =>
      have hf := step_failed os s op p hacc hok
      rw [hf.1]
      refine ⟨?_, hlP⟩
      apply hco.congr P hlP hvP (fun q hq => hq.of_snoc)
      · rcases hf.2 with ⟨err, _, hd, _⟩ | ⟨d, err, hopeq, hw⟩
        · intro q _ _
          rw [hd]
        · intro q hqP hg
          have hqp : q ≠ p := by
            have hg2 := hg
            rw [hopeq] at hg2
            exact NoFailedPut.snoc_ne (by rw [← hopeq]; exact hok) hg2
          apply hlaw.write_fail _ _ _ _ _ hw
          intro hj
          exact hqp (hna q hqP p hpP hj)
      · intro q
        exact lastPut_snoc_failed h op _ q hok
    | true =>
      obtain ⟨d, disk1, hA, hB⟩ := step_access os s op p hi hc hacc hok
      have hmid : Coherent os s.1.cacheFolder (NoFailedPut h)
          (lastPut (h ++ [(op, (step os s op).2)])) (touch s.1.entries p d) disk1 := by
        rcases hB with ⟨d0, hopeq, hd, hw⟩ | ⟨hopeq, hd, _, hres⟩
        · subst hd
          have hwk := hlaw.write_ok _ _ _ _ hw
          apply hco.after_touch P p d hlP hvP (fun _ => hwk.1)
          · intro q hq hqp
            apply hwk.2
            intro hj
            exact hqp (hna q hq p hpP hj)
          · intro q hqp
            rw [hopeq, lastPut_snoc_put, if_neg]
            rintro ⟨_, h2⟩
            exact hqp h2.symm
          · intro _ d1 hd1
            rw [hopeq, lastPut_snoc_put, if_pos ⟨by rw [← hopeq]; exact hok, rfl⟩] at hd1
            exact (Option.some.inj hd1).symm
        · subst hd
          have hvs : ∀ q, lastPut (h ++ [(op, (step os s op).2)]) q = lastPut h q := by
            intro q
            rw [hopeq]
            exact lastPut_snoc_get h p _ q
          apply hco.after_touch P p d hlP hvP
          · intro hg
            rcases hres with ⟨_, hmem⟩ | ⟨_, hr⟩
            · exact hco.agree _ hmem hg
            · exact hr
          · intro q _ _
            rfl
          · intro q _
            exact hvs q
          · intro hg d1 hd1
            rw [hvs] at hd1
            rcases hres with ⟨_, hmem⟩ | ⟨hnk, hr⟩
            · exact (hco.fresh _ hmem hg d1 hd1).symm
            · have hnp : p ∉ s.1.entries.map (fun e => e.Path) := by
                rw [← hi.mem_keys_iff]
                exact hnk
              rcases hco.stale p d1 hg hd1 hnp with h1 | ⟨err, h1⟩
              · rw [hr] at h1
                exact (Except.ok.inj h1).symm
              · rw [hr] at h1
                cases h1
      have hmP : ∀ e ∈ touch s.1.entries p d, e.Path ∈ P := by
        intro e he
        rcases mem_touch he with h1 | ⟨h1, _⟩
        · rw [h1]
          exact hpP
        · exact hlP e h1
      have hev := hmid.after_evict hlaw P hna hmP hvP (touch_paths_nodup p d hi.paths_nodup)
        s.1.maxFiles
      rw [hA.entries_eq, hA.disk_eq]
      refine ⟨?_, fun e he => hmP e (evictIfOver_subset _ _ e he)⟩
      exact hev.congr P (fun e he => hmP e (evictIfOver_subset _ _ e he)) hvP
        (fun q hq => hq.of_snoc) (fun _ _ _ => rfl) (fun _ => rfl)

theorem mem_pathsOf_append_left {ops1 ops2 : List Op} {q : String} (h : q ∈ pathsOf ops1) :
    q ∈ pathsOf (ops1 ++ ops2) := by
  unfold pathsOf at h ⊢
  rw [List.filterMap_append]
  exact List.mem_append_left _ h

theorem coherent_run {σ : Type} (os : OS σ) (hlaw : Lawful os) (s : LRUCache × σ)
    (ops : List Op) (P : List String) (hi : Inv s.1) (hc : Cap s.1)
    (he : s.1.entries = []) (hna : NoAlias s.1.cacheFolder P)
    (hP : ∀ q ∈ pathsOf ops, q ∈ P) :
    Coherent os s.1.cacheFolder (NoFailedPut (history os s ops)) (lastPut (history os s ops))
      (run os s ops).1.entries (run os s ops).2
    ∧ ∀ e ∈ (run os s ops).1.entries, e.Path ∈ P := by
  induction ops using List.reverseRecOn with
  | nil =>
    show Coherent os s.1.cacheFolder (NoFailedPut []) (lastPut []) s.1.entries s.2
      ∧ ∀ e ∈ s.1.entries, e.Path ∈ P
    rw [he]
    refine ⟨⟨?_, ?_, ?_⟩, ?_⟩
    · intro e h1
      cases h1
    · intro e h1
      cases h1
    · intro q d _ hd
      simp [lastPut, lastPutRev] at hd
    · intro e h1
      cases h1
  | append_singleton ops op ih =>
    have ih1 := ih (fun q hq => hP q (mem_pathsOf_append_left hq))
    have hr := run_inv os ops s hi hc
    rw [run_snoc, history_snoc]
    have hfold := hr.2.2.2
    have := coherent_step os hlaw (run os s ops) op (history os s ops) P hr.1 hr.2.1
      (by rw [hfold]; exact hna) ih1.2
      (by
        intro q d hd
        rw [← history_snoc] at hd
        exact hP q (lastPut_mem_pathsOf os _ s hd))
      (by
        intro p hp
        apply hP
        unfold pathsOf
        rw [List.filterMap_append]
        apply List.mem_append_right
        simp [hp])
      (by rw [hfold]; exact ih1.1)
    rw [hfold] at this
    exact this

theorem Disk.lookup_filter (f : String → Bool) (d : Disk) (q : String) :
    Disk.lookup (d.filter (fun e => f e.1)) q = if f q = true then Disk.lookup d q else none := by
  induction d with
  | nil => simp [Disk.lookup]
  | cons x xs ih =>
    obtain ⟨k, v⟩ := x
    by_cases hk : f k = true
    · rw [List.filter_cons_of_pos (by simpa using hk)]
      by_cases hkq : k = q
      · subst hkq
        simp [Disk.lookup, hk]
      · simp only [Disk.lookup, hkq, if_false]
        exact ih
    · rw [List.filter_cons_of_neg (by simpa using hk)]
      by_cases hkq : k = q
      · subst hkq
        rw [ih]
        simp [hk]
      · simp only [Disk.lookup, hkq, if_false]
        exact ih

theorem Disk.lookup_erase (d : Disk) (p q : String) :
    Disk.lookup (d.erase p) q = if q = p then none else Disk.lookup d q := by
  unfold Disk.erase
  have := Disk.lookup_filter (fun k => decide (k ≠ p)) d q
  rw [this]
  by_cases hq : q = p <;> simp [hq]

theorem Disk.lookup_set (d : Disk) (p : String) (n : Node) (q : String) :
    Disk.lookup (d.set p n) q = if q = p then some n else Disk.lookup d q := by
  unfold Disk.set
  by_cases hq : q = p
  · subst hq
    simp [Disk.lookup]
  · have hpq : ¬ p = q := fun h => hq h.symm
    simp only [Disk.lookup, hpq, if_false, hq]
    rw [Disk.lookup_erase, if_neg hq]

theorem Disk.readFile_congr {d d1 : Disk} {q : String}
    (h : Disk.lookup d1 q = Disk.lookup d q) : Disk.readFile d1 q = Disk.readFile d q := by
  unfold Disk.readFile
  rw [h]

theorem Disk.readFile_none {d : Disk} {q : String} (h : Disk.lookup d q = none) :
    ∃ e, Disk.readFile d q = .error e := by
  unfold Disk.readFile
  rw [h]
  simp only
  split
  · exact ⟨_, rfl⟩
  · exact ⟨_, rfl⟩

theorem refOS_lawful : Lawful refOS := by
  constructor
  · intro d fp b d1 hw
    change Disk.writeFile d fp b = (d1, none) at hw
    unfold Disk.writeFile at hw
    split at hw
    · simp at hw
    · split at hw
      · simp only [Prod.mk.injEq, and_true] at hw
        subst hw
        constructor
        · show Disk.readFile _ fp = _
          unfold Disk.readFile
          rw [Disk.lookup_set, if_pos rfl]
        · intro q hq
          show Disk.readFile _ q = Disk.readFile d q
          apply Disk.readFile_congr
          rw [Disk.lookup_set, if_neg hq]
      · simp at hw
  · intro d fp b d1 e hw
    change Disk.writeFile d fp b = (d1, some e) at hw
    unfold Disk.writeFile at hw
    split at hw
    · simp only [Prod.mk.injEq] at hw
      intro q _
      rw [← hw.1]
    · split at hw
      · simp at hw
      · simp only [Prod.mk.injEq] at hw
        intro q _
        rw [← hw.1]
  · intro d fp q hq
    show Disk.readFile (Disk.remove d fp).1 q = Disk.readFile d q
    apply Disk.readFile_congr
    unfold Disk.remove
    split
    · rfl
    · simp only
      rw [Disk.lookup_erase, if_neg hq]
    · split
      · rfl
      · simp only
        rw [Disk.lookup_erase, if_neg hq]
  · intro d fp
    show Disk.readFile (Disk.remove d fp).1 fp = Disk.readFile d fp
      ∨ ∃ e, Disk.readFile (Disk.remove d fp).1 fp = .error e
    unfold Disk.remove
    split
    · exact Or.inl rfl
    · right
      apply Disk.readFile_none
      simp only
      rw [Disk.lookup_erase, if_pos rfl]
    · split
      · exact Or.inl rfl
      · right
        apply Disk.readFile_none
        simp only
        rw [Disk.lookup_erase, if_pos rfl]
  · intro d fp hok
    change (Disk.remove d fp).2 = none at hok
    show ∃ e, Disk.readFile (Disk.remove d fp).1 fp = .error e
    unfold Disk.remove at hok ⊢
    split
    · rename_i hl
      rw [hl] at hok
      simp at hok
    · apply Disk.readFile_none
      simp only
      rw [Disk.lookup_erase, if_pos rfl]
    · rename_i hl
      rw [hl] at hok
      simp only at hok
      split
      · rename_i hany
        rw [if_pos hany] at hok
        simp at hok
      · apply Disk.readFile_none
        simp only
        rw [Disk.lookup_erase, if_pos rfl]
  · intro d fp q
    show Disk.readFile (Disk.removeAll d fp).1 q = Disk.readFile d q
      ∨ ∃ e, Disk.readFile (Disk.removeAll d fp).1 q = .error e
    unfold Disk.removeAll
    simp only
    have := Disk.lookup_filter (fun k => k ≠ fp && !below fp k) d q
    by_cases hf : (decide (q ≠ fp) && !below fp q) = true
    · left
      apply Disk.readFile_congr
      rw [this, if_pos hf]
    · right
      apply Disk.readFile_none
      rw [this, if_neg hf]

theorem entry_unique {l : List CacheFile} (hn : (l.map (fun e => e.Path)).Nodup)
    {e1 e2 : CacheFile} (h1 : e1 ∈ l) (h2 : e2 ∈ l) (hp : e1.Path = e2.Path) : e1 = e2 := by
  induction l with
  | nil => cases h1
  | cons x xs ih =>
    simp only [List.map_cons, List.nodup_cons] at hn
    rcases List.mem_cons.1 h1 with a1 | a1 <;> rcases List.mem_cons.1 h2 with a2 | a2
    · rw [a1, a2]
    · exfalso
      apply hn.1
      rw [← a1, hp]
      exact List.mem_map_of_mem _ a2
    · exfalso
      apply hn.1
      rw [← a2, ← hp]
      exact List.mem_map_of_mem _ a1
    · exact ih hn.2 a1 a2

theorem GetFile_resident {σ : Type} (os : OS σ) {c : LRUCache} (h : Inv c) (hc : Cap c)
    (disk : σ) {e : CacheFile} (he : e ∈ c.entries) :
    (GetFile os c disk e.Path).2.2 = .ok e.Data := by
  have hk : e.Path ∈ c.keys := (h.mem_keys_iff _).2 (List.mem_map_of_mem _ he)
  rcases hg : GetFile os c disk e.Path with ⟨c1, disk1, r⟩
  cases r with
  | error err => exact absurd hk (GetFile_error os c disk e.Path hg).2.2.1
  | ok d =>
    rcases (GetFile_ok os h hc disk e.Path hg).2 with ⟨_, hmem⟩ | ⟨hnk, _⟩
    · have := entry_unique h.paths_nodup hmem he rfl
      rw [← this]
    · exact absurd hk hnk

/-- **C4, amended** (index/disk agreement).  On a file system that changes a
file only through calls on that file's path (a failed write may leave its own
target damaged but touches no other file), for a cache made by `New` and every
sequence of calls in which no two distinct keys join to the same disk file:
every index entry for whose key no `PutFile` has returned an error has a
backing file that can be read and holds exactly the entry's `Data`; the same
holds read through the map.  Byte slices are values: no caller writes to a
slice it has passed to the cache or received from it. -/
theorem index_disk_agreement {σ : Type} (os : OS σ) (hlaw : Lawful os) (disk disk0 : σ)
    (maxFiles : Int) (cacheFolder : String) (c0 : LRUCache)
    (hnew : New os disk maxFiles cacheFolder = (disk0, .ok c0)) (ops : List Op)
    (hna : NoAlias cacheFolder (pathsOf ops)) :
    (∀ e ∈ (run os (c0, disk0) ops).1.entries,
        NoFailedPut (history os (c0, disk0) ops) e.Path →
        os.ReadFile (run os (c0, disk0) ops).2 (Join cacheFolder e.Path) = .ok e.Data)
    ∧ (∀ k a, (k, a) ∈ (run os (c0, disk0) ops).1.cacheMap →
        NoFailedPut (history os (c0, disk0) ops) k →
        os.ReadFile (run os (c0, disk0) ops).2 (Join cacheFolder k)
          = .ok ((run os (c0, disk0) ops).1.deref a).Data) := by
  have h0 := New_inv os hnew
  have hco := (coherent_run os hlaw (c0, disk0) ops (pathsOf ops) h0.1 h0.2.1 h0.2.2.2.2
    (by rw [h0.2.2.2.1]; exact hna) (fun _ hq => hq)).1
  rw [h0.2.2.2.1] at hco
  refine ⟨hco.agree, ?_⟩
  intro k a hka hg
  have hm := (reach_inv os hnew ops).1.mem_map hka
  have := hco.agree _ (List.mem_map_of_mem (run os (c0, disk0) ops).1.deref hm.1)
  rw [hm.2.1] at this
  exact this hg

/-- Witness of `index_disk_agreement` on the reference disk, for a sequence of
calls in which a `PutFile` of another key fails. -/
theorem index_disk_agreement_witness :
    Lawful refOS
    ∧ New refOS [] 2 "cf" = (cfDisk, .ok (freshCache 2))
    ∧ NoAlias "cf" (pathsOf failedPutOps)
    ∧ (history refOS (freshCache 2, cfDisk) failedPutOps).map Prod.snd
        = [.done, .fail "no such file or directory", .done, .bytes [1]]
    ∧ (∀ e ∈ (run refOS (freshCache 2, cfDisk) failedPutOps).1.entries,
        NoFailedPut (history refOS (freshCache 2, cfDisk) failedPutOps) e.Path →
        refOS.ReadFile (run refOS (freshCache 2, cfDisk) failedPutOps).2 (Join "cf" e.Path)
          = .ok e.Data)
    ∧ NoFailedPut (history refOS (freshCache 2, cfDisk) failedPutOps) "a"
    ∧ (⟨"a", [1]⟩ : CacheFile) ∈ (run refOS (freshCache 2, cfDisk) failedPutOps).1.entries :=
  ⟨refOS_lawful, by rfl, by decide, by decide,
   (index_disk_agreement refOS refOS_lawful [] cfDisk 2 "cf" (freshCache 2) (by rfl)
      failedPutOps (by decide)).1,
   by decide, by decide⟩

/-- **C4, counterexample.**  Capacity 2 on the reference disk: after
`PutFile("a", [1])` and `PutFile("./a", [2])` the index still holds the entry
`a` with data `[1]`, while its backing file `cf/a` holds `[2]`. -/
theorem index_disk_disagree_on_alias :
    New refOS [] 2 "cf" = (cfDisk, .ok (freshCache 2))
    ∧ (⟨"a", [1]⟩ : CacheFile) ∈ (run refOS (freshCache 2, cfDisk) aliasOps).1.entries
    ∧ "a" ∈ (run refOS (freshCache 2, cfDisk) aliasOps).1.keys
    ∧ refOS.ReadFile (run refOS (freshCache 2, cfDisk) aliasOps).2 (Join "cf" "a") = .ok [2] :=
  ⟨by rfl, by decide, by decide, by rfl⟩

/-- **C3, amended** (put/get round trip).  For a cache of capacity at least 1
made by `New`, in every reachable state: if `PutFile(p, d)` returns `nil`, then
`p` is an index entry afterwards and the next `GetFile(p)` returns `d` with no
error.  Moreover, on a file system that changes a file only through calls on
that file's path (a failed write may leave its own target damaged but touches
no other file) and for a sequence of calls in which no two distinct keys join
to the same disk file and no `PutFile` of `p` has returned an error,
`GetFile(p)` on a resident path returns the bytes of the most recent successful
`PutFile(p, _)`.  Byte slices are values: no caller writes to a slice it has
passed to the cache or received from it. -/
theorem put_get_round_trip {σ : Type} (os : OS σ) (disk disk0 : σ) (maxFiles : Int)
    (cacheFolder : String) (c0 : LRUCache) (hcap : 1 ≤ maxFiles)
    (hnew : New os disk maxFiles cacheFolder = (disk0, .ok c0)) :
    (∀ (ops : List Op) (p : String) (d : Bytes) (c c1 : LRUCache) (disk1 disk2 : σ),
        run os (c0, disk0) ops = (c, disk1) →
        PutFile os c disk1 p d = (c1, disk2, none) →
        p ∈ c1.keys ∧ (GetFile os c1 disk2 p).2.2 = .ok d)
    ∧ (Lawful os → ∀ (ops : List Op) (p : String) (d : Bytes),
        NoAlias cacheFolder (pathsOf ops) →
        NoFailedPut (history os (c0, disk0) ops) p →
        p ∈ (run os (c0, disk0) ops).1.keys →
        lastPut (history os (c0, disk0) ops) p = some d →
        (GetFile os (run os (c0, disk0) ops).1 (run os (c0, disk0) ops).2 p).2.2 = .ok d) := by
  constructor
  · intro ops p d c c1 disk1 disk2 hrun hput
    have hreach := reach_inv os hnew ops
    rw [hrun] at hreach
    obtain ⟨hi, hc, hmax, _⟩ := hreach
    simp only at hi hc hmax
    have hwe : (os.WriteFile disk1 (Join c.cacheFolder p) d).2 = none := by
      rw [← PutFile_err, hput]
    have hw : os.WriteFile disk1 (Join c.cacheFolder p) d
        = ((os.WriteFile disk1 (Join c.cacheFolder p) d).1, none) := by
      rw [← hwe]
    have hA := (PutFile_ok os hi hc disk1 p d hw).2
    rw [hput] at hA
    simp only at hA
    have hmem : (⟨p, d⟩ : CacheFile) ∈ c1.entries := by
      rw [hA.entries_eq]
      unfold evictIfOver touch
      split
      · rename_i hover
        have hne : c.entries.filter (fun e => e.Path ≠ p) ≠ [] := by
          intro h0
          rw [h0, hmax] at hover
          simp at hover
          omega
        rw [List.dropLast_cons_of_ne_nil hne]
        exact List.mem_cons_self _ _
      · exact List.mem_cons_self _ _
    refine ⟨(hA.inv.mem_keys_iff p).2 (List.mem_map_of_mem (fun e => e.Path) hmem), ?_⟩
    exact GetFile_resident os hA.inv hA.cap disk2 hmem
  · intro hlaw ops p d hna hgood hp hlast
    have h0 := New_inv os hnew
    have hreach := reach_inv os hnew ops
    have hco := (coherent_run os hlaw (c0, disk0) ops (pathsOf ops) h0.1 h0.2.1 h0.2.2.2.2
      (by rw [h0.2.2.2.1]; exact hna) (fun _ hq => hq)).1
    obtain ⟨e, he, hep⟩ := List.mem_map.1 ((hreach.1.mem_keys_iff p).1 hp)
    have hd := hco.fresh e he (by rw [hep]; exact hgood) d (by rw [hep]; exact hlast)
    have := GetFile_resident os hreach.1 hreach.2.1 (run os (c0, disk0) ops).2 he
    rw [hep, hd] at this
    exact this

/-- Witness of `put_get_round_trip`: a full cache of capacity exactly 1, and the
general part on a sequence of calls without aliasing keys. -/
theorem put_get_round_trip_witness :
    (1 : Int) ≤ 1
    ∧ New refOS [] 1 "cf" = (cfDisk, .ok (freshCache 1))
    ∧ ("b" ∈ (PutFile refOS (run refOS (freshCache 1, cfDisk) [.put "a" [1]]).1
              (run refOS (freshCache 1, cfDisk) [.put "a" [1]]).2 "b" [2]).1.keys
       ∧ (GetFile refOS
            (PutFile refOS (run refOS (freshCache 1, cfDisk) [.put "a" [1]]).1
              (run refOS (freshCache 1, cfDisk) [.put "a" [1]]).2 "b" [2]).1
            (PutFile refOS (run refOS (freshCache 1, cfDisk) [.put "a" [1]]).1
              (run refOS (freshCache 1, cfDisk) [.put "a" [1]]).2 "b" [2]).2.1 "b").2.2
          = .ok [2])
    ∧ Lawful refOS
    ∧ "a" ∈ (run refOS (freshCache 1, cfDisk) [.put "a" [1], .put "b" [2], .put "c" [3],
              .put "a" [4], .get "a"]).1.keys
    ∧ NoAlias "cf" (pathsOf [.put "a" [1], .put "b" [2], .put "c" [3], .put "a" [4], .get "a"])
    ∧ NoFailedPut (history refOS (freshCache 1, cfDisk) [.put "a" [1], .put "b" [2],
              .put "c" [3], .put "a" [4], .get "a"]) "a"
    ∧ lastPut (history refOS (freshCache 1, cfDisk) [.put "a" [1], .put "b" [2], .put "c" [3],
              .put "a" [4], .get "a"]) "a" = some [4]
    ∧ (GetFile refOS
        (run refOS (freshCache 1, cfDisk) [.put "a" [1], .put "b" [2], .put "c" [3],
              .put "a" [4], .get "a"]).1
        (run refOS (freshCache 1, cfDisk) [.put "a" [1], .put "b" [2], .put "c" [3],
              .put "a" [4], .get "a"]).2 "a").2.2 = .ok [4] :=
  ⟨by decide, by rfl,
   (put_get_round_trip refOS [] cfDisk 1 "cf" (freshCache 1) (by decide) (by rfl)).1
     [.put "a" [1]] "b" [2] _ _ _ _ rfl (by rfl),
   refOS_lawful, by decide, by decide, by decide, by decide,
   (put_get_round_trip refOS [] cfDisk 1 "cf" (freshCache 1) (by decide) (by rfl)).2
     refOS_lawful [.put "a" [1], .put "b" [2], .put "c" [3], .put "a" [4], .get "a"] "a" [4]
     (by decide) (by decide) (by decide) (by decide)⟩

/-- **C3, counterexample.**  Capacity 1 on the reference disk: `a` is put with
`[1]` and evicted by `b`; `PutFile("./a", [3])` rewrites the same disk file
`cf/a`; `GetFile("a")` then loads `[3]` from disk.  Now `a` is resident and
`GetFile("a")` returns `[3]`, while the most recent successful
`PutFile("a", _)` stored `[1]`. -/
theorem get_returns_alias_bytes :
    New refOS [] 1 "cf" = (cfDisk, .ok (freshCache 1))
    ∧ "a" ∈ (run refOS (freshCache 1, cfDisk) aliasReloadOps).1.keys
    ∧ lastPut (history refOS (freshCache 1, cfDisk) aliasReloadOps) "a" = some [1]
    ∧ (GetFile refOS (run refOS (freshCache 1, cfDisk) aliasReloadOps).1
        (run refOS (freshCache 1, cfDisk) aliasReloadOps).2 "a").2.2 = .ok [3] :=
  ⟨by rfl, by decide, by decide, by rfl⟩

/-- **C8, amended** (cache I/O failures).  `PutFile` returns exactly the error
of the disk write: when the write of `p` fails, `PutFile` returns that non-nil
error and leaves the index as it was; when the write succeeds, `PutFile`
returns `nil`, whatever `os.Remove` returned for an evicted entry's backing
file, whose error `removeLRUFile` discards. -/
theorem putfile_reports_write_error {σ : Type} (os : OS σ) (c : LRUCache) (disk : σ)
    (p : String) (d : Bytes) :
    (PutFile os c disk p d).2.2 = (os.WriteFile disk (Join c.cacheFolder p) d).2
    ∧ (∀ err, (os.WriteFile disk (Join c.cacheFolder p) d).2 = some err →
        (PutFile os c disk p d).2.2 = some err ∧ (PutFile os c disk p d).1 = c)
    ∧ ((os.WriteFile disk (Join c.cacheFolder p) d).2 = none →
        (PutFile os c disk p d).2.2 = none) := by
  refine ⟨PutFile_err os c disk p d, ?_, ?_⟩
  · intro err he
    have hw : os.WriteFile disk (Join c.cacheFolder p) d
        = ((os.WriteFile disk (Join c.cacheFolder p) d).1, some err) := by
      rw [← he]
    rw [PutFile_fail os c disk p d hw]
    exact ⟨rfl, rfl⟩
  · intro hn
    rw [PutFile_err, hn]

/-- Witness of `putfile_reports_write_error`: a write that fails because the
cache folder does not exist, and a write that succeeds. -/
theorem putfile_reports_write_error_witness :
    (refOS.WriteFile [] (Join "cf" "a") [1]).2 = some "no such file or directory"
    ∧ (PutFile refOS (freshCache 1) [] "a" [1]).2.2 = some "no such file or directory"
    ∧ (PutFile refOS (freshCache 1) [] "a" [1]).1 = freshCache 1
    ∧ (refOS.WriteFile cfDisk (Join "cf" "a") [1]).2 = none
    ∧ (PutFile refOS (freshCache 1) cfDisk "a" [1]).2.2 = none :=
  ⟨by decide,
   ((putfile_reports_write_error refOS (freshCache 1) [] "a" [1]).2.1
      "no such file or directory" (by decide)).1,
   ((putfile_reports_write_error refOS (freshCache 1) [] "a" [1]).2.1
      "no such file or directory" (by decide)).2,
   by decide,
   (putfile_reports_write_error refOS (freshCache 1) cfDisk "a" [1]).2.2 (by decide)⟩

/-- **C8, counterexample.**  Capacity 1 on the reference disk, after
`PutFile("a", [1])` and `PutFile("./a", [2])` (the second evicts `a` and
removes the shared file `cf/a`): `PutFile("b", [3])` evicts the entry `./a`,
the `os.Remove` of its backing file fails, and `PutFile` returns `nil`. -/
theorem putfile_hides_remove_error :
    New refOS [] 1 "cf" = (cfDisk, .ok (freshCache 1))
    ∧ (run refOS (freshCache 1, cfDisk) aliasOps).1.entries = [⟨"./a", [2]⟩]
    ∧ (PutFile refOS (run refOS (freshCache 1, cfDisk) aliasOps).1
        (run refOS (freshCache 1, cfDisk) aliasOps).2 "b" [3]).1.entries = [⟨"b", [3]⟩]
    ∧ (refOS.Remove
        (refOS.WriteFile (run refOS (freshCache 1, cfDisk) aliasOps).2 (Join "cf" "b") [3]).1
        (Join "cf" "./a")).2 = some "no such file or directory"
    ∧ (PutFile refOS (run refOS (freshCache 1, cfDisk) aliasOps).1
        (run refOS (freshCache 1, cfDisk) aliasOps).2 "b" [3]).2.2 = none :=
  ⟨by rfl, by decide, by decide, by decide, by decide⟩

theorem splitFirst_none {l : List Char} : splitFirst l = none ↔ '/' ∉ l := by
  induction l with
  | nil => simp [splitFirst]
  | cons c cs ih =>
    unfold splitFirst
    by_cases hc : c = '/'
    · simp [hc]
    · rw [if_neg hc]
      cases h : splitFirst cs with
      | none =>
        have := ih.1 h
        simp only [List.mem_cons, not_or, true_iff]
        exact ⟨fun e => hc e.symm, this⟩
      | some ab =>
        obtain ⟨a, b⟩ := ab
        constructor
        · intro h1
          cases h1
        · intro hn
          have hcs : '/' ∉ cs := fun hm => hn (List.mem_cons_of_mem _ hm)
          have := ih.2 hcs
          rw [h] at this
          cases this

theorem splitFirst_some {l a b : List Char} :
    splitFirst l = some (a, b) ↔ '/' ∉ a ∧ l = a ++ '/' :: b := by
  induction l generalizing a with
  | nil => simp [splitFirst]
  | cons c cs ih =>
    unfold splitFirst
    by_cases hc : c = '/'
    · rw [if_pos hc]
      subst hc
      constructor
      · intro h
        simp only [Option.some.injEq, Prod.mk.injEq] at h
        obtain ⟨rfl, rfl⟩ := h
        simp
      · rintro ⟨hna, heq⟩
        cases a with
        | nil =>
          simp only [List.nil_append, List.cons.injEq, true_and] at heq
          rw [heq]
        | cons x xs =>
          simp only [List.cons_append, List.cons.injEq] at heq
          exfalso
          apply hna
          rw [← heq.1]
          exact List.mem_cons_self _ _
    · rw [if_neg hc]
      cases h : splitFirst cs with
      | none =>
        constructor
        · intro h1
          cases h1
        rintro ⟨hna, heq⟩
        exfalso
        have hnot := splitFirst_none.1 h
        cases a with
        | nil =>
          simp only [List.nil_append, List.cons.injEq] at heq
          exact hc heq.1
        | cons x xs =>
          simp only [List.cons_append, List.cons.injEq] at heq
          apply hnot
          rw [heq.2]
          simp
      | some ab =>
        obtain ⟨a1, b1⟩ := ab
        simp only [Option.some.injEq, Prod.mk.injEq]
        constructor
        · rintro ⟨rfl, rfl⟩
          have := (ih (a := a1)).1 h
          refine ⟨?_, ?_⟩
          · simp only [List.mem_cons, not_or]
            exact ⟨fun e => hc e.symm, this.1⟩
          · rw [this.2]
            rfl
        · rintro ⟨hna, heq⟩
          cases a with
          | nil =>
            simp only [List.nil_append, List.cons.injEq] at heq
            exact absurd heq.1 hc
          | cons x xs =>
            simp only [List.cons_append, List.cons.injEq] at heq
            have hxs : '/' ∉ xs := fun hm => hna (List.mem_cons_of_mem _ hm)
            have := (ih (a := xs)).2 ⟨hxs, heq.2⟩
            rw [h] at this
            simp only [Option.some.injEq, Prod.mk.injEq] at this
            rw [heq.1, this.1, this.2]
            exact ⟨rfl, rfl⟩

theorem string_eq_iff_toList {s t : String} : s = t ↔ s.toList = t.toList :=
  ⟨fun h => by rw [h], fun h => String.ext h⟩

theorem toList_join3 (k f : String) :
    (k ++ "/" ++ f).toList = k.toList ++ '/' :: f.toList := by
  show (k ++ "/" ++ f).data = k.data ++ '/' :: f.data
  rw [String.data_append, String.data_append]
  simp

theorem getObjectAndFileName_ok {s k f : String} :
    getObjectAndFileName s = .ok (k, f) ↔ '/' ∉ k.toList ∧ s = k ++ "/" ++ f := by
  unfold getObjectAndFileName SplitN2
  cases h : splitFirst s.toList with
  | none =>
    simp only
    constructor
    · intro h1
      cases h1
    · rintro ⟨hk, hs⟩
      exfalso
      have := splitFirst_none.1 h
      apply this
      rw [hs, toList_join3]
      simp
  | some ab =>
    obtain ⟨a, b⟩ := ab
    have hab := splitFirst_some.1 h
    simp only [Except.ok.injEq, Prod.mk.injEq]
    constructor
    · rintro ⟨rfl, rfl⟩
      refine ⟨hab.1, ?_⟩
      rw [string_eq_iff_toList, toList_join3]
      exact hab.2
    · rintro ⟨hk, hs⟩
      rw [string_eq_iff_toList, toList_join3] at hs
      have := splitFirst_some.2 ⟨hk, hs⟩
      rw [h] at this
      simp only [Option.some.injEq, Prod.mk.injEq] at this
      constructor
      · rw [string_eq_iff_toList]
        exact this.1
      · rw [string_eq_iff_toList]
        exact this.2

theorem getObjectAndFileName_error {s : String} :
    (∃ e, getObjectAndFileName s = .error e) ↔ '/' ∉ s.toList := by
  unfold getObjectAndFileName SplitN2
  cases h : splitFirst s.toList with
  | none =>
    simp only
    exact ⟨fun _ => splitFirst_none.1 h, fun _ => ⟨_, rfl⟩⟩
  | some ab =>
    obtain ⟨a, b⟩ := ab
    simp only
    constructor
    · rintro ⟨e, he⟩
      cases he
    · intro hn
      have := splitFirst_none.2 hn
      rw [h] at this
      cases this

theorem isValidSegmentFilename_iff (f : String) :
    isValidSegmentFilename f = true ↔ Ext f = ".ts" := by
  simp [isValidSegmentFilename]

/-- The response to a request that fails validation. -/
theorem writeErrorJson_invalid :
    writeErrorJson "Invalid request" 400
      = ⟨400, none, .json "\x7b\"error\": \"Invalid request\"\x7d"⟩ := by
  decide

theorem handler_no_slash {τ : Type} (env : Env τ) (cfg : Config) (w : World τ) (s : String)
    (hs : '/' ∉ s.toList) : handler env cfg w s = (w, writeErrorJson "Invalid request" 400) := by
  obtain ⟨e, he⟩ := getObjectAndFileName_error.2 hs
  unfold handler
  rw [he]

theorem handler_bad_name {τ : Type} (env : Env τ) (cfg : Config) (w : World τ)
    (s k f : String) (hs : getObjectAndFileName s = .ok (k, f))
    (h1 : f ≠ "playlist.m3u8") (h2 : Ext f ≠ ".ts") :
    handler env cfg w s = (w, writeErrorJson "Invalid request" 400) := by
  have hv : isValidSegmentFilename f = false := by
    cases hb : isValidSegmentFilename f with
    | false => rfl
    | true => exact absurd ((isValidSegmentFilename_iff f).1 hb) h2
  unfold handler
  rw [hs]
  simp [h1, hv]

theorem World.Extends.refl {τ : Type} (w : World τ) : w.Extends w := ⟨[], by simp⟩

theorem World.Extends.trans {τ : Type} {w w1 w2 : World τ} (h1 : w.Extends w1)
    (h2 : w1.Extends w2) : w.Extends w2 := by
  obtain ⟨a, ha⟩ := h1
  obtain ⟨b, hb⟩ := h2
  exact ⟨a ++ b, by rw [hb, ha, List.append_assoc]⟩

theorem World.Extends.of_log {τ : Type} {w w1 : World τ} (e : List Event)
    (h : w1.log = w.log ++ e) : w.Extends w1 := ⟨e, h⟩

theorem extends_emit {τ : Type} (w : World τ) (e : Event) : w.Extends (w.emit e) :=
  ⟨[e], rfl⟩

theorem extends_osRemove {τ : Type} (w : World τ) (p : String) : w.Extends (osRemove w p) :=
  ⟨[.remove p], rfl⟩

theorem extends_osMkdirAll {τ : Type} (w : World τ) (p : String) :
    w.Extends (osMkdirAll w p).1 := ⟨[.mkdirAll p], rfl⟩

theorem extends_CheckObject {τ : Type} (env : Env τ) (w : World τ) (p : String) :
    (CheckObject env w p).1.log = w.log ++ [.statObject p] := by
  unfold CheckObject
  split
  · split <;> rfl
  · rfl

theorem extends_GetObject {τ : Type} (env : Env τ) (w : World τ) (p : String) :
    w.Extends (GetObject env w p).1 := ⟨[.getObject p], rfl⟩

theorem extends_FGetObject {τ : Type} (env : Env τ) (w : World τ) (p q : String) :
    w.Extends (FGetObject env w p q).1 := by
  unfold FGetObject
  split <;> exact ⟨[.fGetObject p q], rfl⟩

theorem extends_PutObject {τ : Type} (env : Env τ) (w : World τ) (p q : String) :
    (PutObject env w p q).1.log = w.log ++ [.putObject p q] := by
  unfold PutObject
  split <;> rfl

theorem extends_appwriteGetFile {τ : Type} (env : Env τ) (cfg : Config) (w : World τ)
    (p q : String) : w.Extends (appwriteGetFile env cfg w p q).1 := by
  unfold appwriteGetFile
  simp only
  split
  · exact ⟨_, rfl⟩
  · split
    · exact ⟨_, rfl⟩
    · split
      · exact World.Extends.trans (extends_emit w _) ⟨[.create q], rfl⟩
      · exact World.Extends.trans (extends_emit w _) ⟨[.create q], rfl⟩

theorem extends_runFFmpeg {τ : Type} (env : Env τ) (w : World τ) (a b c : String) :
    w.Extends (runFFmpeg env w a b c).1 := by
  unfold runFFmpeg
  simp only
  split
  · exact ⟨_, rfl⟩
  · split <;> exact ⟨_, rfl⟩

theorem extends_uploadCallback {τ : Type} (env : Env τ) (cfg : Config) (k hlsDir p : String)
    (info : Option Node) (w : World τ) :
    w.Extends (uploadCallback env cfg k hlsDir p info w).1 := by
  unfold uploadCallback
  split
  · exact extends_osRemove w p
  · exact extends_osRemove w p
  · have h := extends_PutObject env w (cloudFilePath cfg k (Rel hlsDir p)) p
    simp only
    split
    · rename_i w1 err heq
      rw [heq] at h
      exact World.Extends.trans (World.Extends.of_log _ h) (extends_osRemove w1 p)
    · rename_i w1 heq
      rw [heq] at h
      exact World.Extends.trans (World.Extends.of_log _ h) (extends_osRemove w1 p)

theorem extends_walkVisit {τ : Type}
    (fn : String → Option Node → World τ → World τ × Option Error)
    (hfn : ∀ (p : String) (info : Option Node) (w : World τ), w.Extends (fn p info w).1) (names : List String) (w : World τ) :
    w.Extends (walkVisit fn names w).1 := by
  induction names generalizing w with
  | nil => exact World.Extends.refl w
  | cons p rest ih =>
    unfold walkVisit
    have h := hfn p (w.disk.lookup p) w
    split
    · rename_i w1 err heq
      rw [heq] at h
      exact h
    · rename_i w1 heq
      rw [heq] at h
      exact World.Extends.trans h (ih w1)

theorem extends_Walk {τ : Type} (root : String)
    (fn : String → Option Node → World τ → World τ × Option Error)
    (hfn : ∀ (p : String) (info : Option Node) (w : World τ), w.Extends (fn p info w).1) (w : World τ) :
    w.Extends (Walk root fn w).1 := by
  unfold Walk
  simp only
  split
  · exact hfn _ _ _
  · exact hfn _ _ _
  · have h := hfn root (some .dir) w
    split
    · rename_i w1 err heq
      rw [heq] at h
      exact h
    · rename_i w1 heq
      rw [heq] at h
      exact World.Extends.trans h (extends_walkVisit fn hfn _ w1)

theorem extends_uploadHLSFiles {τ : Type} (env : Env τ) (cfg : Config) (w : World τ)
    (k hlsDir : String) : w.Extends (uploadHLSFiles env cfg w k hlsDir).1 :=
  extends_Walk hlsDir _ (extends_uploadCallback env cfg k hlsDir) w

theorem extends_convertToHLS {τ : Type} (env : Env τ) (cfg : Config) (w : World τ)
    (k : String) : w.Extends (convertToHLS env cfg w k).1 := by
  unfold convertToHLS
  simp only
  have h1 := extends_osMkdirAll w (Join cfg.tempDir k)
  split
  · rename_i w1 err heq
    rw [heq] at h1
    exact h1
  · rename_i w1 heq
    rw [heq] at h1
    have h2 : w1.Extends (if cfg.useAppwrite = true then
        appwriteGetFile env cfg w1 k (Join cfg.tempDir (k ++ ".mp4"))
        else FGetObject env w1 (cfg.inputDir ++ "/" ++ k ++ ".mp4")
          (Join cfg.tempDir (k ++ ".mp4"))).1 := by
      split
      · exact extends_appwriteGetFile _ _ _ _ _
      · exact extends_FGetObject _ _ _ _
    split
    · rename_i w2 err heq2
      rw [heq2] at h2
      exact World.Extends.trans h1 h2
    · rename_i w2 heq2
      rw [heq2] at h2
      have h3 := extends_runFFmpeg env w2 (Join cfg.tempDir (k ++ ".mp4"))
        (Join (Join cfg.tempDir k) "segment%03d.ts") (Join (Join cfg.tempDir k) "playlist.m3u8")
      split
      · rename_i w3 err heq3
        rw [heq3] at h3
        exact World.Extends.trans (World.Extends.trans (World.Extends.trans h1 h2) h3) (extends_osRemove _ _)
      · rename_i w3 heq3
        rw [heq3] at h3
        have h4 := extends_uploadHLSFiles env cfg w3 k (Join cfg.tempDir k)
        exact World.Extends.trans (World.Extends.trans (World.Extends.trans (World.Extends.trans h1 h2) h3) h4) (extends_osRemove _ _)

theorem handler_valid {τ : Type} (env : Env τ) (cfg : Config) (w : World τ)
    (s k f : String) (hs : getObjectAndFileName s = .ok (k, f))
    (hv : f = "playlist.m3u8" ∨ Ext f = ".ts") :
    (handler env cfg w s).2.status ≠ 400
    ∧ ∃ rest, (handler env cfg w s).1.log
        = w.log ++ Event.statObject (cloudFilePath cfg k f) :: rest := by
  have hcond : (!decide (f = "playlist.m3u8") && !isValidSegmentFilename f) = false := by
    rcases hv with h | h
    · simp [h]
    · simp [(isValidSegmentFilename_iff f).2 h]
  have hlog := extends_CheckObject env w (cloudFilePath cfg k f)
  unfold handler
  rw [hs]
  simp only [hcond]
  rcases hc : CheckObject env w (cloudFilePath cfg k f) with ⟨w1, ex, err⟩
  rw [hc] at hlog
  simp only at hlog
  cases err with
  | some e =>
    simp only [Bool.false_eq_true, if_false]
    refine ⟨by simp [writeErrorJson], [], ?_⟩
    rw [hlog]
  | none =>
    simp only [Bool.false_eq_true, if_false]
    have hconv : w1.Extends (if (!ex) = true then
        convertToHLS env cfg (w1.emit (.convert k)) k else (w1, none)).1 := by
      split
      · exact World.Extends.trans (extends_emit w1 _) (extends_convertToHLS env cfg _ k)
      · exact World.Extends.refl w1
    rcases hcv : (if (!ex) = true then
        convertToHLS env cfg (w1.emit (.convert k)) k else (w1, none)) with ⟨w2, cerr⟩
    rw [hcv] at hconv
    obtain ⟨n2, hn2⟩ := hconv
    simp only at hn2
    cases cerr with
    | some e =>
      refine ⟨by simp [writeErrorJson], n2, ?_⟩
      simp only
      rw [hn2, hlog]
      simp
    | none =>
      simp only
      rcases hg : GetObject env w2 (cloudFilePath cfg k f) with ⟨w3, obj⟩
      have hg3 : w3.log = w2.log ++ [.getObject (cloudFilePath cfg k f)] := by
        have : (GetObject env w2 (cloudFilePath cfg k f)).1.log
            = w2.log ++ [.getObject (cloudFilePath cfg k f)] := rfl
        rw [hg] at this
        exact this
      cases obj with
      | error e =>
        refine ⟨by simp [writeErrorJson], n2 ++ [.getObject (cloudFilePath cfg k f)], ?_⟩
        simp only
        rw [hg3, hn2, hlog]
        simp
      | ok object =>
        simp only
        split
        · refine ⟨by simp, n2 ++ [.getObject (cloudFilePath cfg k f)], ?_⟩
          simp only
          rw [hg3, hn2, hlog]
          simp
        · refine ⟨by simp, n2 ++ [.getObject (cloudFilePath cfg k f)], ?_⟩
          simp only
          rw [hg3, hn2, hlog]
          simp

theorem Ext_evil (f : String) (pre : List Char)
    (hf : f.toList = pre ++ ['e', 'v', 'i', 'l', '.', 's', 'h']) : Ext f = ".sh" := by
  unfold Ext
  rw [hf]
  simp [extScan]

theorem evil_filename (k k1 f1 : String)
    (h : getObjectAndFileName (k ++ "/evil.sh") = .ok (k1, f1)) :
    ∃ pre, f1.toList = pre ++ ['e', 'v', 'i', 'l', '.', 's', 'h'] := by
  have h1 := getObjectAndFileName_ok.1 h
  have hs : (k ++ "/evil.sh").toList = k.toList ++ '/' :: ['e', 'v', 'i', 'l', '.', 's', 'h'] := by
    show (k ++ "/evil.sh").data = _
    rw [String.data_append]
    rfl
  have h2 := h1.2
  rw [string_eq_iff_toList, toList_join3, hs] at h2
  have hsp := splitFirst_some.2 ⟨h1.1, h2⟩
  cases hk : splitFirst k.toList with
  | none =>
    have := splitFirst_some.2 ⟨splitFirst_none.1 hk, (rfl :
      k.toList ++ '/' :: ['e', 'v', 'i', 'l', '.', 's', 'h'] = _)⟩
    rw [hsp] at this
    simp only [Option.some.injEq, Prod.mk.injEq] at this
    exact ⟨[], by rw [this.2]; rfl⟩
  | some ab =>
    obtain ⟨a, r⟩ := ab
    have hk2 := splitFirst_some.1 hk
    have : splitFirst (k.toList ++ '/' :: ['e', 'v', 'i', 'l', '.', 's', 'h'])
        = some (a, r ++ '/' :: ['e', 'v', 'i', 'l', '.', 's', 'h']) := by
      apply splitFirst_some.2
      refine ⟨hk2.1, ?_⟩
      rw [hk2.2]
      simp
    rw [hsp] at this
    simp only [Option.some.injEq, Prod.mk.injEq] at this
    exact ⟨r ++ ['/'], by rw [this.2]; simp⟩

/-- **C7** (validation).  For every request path `s` after `/hls/`, every
environment and every state: the handler answers 400 with the body
`{"error": "Invalid request"}` and returns the world as it was (nothing was
logged, so no durable-store call, no engine invocation and no file-system
call was made; store and disk are unchanged) if and only if `s` contains no
`/` or the part of `s` after its first `/` is neither `playlist.m3u8` nor has
`filepath.Ext` equal to `.ts`; no other request gets status 400; and
`k/evil.sh` is rejected so for every `k`. -/
theorem validation_rejects_exactly {τ : Type} (env : Env τ) (cfg : Config) (w : World τ)
    (s : String) :
    (handler env cfg w s
        = (w, ⟨400, none, .json "\x7b\"error\": \"Invalid request\"\x7d"⟩)
      ↔ ('/' ∉ s.toList
          ∨ ∃ k f, '/' ∉ k.toList ∧ s = k ++ "/" ++ f ∧ f ≠ "playlist.m3u8" ∧ Ext f ≠ ".ts"))
    ∧ ((handler env cfg w s).2.status = 400 →
        handler env cfg w s
          = (w, ⟨400, none, .json "\x7b\"error\": \"Invalid request\"\x7d"⟩))
    ∧ (∀ k : String, handler env cfg w (k ++ "/evil.sh")
          = (w, ⟨400, none, .json "\x7b\"error\": \"Invalid request\"\x7d"⟩)) := by
  rw [← writeErrorJson_invalid]
  have key : ∀ t : String,
      (handler env cfg w t = (w, writeErrorJson "Invalid request" 400)
        ∧ ('/' ∉ t.toList ∨ ∃ k f, '/' ∉ k.toList ∧ t = k ++ "/" ++ f
            ∧ f ≠ "playlist.m3u8" ∧ Ext f ≠ ".ts"))
      ∨ ((handler env cfg w t).2.status ≠ 400
        ∧ ¬ ('/' ∉ t.toList ∨ ∃ k f, '/' ∉ k.toList ∧ t = k ++ "/" ++ f
            ∧ f ≠ "playlist.m3u8" ∧ Ext f ≠ ".ts")) := by
    intro t
    cases hg : getObjectAndFileName t with
    | error e =>
      have hn := getObjectAndFileName_error.1 ⟨e, hg⟩
      exact Or.inl ⟨handler_no_slash env cfg w t hn, Or.inl hn⟩
    | ok kf =>
      obtain ⟨k, f⟩ := kf
      have hkf := getObjectAndFileName_ok.1 hg
      by_cases hv : f = "playlist.m3u8" ∨ Ext f = ".ts"
      · right
        refine ⟨(handler_valid env cfg w t k f hg hv).1, ?_⟩
        rintro (hn | ⟨k1, f1, hk1, ht1, hf1, hf2⟩)
        · apply hn
          rw [hkf.2, toList_join3]
          simp
        · have := getObjectAndFileName_ok.2 ⟨hk1, ht1⟩
          rw [hg] at this
          simp only [Except.ok.injEq, Prod.mk.injEq] at this
          rcases hv with h | h
          · exact hf1 (this.2 ▸ h)
          · exact hf2 (this.2 ▸ h)
      · left
        simp only [not_or] at hv
        exact ⟨handler_bad_name env cfg w t k f hg hv.1 hv.2,
          Or.inr ⟨k, f, hkf.1, hkf.2, hv.1, hv.2⟩⟩
  refine ⟨?_, ?_, ?_⟩
  · rcases key s with ⟨h1, h2⟩ | ⟨h1, h2⟩
    · exact ⟨fun _ => h2, fun _ => h1⟩
    · constructor
      · intro h
        exfalso
        apply h1
        rw [h]
        rfl
      · intro h
        exact absurd h h2
  · intro hst
    rcases key s with ⟨h1, _⟩ | ⟨h1, _⟩
    · exact h1
    · exact absurd hst h1
  · intro k
    cases hg : getObjectAndFileName (k ++ "/evil.sh") with
    | error e =>
      exfalso
      have hn := getObjectAndFileName_error.1 ⟨e, hg⟩
      apply hn
      show '/' ∈ (k ++ "/evil.sh").data
      rw [String.data_append]
      simp
    | ok kf =>
      obtain ⟨k1, f1⟩ := kf
      obtain ⟨pre, hpre⟩ := evil_filename k k1 f1 hg
      have hext := Ext_evil f1 pre hpre
      apply handler_bad_name env cfg w _ k1 f1 hg
      · intro hf
        rw [hf] at hext
        revert hext
        decide
      · rw [hext]
        decide

/-- **C5** (the code at the failing input).  The store holds the manifest of
`k` with positive size, yet a request for the absent `k/segment999.ts` calls
`convertToHLS("k")` and runs the engine, because the handler checks the
requested object; and with the manifest absent, a request for the existing
`k/segment000.ts` does not call `convertToHLS`. -/
theorem handler_checks_requested_object :
    (CheckObject refEnv generatedWorld (cloudFilePath refConfig "k" "playlist.m3u8")).2
      = (true, none)
    ∧ Event.convert "k" ∈ (handler refEnv refConfig generatedWorld "k/segment999.ts").1.log
    ∧ Event.ffmpeg "tmp/k.mp4" "tmp/k/segment%03d.ts" "tmp/k/playlist.m3u8"
        ∈ (handler refEnv refConfig generatedWorld "k/segment999.ts").1.log
    ∧ (CheckObject refEnv segmentOnlyWorld (cloudFilePath refConfig "k" "playlist.m3u8")).2
      = (false, none)
    ∧ Event.convert "k" ∉ (handler refEnv refConfig segmentOnlyWorld "k/segment000.ts").1.log
    ∧ (handler refEnv refConfig segmentOnlyWorld "k/segment000.ts").2.status = 200 := by
  decide

theorem lexLe_total (a b : List Nat) : lexLe a b = true ∨ lexLe b a = true := by
  induction a generalizing b with
  | nil => exact Or.inl rfl
  | cons x xs ih =>
    cases b with
    | nil => exact Or.inr rfl
    | cons y ys =>
      simp only [lexLe, Bool.or_eq_true, Bool.and_eq_true, decide_eq_true_eq]
      rcases Nat.lt_trichotomy x y with h | h | h
      · exact Or.inl (Or.inl h)
      · rcases ih ys with h1 | h1
        · exact Or.inl (Or.inr ⟨h, h1⟩)
        · exact Or.inr (Or.inr ⟨h.symm, h1⟩)
      · exact Or.inr (Or.inl h)

theorem lexLe_trans {a b c : List Nat} (h1 : lexLe a b = true) (h2 : lexLe b c = true) :
    lexLe a c = true := by
  induction a generalizing b c with
  | nil => rfl
  | cons x xs ih =>
    cases b with
    | nil => simp [lexLe] at h1
    | cons y ys =>
      cases c with
      | nil => simp [lexLe] at h2
      | cons z zs =>
        simp only [lexLe, Bool.or_eq_true, Bool.and_eq_true, decide_eq_true_eq] at h1 h2 ⊢
        rcases h1 with h1 | ⟨h1, h1'⟩
        · rcases h2 with h2 | ⟨h2, _⟩
          · exact Or.inl (Nat.lt_trans h1 h2)
          · exact Or.inl (h2 ▸ h1)
        · rcases h2 with h2 | ⟨h2, h2'⟩
          · exact Or.inl (h1 ▸ h2)
          · exact Or.inr ⟨h1.trans h2, ih h1' h2'⟩

theorem lexLe_append_left (p a b : List Nat) : lexLe (p ++ a) (p ++ b) = lexLe a b := by
  induction p with
  | nil => rfl
  | cons x xs ih => simp [lexLe, ih]

theorem walkKey_append (p q : String) : walkKey (p ++ q) = walkKey p ++ walkKey q := by
  unfold walkKey
  show List.map _ (p ++ q).data = _
  rw [String.data_append, List.map_append]
  rfl

theorem segmentName_head (n : Nat) : ∃ rest, (segmentName n).toList = 's' :: rest := by
  exact ⟨expandPattern ['e', 'g', 'm', 'e', 'n', 't', '%', '0', '3', 'd', '.', 't', 's'] n, rfl⟩

theorem playlist_before_segment (pre : String) (n : Nat) :
    ¬ walkLe (pre ++ segmentName n) (pre ++ "playlist.m3u8") := by
  unfold walkLe
  rw [walkKey_append, walkKey_append, lexLe_append_left]
  obtain ⟨rest, hrest⟩ := segmentName_head n
  have h1 : walkKey (segmentName n) = 116 :: rest.map (fun c => if c = '/' then 0 else c.toNat + 1) := by
    unfold walkKey
    rw [hrest]
    rfl
  have h2 : ∃ r, walkKey "playlist.m3u8" = 113 :: r := ⟨_, rfl⟩
  obtain ⟨r, hr⟩ := h2
  rw [h1, hr]
  simp [lexLe]

theorem below_ne {root p : String} (h : below root p = true) : p ≠ root := by
  intro he
  subst he
  unfold below at h
  split at h
  · rename_i h1
    simp at h
    exact h.1 h1
  · split at h
    · rename_i h1
      simp at h
      exact h.1.1 h1
    · rw [List.isPrefixOf_iff_prefix] at h
      have := h.length_le
      simp at this

theorem mem_descendants {d : Disk} {root p : String} :
    p ∈ d.descendants root ↔ p ∈ d.map Prod.fst ∧ below root p = true := by
  unfold Disk.descendants
  rw [(List.perm_insertionSort walkLe _).mem_iff, List.mem_dedup, List.mem_filter]

theorem sorted_descendants (d : Disk) (root : String) :
    (d.descendants root).Sorted walkLe := by
  unfold Disk.descendants
  exact @List.sorted_insertionSort _ walkLe _
    ⟨fun a b => lexLe_total (walkKey a) (walkKey b)⟩
    ⟨fun _ _ _ h1 h2 => lexLe_trans h1 h2⟩ _

theorem Disk.lookup_mem_keys {d : Disk} {p : String} {n : Node}
    (h : Disk.lookup d p = some n) : p ∈ d.map Prod.fst := by
  induction d with
  | nil => simp [Disk.lookup] at h
  | cons x xs ih =>
    obtain ⟨k, v⟩ := x
    by_cases hk : k = p
    · simp [hk]
    · simp only [Disk.lookup, hk, if_false] at h
      simp only [List.map_cons, List.mem_cons]
      exact Or.inr (ih h)

theorem Disk.remove_cases (d : Disk) (p : String) :
    (d.remove p).1 = d ∨ (d.remove p).1 = d.erase p := by
  unfold Disk.remove
  split
  · exact Or.inl rfl
  · exact Or.inr rfl
  · split
    · exact Or.inl rfl
    · exact Or.inr rfl

theorem Disk.lookup_remove_ne (d : Disk) {p q : String} (h : q ≠ p) :
    Disk.lookup (d.remove p).1 q = Disk.lookup d q := by
  rcases Disk.remove_cases d p with h1 | h1
  · rw [h1]
  · rw [h1, Disk.lookup_erase, if_neg h]

theorem Disk.lookup_remove_sub (d : Disk) (p q : String) :
    Disk.lookup (d.remove p).1 q = Disk.lookup d q ∨ Disk.lookup (d.remove p).1 q = none := by
  rcases Disk.remove_cases d p with h1 | h1
  · rw [h1]
    exact Or.inl rfl
  · rw [h1, Disk.lookup_erase]
    by_cases h : q = p
    · rw [if_pos h]
      exact Or.inr rfl
    · rw [if_neg h]
      exact Or.inl rfl

theorem Disk.lookup_remove_file (d : Disk) {p : String} {x : Bytes}
    (h : Disk.lookup d p = some (.file x)) : Disk.lookup (d.remove p).1 p = none := by
  unfold Disk.remove
  rw [h]
  simp only
  rw [Disk.lookup_erase, if_pos rfl]

theorem PutObject_disk {τ : Type} (env : Env τ) (w : World τ) (p q : String) :
    (PutObject env w p q).1.disk = w.disk := by
  unfold PutObject
  split <;> rfl

theorem uploadCallback_disk {τ : Type} (env : Env τ) (cfg : Config) (k hlsDir p : String)
    (info : Option Node) (w : World τ) :
    (uploadCallback env cfg k hlsDir p info w).1.disk = (w.disk.remove p).1 := by
  unfold uploadCallback
  split
  · rfl
  · rfl
  · simp only
    have h := PutObject_disk env w (cloudFilePath cfg k (Rel hlsDir p)) p
    split
    · rename_i w1 err heq
      rw [heq] at h
      show (w1.disk.remove p).1 = _
      rw [h]
    · rename_i w1 heq
      rw [heq] at h
      show (w1.disk.remove p).1 = _
      rw [h]

theorem uploadCallback_log_file {τ : Type} (env : Env τ) (cfg : Config)
    (k hlsDir p : String) (x : Bytes) (w : World τ) :
    (uploadCallback env cfg k hlsDir p (some (.file x)) w).1.log
      = w.log ++ [.putObject (cloudFilePath cfg k (Rel hlsDir p)) p, .remove p] := by
  unfold uploadCallback
  simp only
  have h := extends_PutObject env w (cloudFilePath cfg k (Rel hlsDir p)) p
  split
  · rename_i w1 err heq
    rw [heq] at h
    show w1.log ++ [.remove p] = _
    rw [h]
    simp
  · rename_i w1 heq
    rw [heq] at h
    show w1.log ++ [.remove p] = _
    rw [h]
    simp

theorem uploadCallback_uploads {τ : Type} (env : Env τ) (cfg : Config)
    (k hlsDir p : String) (info : Option Node) (w : World τ) :
    ∃ new, (uploadCallback env cfg k hlsDir p info w).1.log = w.log ++ new
      ∧ ∀ q ∈ uploadsOf new, q = p := by
  cases info with
  | none => exact ⟨[.remove p], rfl, by simp [uploadsOf, uploadOf]⟩
  | some node =>
    cases node with
    | dir => exact ⟨[.remove p], rfl, by simp [uploadsOf, uploadOf]⟩
    | file x =>
      exact ⟨_, uploadCallback_log_file env cfg k hlsDir p x w, by simp [uploadsOf, uploadOf]⟩

theorem walkVisit_uploads {τ : Type} (env : Env τ) (cfg : Config) (k hlsDir : String)
    (names : List String) (w : World τ) :
    ∃ new, (walkVisit (uploadCallback env cfg k hlsDir) names w).1.log = w.log ++ new
      ∧ ∀ q ∈ uploadsOf new, q ∈ names := by
  induction names generalizing w with
  | nil => exact ⟨[], by simp [walkVisit], by simp [uploadsOf]⟩
  | cons p rest ih =>
    obtain ⟨n1, hn1, hu1⟩ := uploadCallback_uploads env cfg k hlsDir p (w.disk.lookup p) w
    unfold walkVisit
    split
    · rename_i w1 err heq
      rw [heq] at hn1
      refine ⟨n1, hn1, ?_⟩
      intro q hq
      rw [hu1 q hq]
      exact List.mem_cons_self _ _
    · rename_i w1 heq
      rw [heq] at hn1
      obtain ⟨n2, hn2, hu2⟩ := ih w1
      refine ⟨n1 ++ n2, ?_, ?_⟩
      · rw [hn2]
        simp only at hn1
        rw [hn1, List.append_assoc]
      · intro q hq
        unfold uploadsOf at hq
        rw [List.filterMap_append, List.mem_append] at hq
        rcases hq with hq | hq
        · rw [hu1 q hq]
          exact List.mem_cons_self _ _
        · exact List.mem_cons_of_mem _ (hu2 q hq)

theorem walkVisit_frame {τ : Type} (env : Env τ) (cfg : Config) (k hlsDir : String)
    (names : List String) (w : World τ) (q : String) (hq : q ∉ names) :
    Disk.lookup (walkVisit (uploadCallback env cfg k hlsDir) names w).1.disk q
      = Disk.lookup w.disk q := by
  induction names generalizing w with
  | nil => rfl
  | cons p rest ih =>
    have hd := uploadCallback_disk env cfg k hlsDir p (w.disk.lookup p) w
    have hqp : q ≠ p := fun h => hq (h ▸ List.mem_cons_self _ _)
    have hqr : q ∉ rest := fun h => hq (List.mem_cons_of_mem _ h)
    unfold walkVisit
    split
    · rename_i w1 err heq
      rw [heq] at hd
      show Disk.lookup w1.disk q = _
      rw [hd, Disk.lookup_remove_ne _ hqp]
    · rename_i w1 heq
      rw [heq] at hd
      rw [ih w1 hqr]
      show Disk.lookup w1.disk q = _
      rw [hd, Disk.lookup_remove_ne _ hqp]

theorem walkVisit_cons {τ : Type}
    (fn : String → Option Node → World τ → World τ × Option Error) (p : String)
    (rest : List String) (w : World τ) :
    walkVisit fn (p :: rest) w =
      match fn p (w.disk.lookup p) w with
      | (w1, some err) => (w1, some err)
      | (w1, none) => walkVisit fn rest w1 := rfl

theorem walkVisit_append {τ : Type}
    (fn : String → Option Node → World τ → World τ × Option Error) (A B : List String)
    (w : World τ) :
    walkVisit fn (A ++ B) w =
      match walkVisit fn A w with
      | (w1, some err) => (w1, some err)
      | (w1, none) => walkVisit fn B w1 := by
  induction A generalizing w with
  | nil => rfl
  | cons p rest ih =>
    rw [List.cons_append, walkVisit_cons, walkVisit_cons]
    rcases fn p (w.disk.lookup p) w with ⟨w1, e⟩
    cases e with
    | some err => rfl
    | none => exact ih w1

theorem uploadsOf_append (a b : List Event) : uploadsOf (a ++ b) = uploadsOf a ++ uploadsOf b := by
  unfold uploadsOf
  rw [List.filterMap_append]

theorem walkVisit_reaches {τ : Type} (env : Env τ) (cfg : Config) (k hlsDir : String)
    (A B : List String) (pl : String) (x : Bytes) (w : World τ) (hA : pl ∉ A)
    (hpl : Disk.lookup w.disk pl = some (.file x)) :
    ∃ newA rest,
      (walkVisit (uploadCallback env cfg k hlsDir) (A ++ pl :: B) w).1.log
        = w.log ++ newA ++ rest
      ∧ (∀ q ∈ uploadsOf newA, q ∈ A)
      ∧ (rest = [] ∨ ∃ o rest1, rest = Event.putObject o pl :: rest1) := by
  obtain ⟨newA, hlogA, hupA⟩ := walkVisit_uploads env cfg k hlsDir A w
  have hframe := walkVisit_frame env cfg k hlsDir A w pl hA
  rw [walkVisit_append]
  rcases hres : walkVisit (uploadCallback env cfg k hlsDir) A w with ⟨w1, e⟩
  rw [hres] at hlogA hframe
  simp only at hlogA hframe
  cases e with
  | some err =>
    refine ⟨newA, [], ?_, hupA, Or.inl rfl⟩
    simp only [List.append_nil]
    exact hlogA
  | none =>
    simp only
    rw [walkVisit_cons, hframe, hpl]
    have hcb := uploadCallback_log_file env cfg k hlsDir pl x w1
    rcases hc : uploadCallback env cfg k hlsDir pl (some (.file x)) w1 with ⟨w2, e2⟩
    rw [hc] at hcb
    simp only at hcb
    cases e2 with
    | some err =>
      refine ⟨newA, [.putObject (cloudFilePath cfg k (Rel hlsDir pl)) pl, .remove pl], ?_,
        hupA, Or.inr ⟨_, _, rfl⟩⟩
      simp only
      rw [hcb, hlogA]
    | none =>
      simp only
      obtain ⟨more, hmore⟩ := extends_walkVisit (uploadCallback env cfg k hlsDir)
        (extends_uploadCallback env cfg k hlsDir) B w2
      refine ⟨newA, _, ?_, hupA, Or.inr ⟨cloudFilePath cfg k (Rel hlsDir pl),
        Event.remove pl :: more, rfl⟩⟩
      rw [hmore, hcb, hlogA]
      simp

/-- **C6, amended** (upload order).  For every environment, state and workspace
directory `hlsDir` that holds, under one directory prefix `pre`, the regular
files `playlist.m3u8` and `segmentNNN.ts` (a name of the pattern
`segment%03d.ts`): in the sequence of `PutObject` calls `uploadHLSFiles` makes,
whenever the segment is uploaded the manifest was uploaded before it. -/
theorem manifest_uploaded_before_segments {τ : Type} (env : Env τ) (cfg : Config)
    (w : World τ) (objectName hlsDir pre : String) (n : Nat) (x y : Bytes)
    (hpl : Disk.lookup w.disk (pre ++ "playlist.m3u8") = some (.file x))
    (hsg : Disk.lookup w.disk (pre ++ segmentName n) = some (.file y))
    (hbl : below hlsDir (pre ++ "playlist.m3u8") = true)
    (hbs : below hlsDir (pre ++ segmentName n) = true) :
    ∃ new, (uploadHLSFiles env cfg w objectName hlsDir).1.log = w.log ++ new
      ∧ ((pre ++ segmentName n) ∈ uploadsOf new →
          ∃ a b, uploadsOf new = a ++ (pre ++ "playlist.m3u8") :: b
            ∧ (pre ++ segmentName n) ∉ a ∧ (pre ++ segmentName n) ∈ b) := by
  have hne : pre ++ segmentName n ≠ pre ++ "playlist.m3u8" := by
    intro he
    apply playlist_before_segment pre n
    rw [he]
    unfold walkLe
    rcases lexLe_total (walkKey (pre ++ "playlist.m3u8")) (walkKey (pre ++ "playlist.m3u8"))
      with h | h <;> exact h
  unfold uploadHLSFiles Walk
  simp only
  split
  · refine ⟨[.remove hlsDir], rfl, ?_⟩
    intro h
    simp [uploadsOf, uploadOf] at h
  · rename_i data _
    refine ⟨_, uploadCallback_log_file env cfg objectName hlsDir hlsDir data w, ?_⟩
    intro h
    simp [uploadsOf, uploadOf] at h
    exact absurd h (below_ne hbs)
  · have hplm : pre ++ "playlist.m3u8" ∈ w.disk.descendants hlsDir :=
      mem_descendants.2 ⟨Disk.lookup_mem_keys hpl, hbl⟩
    have hsgm : pre ++ segmentName n ∈ w.disk.descendants hlsDir :=
      mem_descendants.2 ⟨Disk.lookup_mem_keys hsg, hbs⟩
    obtain ⟨A, B, hAB, hAn⟩ := List.eq_append_cons_of_mem hplm
    have hsorted := sorted_descendants w.disk hlsDir
    rw [hAB] at hsorted hsgm
    have hsA : pre ++ segmentName n ∉ A := by
      intro hmem
      have := (List.pairwise_append.1 hsorted).2.2 _ hmem _ (List.mem_cons_self _ _)
      exact playlist_before_segment pre n this
    rw [hAB]
    show ∃ new, (walkVisit (uploadCallback env cfg objectName hlsDir)
        (A ++ (pre ++ "playlist.m3u8") :: B) (osRemove w hlsDir)).1.log = w.log ++ new ∧ _
    have hpl1 : Disk.lookup (osRemove w hlsDir).disk (pre ++ "playlist.m3u8")
        = some (.file x) := by
      show Disk.lookup (w.disk.remove hlsDir).1 _ = _
      rw [Disk.lookup_remove_ne _ (below_ne hbl)]
      exact hpl
    obtain ⟨newA, rest, hlog, hup, hrest⟩ := walkVisit_reaches env cfg objectName hlsDir A B
      (pre ++ "playlist.m3u8") x (osRemove w hlsDir) hAn hpl1
    refine ⟨Event.remove hlsDir :: (newA ++ rest), ?_, ?_⟩
    · rw [hlog]
      show (w.log ++ [Event.remove hlsDir]) ++ newA ++ rest = _
      simp
    · intro hmem
      have hcons : uploadsOf (Event.remove hlsDir :: (newA ++ rest))
          = uploadsOf newA ++ uploadsOf rest := by
        rw [← uploadsOf_append]
        rfl
      rw [hcons] at hmem ⊢
      rcases List.mem_append.1 hmem with h1 | h1
      · exact absurd (hup _ h1) hsA
      · rcases hrest with h0 | ⟨o, rest1, h0⟩
        · rw [h0] at h1
          simp [uploadsOf] at h1
        · rw [h0] at h1 ⊢
          have hu : uploadsOf (Event.putObject o (pre ++ "playlist.m3u8") :: rest1)
              = (pre ++ "playlist.m3u8") :: uploadsOf rest1 := rfl
          rw [hu] at h1 ⊢
          refine ⟨uploadsOf newA, uploadsOf rest1, rfl, fun h => hsA (hup _ h), ?_⟩
          rcases List.mem_cons.1 h1 with h2 | h2
          · exact absurd h2 hne
          · exact h2

/-- Witness of `manifest_uploaded_before_segments`: the workspace `tmp/k` with a
manifest and the segment `segment000.ts`. -/
theorem manifest_uploaded_before_segments_witness :
    Disk.lookup workspaceWorld.disk ("tmp/k/" ++ "playlist.m3u8") = some (.file [35])
    ∧ Disk.lookup workspaceWorld.disk ("tmp/k/" ++ segmentName 0) = some (.file [1])
    ∧ below "tmp/k" ("tmp/k/" ++ "playlist.m3u8") = true
    ∧ below "tmp/k" ("tmp/k/" ++ segmentName 0) = true
    ∧ ∃ new, (uploadHLSFiles refEnv refConfig workspaceWorld "k" "tmp/k").1.log
          = workspaceWorld.log ++ new
        ∧ (("tmp/k/" ++ segmentName 0) ∈ uploadsOf new →
            ∃ a b, uploadsOf new = a ++ ("tmp/k/" ++ "playlist.m3u8") :: b
              ∧ ("tmp/k/" ++ segmentName 0) ∉ a ∧ ("tmp/k/" ++ segmentName 0) ∈ b) :=
  ⟨by decide, by decide, by decide, by decide,
   manifest_uploaded_before_segments refEnv refConfig workspaceWorld "k" "tmp/k" "tmp/k/" 0
     [35] [1] (by decide) (by decide) (by decide) (by decide)⟩

/-- **C6, counterexample.**  The workspace `tmp/k` holds `playlist.m3u8` and
`segment000.ts`: `uploadHLSFiles` uploads the manifest first and the segment
after it; and when the store refuses the segment, `uploadHLSFiles` fails
leaving the store with the manifest and without the segment it lists. -/
theorem manifest_uploaded_first :
    uploadsOf (uploadHLSFiles refEnv refConfig workspaceWorld "k" "tmp/k").1.log
      = ["tmp/k/playlist.m3u8", "tmp/k/segment000.ts"]
    ∧ (uploadHLSFiles refusingEnv refConfig workspaceWorld "k" "tmp/k").2
      = some "upload refused"
    ∧ Store.get (uploadHLSFiles refusingEnv refConfig workspaceWorld "k" "tmp/k").1.store
        "out/k/playlist.m3u8" = some [35]
    ∧ Store.get (uploadHLSFiles refusingEnv refConfig workspaceWorld "k" "tmp/k").1.store
        "out/k/segment000.ts" = none := by
  decide

theorem splitSlash_no_slash (l : List Char) : ∀ c ∈ splitSlash l, '/' ∉ c := by
  induction l with
  | nil => simp [splitSlash]
  | cons x xs ih =>
    unfold splitSlash
    by_cases hx : x = '/'
    · rw [if_pos hx]
      intro c hc
      rcases List.mem_cons.1 hc with h | h
      · rw [h]
        simp
      · exact ih c h
    · rw [if_neg hx]
      cases hs : splitSlash xs with
      | nil =>
        intro c hc
        simp only [List.mem_singleton] at hc
        rw [hc]
        simp only [List.mem_singleton]
        exact fun e => hx e.symm
      | cons h t =>
        rw [hs] at ih
        intro c hc
        simp only at hc
        rcases List.mem_cons.1 hc with h1 | h1
        · rw [h1]
          simp only [List.mem_cons, not_or]
          exact ⟨fun e => hx e.symm, ih h (List.mem_cons_self _ _)⟩
        · exact ih c (List.mem_cons_of_mem _ h1)

theorem splitSlash_single {a : List Char} (ha : '/' ∉ a) : splitSlash a = [a] := by
  induction a with
  | nil => rfl
  | cons x xs ih =>
    have hx : x ≠ '/' := fun e => ha (e ▸ List.mem_cons_self _ _)
    have hxs : '/' ∉ xs := fun h => ha (List.mem_cons_of_mem _ h)
    unfold splitSlash
    rw [if_neg hx, ih hxs]

theorem splitSlash_append {a : List Char} (ha : '/' ∉ a) (rest : List Char) :
    splitSlash (a ++ '/' :: rest) = a :: splitSlash rest := by
  induction a with
  | nil =>
    show splitSlash ('/' :: rest) = _
    rw [splitSlash, if_pos rfl]
  | cons x xs ih =>
    have hx : x ≠ '/' := fun e => ha (e ▸ List.mem_cons_self _ _)
    have hxs : '/' ∉ xs := fun h => ha (List.mem_cons_of_mem _ h)
    show splitSlash (x :: (xs ++ '/' :: rest)) = _
    rw [splitSlash, if_neg hx, ih hxs]

theorem splitSlash_joinSlash {cs : List (List Char)} (hne : cs ≠ [])
    (hc : ∀ c ∈ cs, '/' ∉ c) : splitSlash (joinSlash cs) = cs := by
  induction cs with
  | nil => exact absurd rfl hne
  | cons a rest ih =>
    cases rest with
    | nil => exact splitSlash_single (hc a (List.mem_cons_self _ _))
    | cons b more =>
      show splitSlash (a ++ '/' :: joinSlash (b :: more)) = _
      rw [splitSlash_append (hc a (List.mem_cons_self _ _)),
        ih (List.cons_ne_nil _ _) (fun c h => hc c (List.mem_cons_of_mem _ h))]

theorem joinSlash_head {a : List Char} (rest : List (List Char)) (ha : a ≠ []) :
    (joinSlash (a :: rest)).head? = a.head? := by
  cases a with
  | nil => exact absurd rfl ha
  | cons x xs =>
    cases rest with
    | nil => rfl
    | cons b more => rfl

theorem cleanStep_plain (r : Bool) (st : List (List Char)) {c : List Char}
    (hc : Plain c ∧ c ≠ ['.', '.']) : cleanStep r st c = c :: st := by
  unfold cleanStep
  rw [if_neg (by
    rintro (h | h)
    · exact hc.1.1 h
    · exact hc.1.2.1 h), if_neg hc.2]

theorem foldl_plain (r : Bool) (ms : List (List Char)) (st : List (List Char))
    (hms : ∀ c ∈ ms, Plain c ∧ c ≠ ['.', '.']) :
    ms.foldl (cleanStep r) st = ms.reverse ++ st := by
  induction ms generalizing st with
  | nil => rfl
  | cons m rest ih =>
    rw [List.foldl_cons, cleanStep_plain r st (hms m (List.mem_cons_self _ _)),
      ih _ (fun c h => hms c (List.mem_cons_of_mem _ h))]
    simp

theorem foldl_dotdot (ds : List (List Char)) (st : List (List Char))
    (hds : ∀ c ∈ ds, c = ['.', '.']) (hst : ∀ c ∈ st, c = ['.', '.']) :
    ds.foldl (cleanStep false) st = ds.reverse ++ st := by
  induction ds generalizing st with
  | nil => rfl
  | cons d rest ih =>
    have hd := hds d (List.mem_cons_self _ _)
    have hstep : cleanStep false st d = d :: st := by
      rw [hd]
      cases st with
      | nil => rfl
      | cons top more =>
        have := hst top (List.mem_cons_self _ _)
        rw [this]
        rfl
    rw [List.foldl_cons, hstep, ih (d :: st) (fun c h => hds c (List.mem_cons_of_mem _ h))
      (by
        intro c hc
        rcases List.mem_cons.1 hc with h | h
        · rw [h]
          exact hd
        · exact hst c h)]
    simp

theorem Shape.step {r : Bool} {st : List (List Char)} (h : Shape r st) {c : List Char}
    (hc : '/' ∉ c) : Shape r (cleanStep r st c) := by
  obtain ⟨ns, ds, hst, hns, hds, hr⟩ := h
  unfold cleanStep
  split
  · exact ⟨ns, ds, hst, hns, hds, hr⟩
  · rename_i h1
    split
    · rename_i h2
      cases ns with
      | nil =>
        cases ds with
        | nil =>
          rw [hst]
          simp only [List.append_nil]
          cases r with
          | true => exact ⟨[], [], rfl, by simp, by simp, fun _ => rfl⟩
          | false =>
            refine ⟨[], [c], rfl, by simp, ?_, by simp⟩
            intro x hx
            rw [List.mem_singleton.1 hx]
            exact h2
        | cons d more =>
          have hd := hds d (List.mem_cons_self _ _)
          rw [hst]
          simp only [List.nil_append]
          rw [if_pos hd]
          refine ⟨[], c :: d :: more, rfl, by simp, ?_, ?_⟩
          · intro x hx
            rcases List.mem_cons.1 hx with hx | hx
            · rw [hx]
              exact h2
            · exact hds x hx
          · intro hrt
            have := hr hrt
            cases this
      | cons n more =>
        have hn := hns n (List.mem_cons_self _ _)
        rw [hst]
        simp only [List.cons_append]
        rw [if_neg hn.2]
        exact ⟨more, ds, rfl, fun x hx => hns x (List.mem_cons_of_mem _ hx), hds, hr⟩
    · rename_i h2
      refine ⟨c :: ns, ds, by rw [hst]; rfl, ?_, hds, hr⟩
      intro x hx
      rcases List.mem_cons.1 hx with hx | hx
      · rw [hx]
        simp only [not_or] at h1
        exact ⟨⟨h1.1, h1.2, hc⟩, h2⟩
      · exact hns x hx

theorem Shape.foldl {r : Bool} {st : List (List Char)} (h : Shape r st)
    (comps : List (List Char)) (hc : ∀ c ∈ comps, '/' ∉ c) :
    Shape r (comps.foldl (cleanStep r) st) := by
  induction comps generalizing st with
  | nil => exact h
  | cons c rest ih =>
    exact ih (h.step (hc c (List.mem_cons_self _ _)))
      (fun x hx => hc x (List.mem_cons_of_mem _ hx))

theorem Clean_eq_render (x : String) :
    Clean x = render (decide (x.toList.head? = some '/'))
      ((splitSlash x.toList).foldl (cleanStep (decide (x.toList.head? = some '/'))) []) := by
  unfold Clean render
  simp only [decide_eq_true_eq]

theorem Shape.nil (r : Bool) : Shape r [] :=
  ⟨[], [], rfl, by simp, by simp, fun _ => rfl⟩

theorem Clean_shape (x : String) :
    ∃ r st, Shape r st ∧ Clean x = render r st :=
  ⟨_, _, (Shape.nil _).foldl _ (splitSlash_no_slash _), Clean_eq_render x⟩

theorem joinSlash_ne_nil {cs : List (List Char)} (hne : cs ≠ [])
    (hc : ∀ c ∈ cs, c ≠ []) : joinSlash cs ≠ [] := by
  cases cs with
  | nil => exact absurd rfl hne
  | cons a rest =>
    intro h
    have h1 := joinSlash_head rest (hc a (List.mem_cons_self _ _))
    rw [h] at h1
    cases a with
    | nil => exact hc [] (List.mem_cons_self _ _) rfl
    | cons x xs => simp at h1

theorem Shape.comps {r : Bool} {st : List (List Char)} (h : Shape r st) :
    ∀ c ∈ st, c ≠ [] ∧ '/' ∉ c := by
  obtain ⟨ns, ds, hst, hns, hds, _⟩ := h
  intro c hc
  rw [hst] at hc
  rcases List.mem_append.1 hc with h1 | h1
  · exact ⟨(hns c h1).1.1, (hns c h1).1.2.2⟩
  · rw [hds c h1]
    exact ⟨by simp, by simp⟩

theorem Clean_render {r : Bool} {st : List (List Char)} (h : Shape r st) :
    Clean (render r st) = render r st := by
  have hcomps := h.comps
  have hrev : ∀ c ∈ st.reverse, c ≠ [] ∧ '/' ∉ c := fun c hc => hcomps c (List.mem_reverse.1 hc)
  obtain ⟨ns, ds, hst, hns, hds, hr⟩ := h
  rw [Clean_eq_render]
  cases r with
  | true =>
    have hds0 := hr rfl
    subst hds0
    simp only [List.append_nil] at hst
    subst hst
    have hl : (render true st).toList = '/' :: joinSlash st.reverse := by
      simp [render]
    rw [hl]
    have hhead : decide (('/' :: joinSlash st.reverse).head? = some '/') = true := by simp
    rw [hhead]
    by_cases hne : st = []
    · subst hne
      rfl
    · have hne2 : st.reverse ≠ [] := by simpa using hne
      have hsp : splitSlash ('/' :: joinSlash st.reverse) = [] :: st.reverse := by
        rw [splitSlash, if_pos rfl, splitSlash_joinSlash hne2 (fun c hc => (hrev c hc).2)]
      rw [hsp, List.foldl_cons]
      have h0 : cleanStep true [] [] = [] := rfl
      rw [h0, foldl_plain true st.reverse [] (fun c hc => hns c (List.mem_reverse.1 hc))]
      simp
  | false =>
    by_cases hne : st = []
    · subst hne
      rfl
    · have hne2 : st.reverse ≠ [] := by simpa using hne
      have hj := joinSlash_ne_nil hne2 (fun c hc => (hrev c hc).1)
      have hl : (render false st).toList = joinSlash st.reverse := by
        simp [render, hj]
      rw [hl]
      have hhead : decide ((joinSlash st.reverse).head? = some '/') = false := by
        cases hsr : st.reverse with
        | nil => exact absurd hsr hne2
        | cons a rest =>
          have ha := hrev a (by rw [hsr]; exact List.mem_cons_self _ _)
          rw [joinSlash_head rest ha.1]
          cases a with
          | nil => exact absurd rfl ha.1
          | cons x xs =>
            simp only [List.head?_cons, Option.some.injEq, decide_eq_false_iff_not]
            intro hx
            exact ha.2 (hx ▸ List.mem_cons_self _ _)
      rw [hhead, splitSlash_joinSlash hne2 (fun c hc => (hrev c hc).2)]
      have hfold : st.reverse.foldl (cleanStep false) [] = st := by
        rw [hst, List.reverse_append, List.foldl_append,
          foldl_dotdot ds.reverse [] (fun c hc => hds c (List.mem_reverse.1 hc)) (by simp),
          foldl_plain false ns.reverse _ (fun c hc => hns c (List.mem_reverse.1 hc))]
        simp
      rw [hfold]

theorem Clean_idem (x : String) : Clean (Clean x) = Clean x := by
  obtain ⟨r, st, hs, hx⟩ := Clean_shape x
  rw [hx]
  exact Clean_render hs

theorem Join_clean (a b : String) : Join a b = "" ∨ Clean (Join a b) = Join a b := by
  unfold Join
  split
  · exact Or.inr (Clean_idem _)
  · split
    · exact Or.inr (Clean_idem _)
    · exact Or.inl rfl

theorem mkdirChain_single {d d1 : Disk} {q : String}
    (h : mkdirChain d [q] = (d1, none)) : d1.isDir q = true := by
  unfold mkdirChain at h
  unfold Disk.isDir
  split at h
  · simp at h
  · rename_i hl
    simp only [mkdirChain, Prod.mk.injEq, and_true] at h
    subst h
    simp [hl]
  · split at h
    · rename_i hq
      simp only [Bool.or_eq_true, decide_eq_true_eq] at hq
      rcases hq with hq | hq <;> simp [hq]
    · simp only [mkdirChain, Prod.mk.injEq, and_true] at h
      subst h
      simp [Disk.lookup_set]

theorem mkdirAll_isDir {d d1 : Disk} {p : String} (h : d.mkdirAll p = (d1, none)) :
    p ≠ "" ∧ d1.isDir (Clean p) = true := by
  unfold Disk.mkdirAll at h
  split at h
  · simp at h
  · rename_i hp
    refine ⟨hp, ?_⟩
    split at h
    · simp at h
    · exact mkdirChain_single h

theorem Disk.writeFile_isDir (d : Disk) (p : String) (x : Bytes) {q : String}
    (h : d.isDir q = true) : (d.writeFile p x).1.isDir q = true := by
  unfold Disk.writeFile
  split
  · exact h
  · rename_i hp
    split
    · by_cases hqp : q = p
      · rw [hqp] at h
        exact absurd h hp
      · unfold Disk.isDir at h ⊢
        simp only
        rw [Disk.lookup_set, if_neg hqp]
        exact h
    · exact h

theorem Disk.writeFile_notDir (d : Disk) (p : String) (x : Bytes) {q : String}
    (h : Disk.lookup d q ≠ some .dir) : Disk.lookup (d.writeFile p x).1 q ≠ some .dir := by
  unfold Disk.writeFile
  split
  · exact h
  · split
    · simp only
      rw [Disk.lookup_set]
      split
      · simp
      · exact h
    · exact h

theorem Disk.writeFile_ok {d d1 : Disk} {p : String} {x : Bytes}
    (h : d.writeFile p x = (d1, none)) (y : Bytes) :
    Disk.lookup (d.writeFile p y).1 p = some (.file y) := by
  unfold Disk.writeFile at h ⊢
  split at h
  · simp at h
  · rename_i hp
    rw [if_neg hp]
    split at h
    · rename_i hd
      rw [if_pos hd]
      simp only
      rw [Disk.lookup_set, if_pos rfl]
    · simp at h

theorem writeAll_isDir (files : List (String × Bytes)) (d : Disk) {q : String}
    (h : d.isDir q = true) : (writeAll d files).1.isDir q = true := by
  induction files generalizing d with
  | nil => exact h
  | cons f rest ih =>
    obtain ⟨p, x⟩ := f
    have h1 := Disk.writeFile_isDir d p x h
    unfold writeAll
    rcases hw : d.writeFile p x with ⟨d1, e⟩
    rw [hw] at h1
    cases e with
    | some err => exact h1
    | none => exact ih d1 h1

theorem writeAll_notDir (files : List (String × Bytes)) (d : Disk) {q : String}
    (h : Disk.lookup d q ≠ some .dir) : Disk.lookup (writeAll d files).1 q ≠ some .dir := by
  induction files generalizing d with
  | nil => exact h
  | cons f rest ih =>
    obtain ⟨p, x⟩ := f
    have h1 := Disk.writeFile_notDir d p x h
    unfold writeAll
    rcases hw : d.writeFile p x with ⟨d1, e⟩
    rw [hw] at h1
    cases e with
    | some err => exact h1
    | none => exact ih d1 h1

theorem runFFmpeg_disk {τ : Type} (env : Env τ) (w : World τ) (a b c : String) :
    ∃ files, (runFFmpeg env w a b c).1.disk = (writeAll w.disk files).1 := by
  rcases hr : w.disk.readFile a with err | source
  · refine ⟨[], ?_⟩
    simp only [runFFmpeg, hr]
    rfl
  · refine ⟨(match (env.ffmpeg source).manifest with
      | none => (env.ffmpeg source).segments.enum.map
          (fun x => (String.mk (expandPattern b.toList x.1), x.2))
      | some m => (env.ffmpeg source).segments.enum.map
          (fun x => (String.mk (expandPattern b.toList x.1), x.2)) ++ [(c, m)]), ?_⟩
    simp only [runFFmpeg, hr]
    have e : (w.emit (Event.ffmpeg a b c)).disk = w.disk := rfl
    rw [e]
    split
    · rename_i heq
      rw [heq]
    · rename_i heq
      rw [heq]

theorem fetchSource_isDir {τ : Type} (env : Env τ) (cfg : Config) (w : World τ) (k : String)
    {q : String} (h : w.disk.isDir q = true) : (fetchSource env cfg w k).1.disk.isDir q = true := by
  unfold fetchSource
  split
  · unfold appwriteGetFile
    simp only
    split
    · exact h
    · split
      · exact h
      · split
        · exact h
        · exact Disk.writeFile_isDir _ _ _ h
  · unfold FGetObject
    simp only
    split
    · exact h
    · exact Disk.writeFile_isDir _ _ _ h

theorem fetchSource_file {τ : Type} (env : Env τ) (cfg : Config) (w w2 : World τ) (k : String)
    (h : fetchSource env cfg w k = (w2, none)) :
    ∃ x, Disk.lookup w2.disk (Join cfg.tempDir (k ++ ".mp4")) = some (.file x) := by
  unfold fetchSource at h
  split at h
  · unfold appwriteGetFile at h
    simp only at h
    split at h
    · simp at h
    · rename_i response _
      split at h
      · simp at h
      · split at h
        · simp at h
        · rename_i d1 hw
          simp only [Prod.mk.injEq] at h
          refine ⟨response.Body, ?_⟩
          rw [← h.1]
          exact Disk.writeFile_ok hw _
  · unfold FGetObject at h
    simp only at h
    split at h
    · simp at h
    · rename_i data _
      simp only [Prod.mk.injEq] at h
      refine ⟨data, ?_⟩
      rw [← h.1]
      simp only
      have hw : (w.emit (Event.fGetObject (cfg.inputDir ++ "/" ++ k ++ ".mp4")
          (Join cfg.tempDir (k ++ ".mp4")))).disk.writeFile (Join cfg.tempDir (k ++ ".mp4")) data
          = (((w.emit (Event.fGetObject (cfg.inputDir ++ "/" ++ k ++ ".mp4")
          (Join cfg.tempDir (k ++ ".mp4")))).disk.writeFile
            (Join cfg.tempDir (k ++ ".mp4")) data).1, none) := by
        rw [← h.2]
      exact Disk.writeFile_ok hw data

theorem Disk.lookup_remove_self (d : Disk) (p : String) (x : Bytes) :
    Disk.lookup (d.remove p).1 p ≠ some (.file x) := by
  unfold Disk.remove
  split
  · rename_i h
    simp [h]
  · simp only
    rw [Disk.lookup_erase, if_pos rfl]
    simp
  · rename_i h
    split
    · simp [h]
    · simp only
      rw [Disk.lookup_erase, if_pos rfl]
      simp

theorem Disk.lookup_remove_notDir (d : Disk) {p : String}
    (h : Disk.lookup d p ≠ some .dir) : Disk.lookup (d.remove p).1 p = none := by
  unfold Disk.remove
  split
  · rename_i h1
    exact h1
  · simp only
    rw [Disk.lookup_erase, if_pos rfl]
  · rename_i h1
    exact absurd h1 h

theorem walkVisit_sub {τ : Type} (env : Env τ) (cfg : Config) (k hlsDir : String)
    (names : List String) (w : World τ) (q : String) :
    Disk.lookup (walkVisit (uploadCallback env cfg k hlsDir) names w).1.disk q
        = Disk.lookup w.disk q
      ∨ Disk.lookup (walkVisit (uploadCallback env cfg k hlsDir) names w).1.disk q = none := by
  induction names generalizing w with
  | nil => exact Or.inl rfl
  | cons p rest ih =>
    have hd := uploadCallback_disk env cfg k hlsDir p (w.disk.lookup p) w
    rw [walkVisit_cons]
    rcases hcb : uploadCallback env cfg k hlsDir p (w.disk.lookup p) w with ⟨w1, e⟩
    rw [hcb] at hd
    simp only at hd
    have h1 := Disk.lookup_remove_sub w.disk p q
    rw [← hd] at h1
    cases e with
    | some err => exact h1
    | none =>
      simp only
      rcases ih w1 with h2 | h2
      · rw [h2]
        exact h1
      · exact Or.inr h2

theorem walkVisit_clears {τ : Type} (env : Env τ) (cfg : Config) (k hlsDir : String)
    (names : List String) (w w1 : World τ)
    (h : walkVisit (uploadCallback env cfg k hlsDir) names w = (w1, none)) :
    ∀ p ∈ names, ∀ x, Disk.lookup w1.disk p ≠ some (.file x) := by
  induction names generalizing w with
  | nil => intro p hp; simp at hp
  | cons a rest ih =>
    have hd := uploadCallback_disk env cfg k hlsDir a (w.disk.lookup a) w
    rw [walkVisit_cons] at h
    rcases hcb : uploadCallback env cfg k hlsDir a (w.disk.lookup a) w with ⟨w0, e⟩
    rw [hcb] at hd h
    simp only at hd
    cases e with
    | some err => simp at h
    | none =>
      simp only at h
      intro p hp x
      rcases List.mem_cons.mp hp with hpa | hpr
      · subst hpa
        have hs := walkVisit_sub env cfg k hlsDir rest w0 p
        rw [h] at hs
        simp only at hs
        rcases hs with hs | hs
        · rw [hs, hd]
          exact Disk.lookup_remove_self w.disk p x
        · rw [hs]
          simp
      · exact ih w0 h p hpr x

theorem uploadHLSFiles_sub {τ : Type} (env : Env τ) (cfg : Config) (k hlsDir : String)
    (w : World τ) (q : String) :
    Disk.lookup (uploadHLSFiles env cfg w k hlsDir).1.disk q = Disk.lookup w.disk q
      ∨ Disk.lookup (uploadHLSFiles env cfg w k hlsDir).1.disk q = none := by
  have hcb : ∀ (info : Option Node),
      Disk.lookup (uploadCallback env cfg k hlsDir hlsDir info w).1.disk q = Disk.lookup w.disk q
      ∨ Disk.lookup (uploadCallback env cfg k hlsDir hlsDir info w).1.disk q = none := by
    intro info
    rw [uploadCallback_disk]
    exact Disk.lookup_remove_sub w.disk hlsDir q
  unfold uploadHLSFiles Walk
  simp only
  split
  · exact hcb none
  · exact hcb _
  · rcases hr : uploadCallback env cfg k hlsDir hlsDir (some Node.dir) w with ⟨w0, e⟩
    have h1 := hcb (some Node.dir)
    rw [hr] at h1
    simp only at h1
    cases e with
    | some err => exact h1
    | none =>
      simp only
      rcases walkVisit_sub env cfg k hlsDir (w.disk.descendants hlsDir) w0 q with h2 | h2
      · rw [h2]
        exact h1
      · exact Or.inr h2

theorem uploadHLSFiles_clears {τ : Type} (env : Env τ) (cfg : Config) (k hlsDir : String)
    (w w1 : World τ) (hdir : w.disk.isDir hlsDir = true)
    (h : uploadHLSFiles env cfg w k hlsDir = (w1, none)) :
    ∀ p, below hlsDir p = true → ∀ x, Disk.lookup w1.disk p ≠ some (.file x) := by
  intro p hp x hx
  have hsub := uploadHLSFiles_sub env cfg k hlsDir w p
  rw [h] at hsub
  simp only at hsub
  have hold : Disk.lookup w.disk p = some (.file x) := by
    rcases hsub with hs | hs
    · rw [← hs]
      exact hx
    · rw [hs] at hx
      simp at hx
  have hmem : p ∈ w.disk.descendants hlsDir :=
    mem_descendants.mpr ⟨Disk.lookup_mem_keys hold, hp⟩
  have hinfo : (if hlsDir = "/" ∨ hlsDir = "." then some Node.dir else w.disk.lookup hlsDir)
      = some Node.dir := by
    unfold Disk.isDir at hdir
    simp only [Bool.or_eq_true, decide_eq_true_eq] at hdir
    rcases hdir with (h1 | h1) | h1
    · rw [if_pos (Or.inl h1)]
    · rw [if_pos (Or.inr h1)]
    · split
      · rfl
      · exact h1
  unfold uploadHLSFiles Walk at h
  simp only [hinfo] at h
  rcases hr : uploadCallback env cfg k hlsDir hlsDir (some Node.dir) w with ⟨w0, e⟩
  rw [hr] at h
  cases e with
  | some err => simp at h
  | none =>
    simp only at h
    exact walkVisit_clears env cfg k hlsDir _ w0 w1 h p hmem x hx

theorem convertToHLS_eq {τ : Type} (env : Env τ) (cfg : Config) (w w1 w2 : World τ) (k : String)
    (hmk : osMkdirAll w (Join cfg.tempDir k) = (w1, none))
    (hfetch : fetchSource env cfg w1 k = (w2, none)) :
    convertToHLS env cfg w k =
      match runFFmpeg env w2 (Join cfg.tempDir (k ++ ".mp4"))
          (Join (Join cfg.tempDir k) "segment%03d.ts")
          (Join (Join cfg.tempDir k) "playlist.m3u8") with
      | (w3, some err) => (osRemove w3 (Join cfg.tempDir (k ++ ".mp4")), some err)
      | (w3, none) =>
        match uploadHLSFiles env cfg w3 k (Join cfg.tempDir k) with
        | (w4, err) => (osRemove w4 (Join cfg.tempDir (k ++ ".mp4")), err) := by
  unfold fetchSource at hfetch
  unfold convertToHLS
  simp only [hmk, hfetch]

/-- **C9, amended.**  For an execution of `convertToHLS(k)` that runs alone, from
its first call to its return with no other request or process touching the local
disk in between, on a file system where `os.Remove` of a regular file removes
it: once the execution has created its workspace and downloaded the source, the
downloaded file `<tempDir>/k.mp4` does not exist when it returns, whatever the
engine and the uploads did; and when it returns without an error, no regular
file is left below the workspace `<tempDir>/k`. -/
theorem workspace_cleanup {τ : Type} (env : Env τ) (cfg : Config) (w w1 w2 : World τ)
    (k : String)
    (hmk : osMkdirAll w (Join cfg.tempDir k) = (w1, none))
    (hfetch : fetchSource env cfg w1 k = (w2, none)) :
    Disk.lookup (convertToHLS env cfg w k).1.disk (Join cfg.tempDir (k ++ ".mp4")) = none
    ∧ ((convertToHLS env cfg w k).2 = none →
        ∀ p, below (Join cfg.tempDir k) p = true →
          ∀ x, Disk.lookup (convertToHLS env cfg w k).1.disk p ≠ some (.file x)) := by
  rw [convertToHLS_eq env cfg w w1 w2 k hmk hfetch]
  -- the workspace is a directory from `os.MkdirAll` on
  have hdir1 : w1.disk.isDir (Join cfg.tempDir k) = true := by
    have h1 : w.disk.mkdirAll (Join cfg.tempDir k) = (w1.disk, none) := by
      unfold osMkdirAll at hmk
      simp only [Prod.mk.injEq] at hmk
      rw [← hmk.1]
      exact Prod.ext rfl hmk.2
    obtain ⟨hne, hd⟩ := mkdirAll_isDir h1
    rcases Join_clean cfg.tempDir k with hj | hj
    · exact absurd hj hne
    · rw [hj] at hd
      exact hd
  have hdir2 : w2.disk.isDir (Join cfg.tempDir k) = true := by
    have := fetchSource_isDir env cfg w1 k hdir1
    rw [hfetch] at this
    exact this
  obtain ⟨x0, hfile⟩ := fetchSource_file env cfg w1 w2 k hfetch
  obtain ⟨files, hff⟩ := runFFmpeg_disk env w2 (Join cfg.tempDir (k ++ ".mp4"))
    (Join (Join cfg.tempDir k) "segment%03d.ts") (Join (Join cfg.tempDir k) "playlist.m3u8")
  rcases hrun : runFFmpeg env w2 (Join cfg.tempDir (k ++ ".mp4"))
    (Join (Join cfg.tempDir k) "segment%03d.ts")
    (Join (Join cfg.tempDir k) "playlist.m3u8") with ⟨w3, e3⟩
  rw [hrun] at hff
  simp only at hff
  have hnd3 : Disk.lookup w3.disk (Join cfg.tempDir (k ++ ".mp4")) ≠ some .dir := by
    rw [hff]
    apply writeAll_notDir
    rw [hfile]
    simp
  have hdir3 : w3.disk.isDir (Join cfg.tempDir k) = true := by
    rw [hff]
    exact writeAll_isDir files w2.disk hdir2
  cases e3 with
  | some err =>
    simp only
    refine ⟨Disk.lookup_remove_notDir w3.disk hnd3, ?_⟩
    intro h
    simp at h
  | none =>
    simp only
    rcases hup : uploadHLSFiles env cfg w3 k (Join cfg.tempDir k) with ⟨w4, e4⟩
    simp only
    have hsub := uploadHLSFiles_sub env cfg k (Join cfg.tempDir k) w3
    rw [hup] at hsub
    simp only at hsub
    constructor
    · apply Disk.lookup_remove_notDir
      rcases hsub (Join cfg.tempDir (k ++ ".mp4")) with hs | hs
      · rw [hs]
        exact hnd3
      · rw [hs]
        simp
    · intro he
      subst he
      intro p hp x
      have hc := uploadHLSFiles_clears env cfg k (Join cfg.tempDir k) w3 w4 hdir3 hup p hp x
      show Disk.lookup (w4.disk.remove (Join cfg.tempDir (k ++ ".mp4"))).1 p ≠ _
      rcases Disk.lookup_remove_sub w4.disk (Join cfg.tempDir (k ++ ".mp4")) p with hs | hs
      · rw [hs]
        exact hc
      · rw [hs]
        simp

theorem workspace_cleanup_witness :
    osMkdirAll freshWorld (Join refConfig.tempDir "k")
        = ((osMkdirAll freshWorld (Join refConfig.tempDir "k")).1, none)
    ∧ fetchSource refEnv refConfig (osMkdirAll freshWorld (Join refConfig.tempDir "k")).1 "k"
        = ((fetchSource refEnv refConfig
            (osMkdirAll freshWorld (Join refConfig.tempDir "k")).1 "k").1, none)
    ∧ (convertToHLS refEnv refConfig freshWorld "k").2 = none
    ∧ Disk.lookup (convertToHLS refEnv refConfig freshWorld "k").1.disk
        (Join refConfig.tempDir ("k" ++ ".mp4")) = none
    ∧ ((convertToHLS refEnv refConfig freshWorld "k").2 = none →
        ∀ p, below (Join refConfig.tempDir "k") p = true →
          ∀ x, Disk.lookup (convertToHLS refEnv refConfig freshWorld "k").1.disk p
            ≠ some (.file x)) :=
  ⟨by rfl, by rfl, by decide,
   (workspace_cleanup refEnv refConfig freshWorld _ _ "k" (by rfl) (by rfl)).1,
   (workspace_cleanup refEnv refConfig freshWorld _ _ "k" (by rfl) (by rfl)).2⟩

/-- **C9, counterexample.**  The workspace is left on the local disk on every
exit path.  When the source of `zz` is missing, `convertToHLS` fails and the
directory `tmp/zz` it created remains.  When the engine fails, the segment it
wrote remains in `tmp/k`.  When the store refuses a segment, the segment after it
remains.  When everything succeeds, the directory `tmp/k` itself remains.  And
when two requests for `k` overlap, the first leaves `convertToHLS` without an
error, on its way to serve the object, while the manifest and a segment the
engine of the second wrote lie in `tmp/k`. -/
theorem workspace_left_behind :
    ((convertToHLS refEnv refConfig freshWorld "zz").2 ≠ none
      ∧ Disk.lookup (convertToHLS refEnv refConfig freshWorld "zz").1.disk "tmp/zz"
          = some .dir)
    ∧ ((convertToHLS crashingEnv refConfig freshWorld "k").2 = some "exit status 1"
      ∧ Disk.lookup (convertToHLS crashingEnv refConfig freshWorld "k").1.disk
          "tmp/k/segment000.ts" = some (.file [1]))
    ∧ ((convertToHLS refusingEnv refConfig freshWorld "k").2 = some "upload refused"
      ∧ Disk.lookup (convertToHLS refusingEnv refConfig freshWorld "k").1.disk
          "tmp/k/segment001.ts" = some (.file [2, 3]))
    ∧ ((convertToHLS refEnv refConfig freshWorld "k").2 = none
      ∧ Disk.lookup (convertToHLS refEnv refConfig freshWorld "k").1.disk "tmp/k"
          = some .dir)
    ∧ ((Server.run refEnv refConfig
          ⟨freshWorld, [.start "k/playlist.m3u8", .start "k/playlist.m3u8"]⟩
          [0, 1, 0, 1, 0, 1, 0, 0, 1, 0]).threads[0]? = some (.serve "k" "playlist.m3u8")
      ∧ Disk.lookup (Server.run refEnv refConfig
          ⟨freshWorld, [.start "k/playlist.m3u8", .start "k/playlist.m3u8"]⟩
          [0, 1, 0, 1, 0, 1, 0, 0, 1, 0]).world.disk "tmp/k/playlist.m3u8"
          = some (.file [35])
      ∧ Disk.lookup (Server.run refEnv refConfig
          ⟨freshWorld, [.start "k/playlist.m3u8", .start "k/playlist.m3u8"]⟩
          [0, 1, 0, 1, 0, 1, 0, 0, 1, 0]).world.disk "tmp/k/segment000.ts"
          = some (.file [1])) := by
  decide

theorem runThread_done {τ : Type} (env : Env τ) (cfg : Config) (n : Nat) (w : World τ)
    (r : Response) : runThread env cfg n (w, .done r) = (w, .done r) := by
  induction n with
  | zero => rfl
  | succ n ih =>
    show runThread env cfg n (stepThread env cfg w (.done r)) = _
    exact ih

theorem runThread_succ {τ : Type} (env : Env τ) (cfg : Config) (n : Nat) (w : World τ)
    (pc : PC) : runThread env cfg (n + 1) (w, pc) = runThread env cfg n (stepThread env cfg w pc) :=
  rfl

/-- A request that runs alone does what `handler` does. -/
theorem runThread_handler {τ : Type} (env : Env τ) (cfg : Config) (w : World τ)
    (urlPath : String) :
    runThread env cfg 7 (w, .start urlPath)
      = ((handler env cfg w urlPath).1, .done (handler env cfg w urlPath).2) := by
  rw [runThread_succ]
  unfold handler
  simp only [stepThread]
  rcases hg : getObjectAndFileName urlPath with e | ⟨k, f⟩
  · simp only [runThread_done]
  · simp only
    by_cases hv : (!decide (f = "playlist.m3u8") && !isValidSegmentFilename f) = true
    · simp only [hv, if_true, runThread_done]
    · simp only [hv, if_false, Bool.false_eq_true]
      rcases hc : CheckObject env w (cloudFilePath cfg k f) with ⟨w1, ex, err⟩
      cases err with
      | some e => simp only [runThread_done]
      | none =>
        simp only
        cases ex with
        | true =>
          simp only [Bool.not_true, Bool.false_eq_true, if_false]
          rw [runThread_succ]
          simp only [stepThread]
          rcases hgo : GetObject env w1 (cloudFilePath cfg k f) with ⟨w3, r⟩
          cases r with
          | error e => simp only [runThread_done]
          | ok object =>
            simp only [decide_eq_true_eq]
            split <;> simp only [runThread_done]
        | false =>
          simp only [Bool.not_false, if_true]
          rw [runThread_succ]
          simp only [stepThread]
          unfold convertToHLS
          simp only
          rcases hmk : osMkdirAll (w1.emit (.convert k)) (Join cfg.tempDir k) with ⟨w2, e2⟩
          cases e2 with
          | some e => simp only [runThread_done]
          | none =>
            simp only
            rw [runThread_succ]
            simp only [stepThread]
            have hfs : fetchSource env cfg w2 k =
                (if cfg.useAppwrite then
                  appwriteGetFile env cfg w2 k (Join cfg.tempDir (k ++ ".mp4"))
                else FGetObject env w2 (cfg.inputDir ++ "/" ++ k ++ ".mp4")
                  (Join cfg.tempDir (k ++ ".mp4"))) := rfl
            rw [← hfs]
            rcases hf : fetchSource env cfg w2 k with ⟨w3, e3⟩
            cases e3 with
            | some e => simp only [runThread_done]
            | none =>
              simp only
              rw [runThread_succ]
              simp only [stepThread]
              rcases hr : runFFmpeg env w3 (Join cfg.tempDir (k ++ ".mp4"))
                (Join (Join cfg.tempDir k) "segment%03d.ts")
                (Join (Join cfg.tempDir k) "playlist.m3u8") with ⟨w4, e4⟩
              cases e4 with
              | some e =>
                simp only
                rw [runThread_succ]
                simp only [stepThread, runThread_done]
              | none =>
                simp only
                rw [runThread_succ]
                simp only [stepThread]
                rcases hu : uploadHLSFiles env cfg w4 k (Join cfg.tempDir k) with ⟨w5, e5⟩
                simp only
                rw [runThread_succ]
                cases e5 with
                | some e => simp only [stepThread, runThread_done]
                | none =>
                  simp only [stepThread]
                  rw [runThread_succ]
                  simp only [stepThread]
                  rcases hgo : GetObject env (osRemove w5 (Join cfg.tempDir (k ++ ".mp4")))
                    (cloudFilePath cfg k f) with ⟨w6, r⟩
                  cases r with
                  | error e => simp only [runThread_done]
                  | ok object =>
                    simp only [decide_eq_true_eq]
                    split <;> simp only [runThread_done]

theorem replicate_append_set {α : Type} (a b : α) (i n : Nat) (h : i < n) :
    (List.replicate i a ++ List.replicate (n - i) b).set i a
      = List.replicate (i + 1) a ++ List.replicate (n - (i + 1)) b := by
  induction i generalizing n with
  | zero =>
    obtain ⟨m, rfl⟩ : ∃ m, n = m + 1 := ⟨n - 1, by omega⟩
    simp [List.replicate_succ]
  | succ i ih =>
    obtain ⟨m, rfl⟩ : ∃ m, n = m + 1 := ⟨n - 1, by omega⟩
    have h1 : m + 1 - (i + 1) = m - i := by omega
    have h2 : m + 1 - (i + 1 + 1) = m - (i + 1) := by omega
    rw [h1, h2, List.replicate_succ, List.cons_append, List.set_cons_succ, ih m (by omega)]
    rfl

theorem replicate_append_get {α : Type} (a b : α) (i n : Nat) (h : i < n) :
    (List.replicate i a ++ List.replicate (n - i) b)[i]? = some b := by
  rw [List.getElem?_append_right (by simp)]
  simp only [List.length_replicate, Nat.sub_self]
  obtain ⟨m, hm⟩ : ∃ m, n - i = m + 1 := ⟨n - i - 1, by omega⟩
  rw [hm, List.replicate_succ]
  simp

theorem CheckObject_store {τ : Type} (env : Env τ) (w w1 : World τ) (path : String)
    (h : w1.store = w.store) :
    CheckObject env w1 path = (w1.emit (.statObject path), (CheckObject env w path).2) := by
  unfold CheckObject
  simp only [h]
  split
  · split <;> rfl
  · rfl

theorem stepThread_start_absent {τ : Type} (env : Env τ) (cfg : Config) (w w1 : World τ)
    (urlPath k f : String)
    (hreq : getObjectAndFileName urlPath = .ok (k, f))
    (hname : f = "playlist.m3u8" ∨ isValidSegmentFilename f = true)
    (habsent : (CheckObject env w (cloudFilePath cfg k f)).2 = (false, none))
    (hstore : w1.store = w.store) :
    stepThread env cfg w1 (.start urlPath)
      = ((w1.emit (.statObject (cloudFilePath cfg k f))).emit (.convert k), .mkdir k f) := by
  have hcond : (!decide (f = "playlist.m3u8") && !isValidSegmentFilename f) = false := by
    rcases hname with h | h <;> simp [h]
  simp only [stepThread, hreq, hcond, CheckObject_store env w w1 _ hstore, habsent]
  rfl

theorem Server.run_schedule_snoc {τ : Type} (env : Env τ) (cfg : Config) (s : Server τ)
    (schedule : List Nat) (i : Nat) :
    Server.run env cfg s (schedule ++ [i]) = Server.step env cfg (Server.run env cfg s schedule) i := by
  unfold Server.run
  rw [List.foldl_append]
  rfl

theorem run_checks {τ : Type} (env : Env τ) (cfg : Config) (w : World τ)
    (urlPath k f : String) (N : Nat)
    (hreq : getObjectAndFileName urlPath = .ok (k, f))
    (hname : f = "playlist.m3u8" ∨ isValidSegmentFilename f = true)
    (habsent : (CheckObject env w (cloudFilePath cfg k f)).2 = (false, none))
    (i : Nat) (hi : i ≤ N) :
    (Server.run env cfg ⟨w, List.replicate N (.start urlPath)⟩ (List.range i)).threads
        = List.replicate i (.mkdir k f) ++ List.replicate (N - i) (.start urlPath)
    ∧ (Server.run env cfg ⟨w, List.replicate N (.start urlPath)⟩ (List.range i)).world.store
        = w.store
    ∧ (Server.run env cfg ⟨w, List.replicate N (.start urlPath)⟩ (List.range i)).world.disk
        = w.disk
    ∧ (Server.run env cfg ⟨w, List.replicate N (.start urlPath)⟩ (List.range i)).world.log.count
        (Event.convert k) = w.log.count (Event.convert k) + i := by
  induction i with
  | zero =>
    refine ⟨?_, rfl, rfl, rfl⟩
    simp [Server.run]
  | succ i ih =>
    obtain ⟨ht, hs, hd, hl⟩ := ih (by omega)
    rw [List.range_succ, Server.run_schedule_snoc]
    rcases hrun : Server.run env cfg ⟨w, List.replicate N (.start urlPath)⟩ (List.range i)
      with ⟨wi, ts⟩
    rw [hrun] at ht hs hd hl
    simp only at ht hs hd hl
    subst ht
    have hget := replicate_append_get (PC.mkdir k f) (PC.start urlPath) i N (by omega)
    have hstep := stepThread_start_absent env cfg w wi urlPath k f hreq hname habsent hs
    unfold Server.step
    simp only [hget, hstep]
    refine ⟨replicate_append_set _ _ i N (by omega), hs, hd, ?_⟩
    simp only [World.emit, List.count_append, hl]
    simp [List.count_cons]
    omega

theorem countP_set_converting (k : String) (l : List PC) (i : Nat) (old new : PC)
    (hget : l[i]? = some old) (hold : converting k old = false)
    (hnew : converting k new = true) :
    (l.set i new).countP (converting k) = l.countP (converting k) + 1 := by
  induction l generalizing i with
  | nil => simp at hget
  | cons x xs ih =>
    cases i with
    | zero =>
      simp only [List.getElem?_cons_zero, Option.some.injEq] at hget
      subst hget
      simp [List.set_cons_zero, List.countP_cons, hold, hnew]
    | succ j =>
      simp only [List.getElem?_cons_succ] at hget
      simp only [List.set_cons_succ, List.countP_cons, ih j hget]
      omega

/-- **C10, amended.**  Requests do not wait for one another.  In every state of
the server, whatever the other requests are doing and however many executions of
`convertToHLS(k)` are in progress, a request for a valid object of `k` that
takes its first step while the store does not hold that object enters
`convertToHLS(k)` in that step: only its own place changes, the number of
executions in progress for `k` rises by one, and the step makes no call but the
existence check.  Hence `N` requests for the same absent object that take their
first steps one after another are all `N` inside `convertToHLS(k)` at once. -/
theorem concurrent_requests_all_convert {τ : Type} (env : Env τ) (cfg : Config)
    (urlPath k f : String)
    (hreq : getObjectAndFileName urlPath = .ok (k, f))
    (hname : f = "playlist.m3u8" ∨ isValidSegmentFilename f = true) :
    (∀ (s : Server τ) (i : Nat), s.threads[i]? = some (.start urlPath) →
        (CheckObject env s.world (cloudFilePath cfg k f)).2 = (false, none) →
        (Server.step env cfg s i).threads = s.threads.set i (.mkdir k f)
        ∧ (Server.step env cfg s i).inProgress k = s.inProgress k + 1
        ∧ (Server.step env cfg s i).world.log
            = s.world.log ++ [.statObject (cloudFilePath cfg k f), .convert k]
        ∧ (Server.step env cfg s i).world.store = s.world.store
        ∧ (Server.step env cfg s i).world.disk = s.world.disk)
    ∧ (∀ (w : World τ) (N : Nat),
        (CheckObject env w (cloudFilePath cfg k f)).2 = (false, none) →
        (Server.run env cfg ⟨w, List.replicate N (.start urlPath)⟩ (List.range N)).threads
            = List.replicate N (.mkdir k f)
        ∧ (Server.run env cfg ⟨w, List.replicate N (.start urlPath)⟩ (List.range N)).inProgress k
            = N
        ∧ (Server.run env cfg ⟨w, List.replicate N (.start urlPath)⟩
            (List.range N)).world.log.count (Event.convert k)
            = w.log.count (Event.convert k) + N) := by
  constructor
  · intro s i hthread habsent
    have hstep := stepThread_start_absent env cfg s.world s.world urlPath k f hreq hname
      habsent rfl
    have hs : Server.step env cfg s i
        = ⟨(s.world.emit (.statObject (cloudFilePath cfg k f))).emit (.convert k),
           s.threads.set i (.mkdir k f)⟩ := by
      unfold Server.step
      simp only [hthread, hstep]
    rw [hs]
    refine ⟨rfl, ?_, ?_, rfl, rfl⟩
    · unfold Server.inProgress
      exact countP_set_converting k s.threads i (.start urlPath) (.mkdir k f) hthread rfl
        (by simp [converting])
    · simp [World.emit]
  · intro w N habsent
    obtain ⟨ht, _, _, hl⟩ :=
      run_checks env cfg w urlPath k f N hreq hname habsent N (Nat.le_refl N)
    have ht1 : (Server.run env cfg ⟨w, List.replicate N (.start urlPath)⟩
        (List.range N)).threads = List.replicate N (.mkdir k f) := by
      rw [ht]
      simp
    refine ⟨ht1, ?_, hl⟩
    unfold Server.inProgress
    rw [ht1, List.countP_replicate]
    simp [converting]

theorem concurrent_requests_all_convert_witness :
    getObjectAndFileName "k/playlist.m3u8" = .ok ("k", "playlist.m3u8")
    ∧ ("playlist.m3u8" = "playlist.m3u8" ∨ isValidSegmentFilename "playlist.m3u8" = true)
    ∧ (CheckObject refEnv freshWorld (cloudFilePath refConfig "k" "playlist.m3u8")).2
        = (false, none)
    ∧ (Server.step refEnv refConfig
        ⟨freshWorld, [.upload "k" "playlist.m3u8", .start "k/playlist.m3u8"]⟩ 1).inProgress "k"
        = 2
    ∧ (Server.run refEnv refConfig ⟨freshWorld, List.replicate 3 (.start "k/playlist.m3u8")⟩
        (List.range 3)).inProgress "k" = 3 :=
  ⟨by rfl, Or.inl rfl, by decide,
   ((concurrent_requests_all_convert refEnv refConfig "k/playlist.m3u8" "k" "playlist.m3u8"
      (by rfl) (Or.inl rfl)).1
      ⟨freshWorld, [.upload "k" "playlist.m3u8", .start "k/playlist.m3u8"]⟩ 1 (by rfl)
      (by decide)).2.1,
   ((concurrent_requests_all_convert refEnv refConfig "k/playlist.m3u8" "k" "playlist.m3u8"
      (by rfl) (Or.inl rfl)).2 freshWorld 3 (by decide)).2.1⟩

/-- **C10, counterexample.**  Two requests for `k/playlist.m3u8` arrive at a
fresh service and take their steps in turn: both find the manifest absent, both
create the workspace `tmp/k`, both download the source and both run the engine.
After eight steps the two executions of `convertToHLS("k")` are in progress at
once, each about to upload, and the engine has been invoked twice. -/
theorem two_generations_at_once :
    (CheckObject refEnv freshWorld (cloudFilePath refConfig "k" "playlist.m3u8")).2
        = (false, none)
    ∧ (Server.run refEnv refConfig
        ⟨freshWorld, [.start "k/playlist.m3u8", .start "k/playlist.m3u8"]⟩
        [0, 1, 0, 1, 0, 1, 0, 1]).threads
        = [.upload "k" "playlist.m3u8", .upload "k" "playlist.m3u8"]
    ∧ (Server.run refEnv refConfig
        ⟨freshWorld, [.start "k/playlist.m3u8", .start "k/playlist.m3u8"]⟩
        [0, 1, 0, 1, 0, 1, 0, 1]).inProgress "k" = 2
    ∧ (Server.run refEnv refConfig
        ⟨freshWorld, [.start "k/playlist.m3u8", .start "k/playlist.m3u8"]⟩
        [0, 1, 0, 1, 0, 1, 0, 1]).world.log.count
        (Event.ffmpeg "tmp/k.mp4" "tmp/k/segment%03d.ts" "tmp/k/playlist.m3u8") = 2 := by
  decide

theorem Ext_nested (pre : String) : Ext (pre ++ "/x.ts") = ".ts" := by
  have hs : (pre ++ "/x.ts").toList = pre.toList ++ ['/', 'x', '.', 't', 's'] := by
    show (pre ++ "/x.ts").data = _
    rw [String.data_append]
    rfl
  unfold Ext
  rw [hs]
  simp [extScan]

theorem mem_nested (pre : String) : '/' ∈ (pre ++ "/x.ts").toList := by
  have hs : (pre ++ "/x.ts").toList = pre.toList ++ ['/', 'x', '.', 't', 's'] := by
    show (pre ++ "/x.ts").data = _
    rw [String.data_append]
    rfl
  rw [hs]
  simp

/-- **C11.**  The handler's validation accepts a filename of more than one path
element.  The request path `k/a/b.ts` is split at its first `/` into the key `k`
and the filename `a/b.ts`; `isValidSegmentFilename` looks at the extension only
and accepts it although it contains a `/`; the handler then asks the store for
`out/k/a/b.ts`, two components below the directory of `k`, and serves it with
status 200, and the local path `tmp/k/a/b.ts` is two components below as well.
The same holds for every filename that ends in `/x.ts`. -/
theorem validation_accepts_nested_filename :
    getObjectAndFileName "k/a/b.ts" = .ok ("k", "a/b.ts")
    ∧ isValidSegmentFilename "a/b.ts" = true
    ∧ '/' ∈ "a/b.ts".toList
    ∧ cloudFilePath refConfig "k" "a/b.ts" = "out/k/a/b.ts"
    ∧ tmpFilePath refConfig "k" "a/b.ts" = "tmp/k/a/b.ts"
    ∧ (handler refEnv refConfig nestedWorld "k/a/b.ts").2
        = ⟨200, some "video/mp2t", .content [7]⟩
    ∧ (handler refEnv refConfig nestedWorld "k/a/b.ts").1.log
        = [.statObject "out/k/a/b.ts", .getObject "out/k/a/b.ts"]
    ∧ ∀ pre : String,
        isValidSegmentFilename (pre ++ "/x.ts") = true ∧ '/' ∈ (pre ++ "/x.ts").toList :=
  ⟨by rfl, by decide, by decide, by decide, by decide, by decide, by decide,
   fun pre => ⟨(isValidSegmentFilename_iff (pre ++ "/x.ts")).2 (Ext_nested pre), mem_nested pre⟩⟩

end GoHLStreamer
